import Mathlib

/-!
# RPG-Game-Jam-3 plugins: sight evaluator and fast-travel registry

A shallow embedding of two plugins of the repository:

* `js/plugins/Krons_AI_base.js`: `eventDistance`, `eventInRange`, `eventInSight`
  and the locator helpers `getXY`, `getDirection`, `getDistance`;
* `js/plugins/CGMZ_FastTravel.js`: the fast travel point record, the
  `CGMZ_Core` operations that seed, query and mutate the point list, the cost
  test of the list window (`meetsCosts`, `isEnabled`), `takeCosts` and
  `onListOk`.

## JavaScript numbers

Tile coordinates, facing directions and region ids are integers and are
embedded as `Int`; the integer arithmetic on them (`e2_xy.X - e1_xy.X`,
`Math.abs`) is exact in binary64 for every map the engine can load.
The remaining numbers (`slope`, `x_inc`, `look_x`, ...) are binary64 values.
A finite binary64 value is embedded as the rational it denotes, and every
arithmetic operation rounds its exact result to the nearest value with a 53 bit
significand, ties to even (`roundBinary64`). The exponent range is not bounded:
the quantities that occur (tile coordinates, their quotients and sums) are far
from the overflow and underflow thresholds of binary64. `Math.hypot` is a
builtin of the JavaScript engine; the engine of RPG Maker MZ (V8, through
NW.js) divides the absolute values by the largest of them, adds the squares of
the quotients by compensated summation, takes the binary64 square root of the
sum and multiplies it by the largest absolute value, each operation rounding
to binary64 (`mathHypot`).

## Mutable state

The array `this._fastTravelPoints` of `CGMZ_Core` is a `List`; every point
object is created by `new` and pushed once, so no two slots share an object and
a write through the reference returned by `getFastTravelPoint` changes exactly
the first slot that holds a point of the name looked up (`storePoint`).

## Calls into the host

`takeCosts` and `onListOk` act on the host only through calls
(`$gameParty.loseGold`, `$gamePlayer.reserveTransfer`, ...); they are embedded
as the list of the calls they make, in order (`HostCall`). What a call does to
the currency and the inventory is not in the sources and is modelled from the
specification (`Ledger`).

The definitions come first; the properties follow.
-/

namespace Kron

/-! ## binary64 arithmetic -/

/-- Number of binary digits of `n`, by halving at most `fuel` times. -/
def bitLengthAux : Nat → Nat → Nat
  | 0, _ => 0
  | fuel + 1, n => if n = 0 then 0 else bitLengthAux fuel (n / 2) + 1

/-- Number of binary digits of `n`: the least `k` with `n < 2 ^ k`. -/
def bitLength (n : Nat) : Nat := bitLengthAux n n

/-- Exponent of the leading bit of the positive rational `n / d`:
the integer `e` with `2 ^ e ≤ n / d < 2 ^ (e + 1)` (for `n, d > 0`). -/
def leadingExponent (n d : Nat) : Int :=
  let e0 : Int := (bitLength n : Int) - (bitLength d : Int)
  if d * 2 ^ e0.toNat ≤ n * 2 ^ (-e0).toNat then e0 else e0 - 1

/-- Round to nearest, ties to even, of the quotient `N / D` of naturals. -/
def roundNearestEven (N D : Nat) : Nat :=
  let m := N / D
  let r := N % D
  if D < 2 * r ∨ (2 * r = D ∧ m % 2 = 1) then m + 1 else m

/-- Rounding of an exact rational result to binary64: the nearest rational of
the form `m * 2 ^ s` with `m < 2 ^ 53`, ties going to the even `m`. -/
def roundBinary64 (q : ℚ) : ℚ :=
  if q = 0 then 0 else
    let n := q.num.natAbs
    let d := q.den
    let s : Int := leadingExponent n d - 52
    let m := roundNearestEven (n * 2 ^ (-s).toNat) (d * 2 ^ s.toNat)
    let v : ℚ := mkRat ((m * 2 ^ s.toNat : Nat) : Int) (2 ^ (-s).toNat)
    if q < 0 then -v else v

/-- The binary64 sum `a + b`. -/
def fadd (a b : ℚ) : ℚ := roundBinary64 (a + b)

/-- The binary64 product `a * b`. -/
def fmul (a b : ℚ) : ℚ := roundBinary64 (a * b)

/-- The binary64 quotient `a / b` for `b ≠ 0`. For `b = 0` JavaScript yields
`NaN` or an infinity; the only such quotient in this plugin (`diff / steps`
with `steps = 0`) is added to `look_x` after the last region test and is never
read, so the value chosen here (`0`) is not observable. -/
def fdiv (a b : ℚ) : ℚ := roundBinary64 (a / b)

/-- `Math.round`: the nearest integer, a tie going to the larger integer
(towards positive infinity). -/
def mathRound (x : ℚ) : Int := ⌊x + 1 / 2⌋

/-- The binary64 difference `a - b`. -/
def fsub (a b : ℚ) : ℚ := roundBinary64 (a - b)

/-- Binary search for the integer square root of `n`: `sqrtBits k n r` adds to
`r` every power of two below `2 ^ k`, from the largest down, that keeps the
square at most `n`. -/
def sqrtBits : Nat → Nat → Nat → Nat
  | 0, _, r => r
  | k + 1, n, r =>
    if (r + 2 ^ k) * (r + 2 ^ k) ≤ n then sqrtBits k n (r + 2 ^ k) else sqrtBits k n r

/-- The integer square root of `n`: the largest `r` with `r * r ≤ n`. -/
def natSqrt (n : Nat) : Nat := sqrtBits (bitLength n) n 0

/-- The binary64 square root: the square root of `q` rounded to the nearest
value with a 53 bit significand. With `2 ^ e ≤ q < 2 ^ (e + 1)` and
`s = ⌊e / 2⌋ - 52` the root is `√(q / 4 ^ s) * 2 ^ s` with
`2 ^ 52 ≤ √(q / 4 ^ s) < 2 ^ 53`, and the significand is that root rounded to
an integer. The plugin takes roots of positive numbers only; the value at
`q ≤ 0` is `0`. -/
def fsqrt (q : ℚ) : ℚ :=
  if q ≤ 0 then 0 else
    let n := q.num.natAbs
    let d := q.den
    let s : Int := leadingExponent n d / 2 - 52
    let N := n * 4 ^ (-s).toNat
    let D := d * 4 ^ s.toNat
    let m := natSqrt (N / D)
    let m1 :=
      if D * (2 * m + 1) ^ 2 < 4 * N ∨ (D * (2 * m + 1) ^ 2 = 4 * N ∧ m % 2 = 1) then m + 1
      else m
    mkRat ((m1 * 2 ^ s.toNat : Nat) : Int) (2 ^ (-s).toNat)

/-- One round of the compensated summation in `Math.hypot`, on the pair
`(sum, compensation)`:
`n = absValue / max; summand = n * n - compensation;
preliminary = sum + summand; compensation = (preliminary - sum) - summand;
sum = preliminary`. -/
def hypotStep (max : ℚ) (acc : ℚ × ℚ) (absValue : ℚ) : ℚ × ℚ :=
  let n := fdiv absValue max
  let summand := fsub (fmul n n) acc.2
  let preliminary := fadd acc.1 summand
  (preliminary, fsub (fsub preliminary acc.1) summand)

/-- `Math.hypot(x, y)` on finite numbers. The language standard leaves the
precision of `Math.hypot` to the implementation; this is the algorithm of V8,
the engine of NW.js on which RPG Maker MZ runs: `max` is the largest absolute
value; the result is `0` when `max` is `0`, and otherwise `sqrt(sum) * max`,
where `sum` is the compensated sum of the squares of the absolute values
divided by `max`, every operation rounding to binary64. -/
def mathHypot (x y : ℚ) : ℚ :=
  let max0 : ℚ := 0
  let max1 := if |x| > max0 then |x| else max0
  let max := if |y| > max1 then |y| else max1
  if max = 0 then 0
  else fmul (fsqrt (([|x|, |y|].foldl (hypotStep max) (0, 0)).1)) max

/-- The value of `slope || 1`: an omitted (`undefined`) or zero slope is
replaced by `1`. -/
def slopeOrDefault : Option ℚ → ℚ
  | none => 1
  | some s => if s = 0 then 1 else s

/-! ## Host state read by the plugin -/

/-- A map character of the engine (event, player or follower): the tile
coordinates `x`, `y` and the facing `direction()`. -/
structure Character where
  x : Int
  y : Int
  direction : Int

/-- The engine globals the plugin reads: `$gameMap.event(id)`, `$gamePlayer`,
`$gamePlayer._followers.follower(idx)` and `$gameMap.regionId(x, y)`. -/
structure Host where
  event : Int → Character
  player : Character
  follower : Int → Character
  regionId : Int → Int → Int

/-- The object `{X: event_x, Y: event_y}` returned by `getXY`. -/
structure XY where
  X : Int
  Y : Int

namespace AI_base

/-- `Kron.AI_base.getDirection(event_id, calling_event)`. -/
def getDirection (h : Host) (event_id calling_event : Int) : Int :=
  if event_id = 0 then (h.event calling_event).direction
  else if event_id = -1 then h.player.direction
  else if event_id < -1 then (h.follower (|event_id| - 2)).direction
  else (h.event event_id).direction

/-- `Kron.AI_base.getXY(event_id, calling_event)`. -/
def getXY (h : Host) (event_id calling_event : Int) : XY :=
  if event_id = 0 then ⟨(h.event calling_event).x, (h.event calling_event).y⟩
  else if event_id = -1 then ⟨h.player.x, h.player.y⟩
  else if event_id < -1 then
    ⟨(h.follower (|event_id| - 2)).x, (h.follower (|event_id| - 2)).y⟩
  else ⟨(h.event event_id).x, (h.event event_id).y⟩

/-- `Kron.AI_base.getDistance(e1x, e1y, e2x, e2y)`. -/
def getDistance (e1x e1y e2x e2y : Int) : Int :=
  ⌊mathHypot ((e1x - e2x : Int) : ℚ) ((e1y - e2y : Int) : ℚ)⌋

end AI_base

namespace Game_Interpreter

open AI_base

/-- `Game_Interpreter.prototype.eventDistance`; `eventId` is `this.eventId()`. -/
def eventDistance (h : Host) (eventId event1_id event2_id : Int) : Int :=
  let e1_loc := getXY h event1_id eventId
  let e2_loc := getXY h event2_id eventId
  getDistance e1_loc.X e1_loc.Y e2_loc.X e2_loc.Y

/-- `Game_Interpreter.prototype.eventInRange`. -/
def eventInRange (h : Host) (eventId event1_id event2_id : Int) (range : ℚ) : Bool :=
  let e1_loc := getXY h event1_id eventId
  let e2_loc := getXY h event2_id eventId
  let e1e2_dist := getDistance e1_loc.X e1_loc.Y e2_loc.X e2_loc.Y
  if (e1e2_dist : ℚ) > range then false else true

/-- The `for (let i = 0; i <= steps; i++)` loop of `eventInSight`, with
`remaining = steps - i` iterations still to come after the current one. -/
def lookLoop (h : Host) (e1_region_id : Int) (x_inc y_inc : ℚ) : Nat → ℚ → ℚ → Bool
  | 0, look_x, look_y =>
    if h.regionId (mathRound look_x) (mathRound look_y) ≠ e1_region_id then false
    else true
  | remaining + 1, look_x, look_y =>
    if h.regionId (mathRound look_x) (mathRound look_y) ≠ e1_region_id then false
    else lookLoop h e1_region_id x_inc y_inc remaining (fadd look_x x_inc) (fadd look_y y_inc)

/-- `Game_Interpreter.prototype.eventInSight(event1_id, event2_id, range, slope)`;
`slope = none` is the call with the optional argument omitted. The preliminary
`this.wait(10)` only sets the wait counter of the interpreter and is not part
of the returned value. -/
def eventInSight (h : Host) (eventId event1_id event2_id : Int) (range : ℚ)
    (slope : Option ℚ) : Bool :=
  let slope := slopeOrDefault slope
  let e1_xy := getXY h event1_id eventId
  let e2_xy := getXY h event2_id eventId
  let diff_x := e2_xy.X - e1_xy.X
  let diff_y := e2_xy.Y - e1_xy.Y
  if eventInRange h eventId event1_id event2_id range = false then false
  else if getDirection h event1_id eventId = 2 ∧
      (¬ (e1_xy.Y < e2_xy.Y) ∨ ((|diff_x| : Int) : ℚ) > fmul slope ((|diff_y| : Int) : ℚ)) then false
  else if getDirection h event1_id eventId = 4 ∧
      (¬ (e1_xy.X > e2_xy.X) ∨ ((|diff_y| : Int) : ℚ) > fmul slope ((|diff_x| : Int) : ℚ)) then false
  else if getDirection h event1_id eventId = 8 ∧
      (¬ (e1_xy.Y > e2_xy.Y) ∨ ((|diff_x| : Int) : ℚ) > fmul slope ((|diff_y| : Int) : ℚ)) then false
  else if getDirection h event1_id eventId = 6 ∧
      (¬ (e1_xy.X < e2_xy.X) ∨ ((|diff_y| : Int) : ℚ) > fmul slope ((|diff_x| : Int) : ℚ)) then false
  else
    let e1_region_id := h.regionId e1_xy.X e1_xy.Y
    let steps := if |diff_x| > |diff_y| then |diff_x| else |diff_y|
    let x_inc := fdiv diff_x steps
    let y_inc := fdiv diff_y steps
    lookLoop h e1_region_id x_inc y_inc steps.toNat e1_xy.X e1_xy.Y

end Game_Interpreter

end Kron

namespace CGMZ

/-! ## Fast travel points -/

/-- One entry of the plugin parameter `Fast Travel Points` after `JSON.parse`.
The numeric parameters hold the number that `Number(...)` returns for them. -/
structure PointData where
  Name : String
  Discovered : String
  Description : String
  Category : String
  Image : String
  Map : Int
  X : Int
  Y : Int
  Direction : Int
  GoldCost : Int
  ItemCostItem : Int
  ItemCostAmount : Int
  TravelSoundEffect : String
  ToastSoundEffect : String
deriving DecidableEq, Repr

/-- The object built by `new CGMZ_FastTravelPoint(point)`. -/
structure CGMZ_FastTravelPoint where
  _name : String
  _discovered : Bool
  _description : String
  _image : String
  _mapId : Int
  _x : Int
  _y : Int
  _dir : Int
  _category : String
  _goldCost : Int
  _itemCostAmount : Int
  _itemCostId : Int
  _hasCosts : Bool
  _travelSe : String
  _toastSe : String
deriving DecidableEq, Repr

/-- The sound effect object `{name, pan, pitch, volume}` of a toast. -/
structure ToastSE where
  name : String
  pan : Int
  pitch : Int
  volume : Int
deriving DecidableEq, Repr

/-- The toast object handed to `$cgmzTemp.createNewToast`. -/
structure Toast where
  CGMZFastTravelToast : Bool
  name : String
  SE : Option ToastSE
deriving DecidableEq, Repr

/-- The globals `Imported.CGMZ_ToastManager` and
`CGMZ.FastTravel.ShowDiscoverToast`. -/
structure ToastOptions where
  CGMZ_ToastManager : Bool
  ShowDiscoverToast : Bool
deriving DecidableEq, Repr

namespace CGMZ_FastTravelPoint

/-- `CGMZ_FastTravelPoint.prototype.initialize` together with `setupCosts`
(the word is reserved in Lean, hence the name `initializePoint`). -/
def initializePoint (point : PointData) : CGMZ_FastTravelPoint where
  _name := point.Name
  _discovered := decide (point.Discovered = "true")
  _description := point.Description
  _image := point.Image
  _mapId := point.Map
  _x := point.X
  _y := point.Y
  _dir := point.Direction
  _category := point.Category
  _goldCost := point.GoldCost
  _itemCostAmount := point.ItemCostAmount
  _itemCostId := point.ItemCostItem
  _hasCosts := decide (point.GoldCost > 0 ∨ point.ItemCostAmount > 0)
  _travelSe := point.TravelSoundEffect
  _toastSe := point.ToastSoundEffect

/-- `CGMZ_FastTravelPoint.prototype.setupDiscoverToast`: the toast that is
passed to `$cgmzTemp.createNewToast`. -/
def setupDiscoverToast (p : CGMZ_FastTravelPoint) : Toast where
  CGMZFastTravelToast := true
  name := p._name
  SE := if p._toastSe ≠ "" then some ⟨p._toastSe, 0, 100, 100⟩ else none

/-- `CGMZ_FastTravelPoint.prototype.discover`: the point after the call and the
toasts created by it. -/
def discover (o : ToastOptions) (p : CGMZ_FastTravelPoint) (discovered : Bool) :
    CGMZ_FastTravelPoint × List Toast :=
  ({ p with _discovered := discovered },
    if discovered ∧ o.CGMZ_ToastManager ∧ o.ShowDiscoverToast then [p.setupDiscoverToast]
    else [])

end CGMZ_FastTravelPoint

/-! ## The registry kept in `CGMZ_Core`

The array `this._fastTravelPoints` is a `List`; before `setupFastTravelVariables`
has run the property is `undefined`, which is `none` in `initializeFastTravelData`.
`createPluginData` and `onAfterLoad` both call `initializeFastTravelData(false)`,
so the queries and commands below always find an array. -/

namespace CGMZ_Core

/-- `CGMZ_Core.prototype.setupFastTravelVariables`. -/
def setupFastTravelVariables : List CGMZ_FastTravelPoint := []

/-- `CGMZ_Core.prototype.getAllFastTravelPoints`. -/
def getAllFastTravelPoints (fastTravelPoints : List CGMZ_FastTravelPoint) :
    List CGMZ_FastTravelPoint := fastTravelPoints

/-- `CGMZ_Core.prototype.getAllDiscoveredFastTravelPoints`. -/
def getAllDiscoveredFastTravelPoints (fastTravelPoints : List CGMZ_FastTravelPoint) :
    List CGMZ_FastTravelPoint :=
  fastTravelPoints.filter (fun point => point._discovered)

/-- `CGMZ_Core.prototype.getFastTravelPoint`: `Array.prototype.find`, with
`undefined` as `none`. -/
def getFastTravelPoint (fastTravelPoints : List CGMZ_FastTravelPoint) (name : String) :
    Option CGMZ_FastTravelPoint :=
  fastTravelPoints.find? (fun point => decide (point._name = name))

/-- One iteration of the `for ... of CGMZ.FastTravel.Points` loop of
`initializeFastTravelData`. -/
def seedStep (fastTravelPoints : List CGMZ_FastTravelPoint) (pointData : PointData) :
    List CGMZ_FastTravelPoint :=
  let point := CGMZ_FastTravelPoint.initializePoint pointData
  if (getFastTravelPoint fastTravelPoints point._name).isNone then fastTravelPoints ++ [point]
  else fastTravelPoints

/-- `CGMZ_Core.prototype.initializeFastTravelData(reinitialize)`, with the
configuration `CGMZ.FastTravel.Points` as `Points`; the result is the array
`this._fastTravelPoints` after the call. -/
def initializeFastTravelData (Points : List PointData) ( reinitialize : Bool)
    (fastTravelPoints : Option (List CGMZ_FastTravelPoint)) : List CGMZ_FastTravelPoint :=
  let start :=
    match fastTravelPoints with
    | none => setupFastTravelVariables
    | some l => if reinitialize then setupFastTravelVariables else l
  Points.foldl seedStep start

/-- One iteration of the loop of `getFastTravelPointCategories`. -/
def categoryStep (categories : List String) (point : CGMZ_FastTravelPoint) : List String :=
  if point._discovered ∧ ¬ categories.contains point._category then
    categories ++ [point._category]
  else categories

/-- `CGMZ_Core.prototype.getFastTravelPointCategories`. -/
def getFastTravelPointCategories (fastTravelPoints : List CGMZ_FastTravelPoint) :
    List String :=
  fastTravelPoints.foldl categoryStep []

/-- `CGMZ_Core.prototype.getAllDiscoveredFastTravelPointsFromCategory`. -/
def getAllDiscoveredFastTravelPointsFromCategory
    (fastTravelPoints : List CGMZ_FastTravelPoint) (category : String) :
    List CGMZ_FastTravelPoint :=
  if category = "all" then getAllDiscoveredFastTravelPoints fastTravelPoints
  else fastTravelPoints.filter
    (fun point => decide (point._category = category) && point._discovered)

/-- The array after the object returned by `getFastTravelPoint(name)` has been
mutated into `point`: the first slot holding a point of that name changes, the
other slots are untouched. -/
def storePoint (name : String) (point : CGMZ_FastTravelPoint) :
    List CGMZ_FastTravelPoint → List CGMZ_FastTravelPoint
  | [] => []
  | p :: ps => if p._name = name then point :: ps else p :: storePoint name point ps

/-- `CGMZ_Core.prototype.discoverFastTravelPoint`: the array after the call
and the toasts created by it. -/
def discoverFastTravelPoint (o : ToastOptions) (fastTravelPoints : List CGMZ_FastTravelPoint)
    (name : String) (discovered : Bool) : List CGMZ_FastTravelPoint × List Toast :=
  match getFastTravelPoint fastTravelPoints name with
  | some point =>
    (storePoint name (point.discover o discovered).1 fastTravelPoints,
      (point.discover o discovered).2)
  | none => (fastTravelPoints, [])

/-- `CGMZ_Core.prototype.changeFastTravelPointMap`. -/
def changeFastTravelPointMap (fastTravelPoints : List CGMZ_FastTravelPoint)
    (name : String) (mapId x y dir : Int) : List CGMZ_FastTravelPoint :=
  match getFastTravelPoint fastTravelPoints name with
  | some point =>
    storePoint name { point with _mapId := mapId, _x := x, _y := y, _dir := dir }
      fastTravelPoints
  | none => fastTravelPoints

/-- `CGMZ_Core.prototype.changeFastTravelPointCategory`. -/
def changeFastTravelPointCategory (fastTravelPoints : List CGMZ_FastTravelPoint)
    (name : String) (category : String) : List CGMZ_FastTravelPoint :=
  match getFastTravelPoint fastTravelPoints name with
  | some point => storePoint name { point with _category := category } fastTravelPoints
  | none => fastTravelPoints

/-- `CGMZ_Core.prototype.getTotalFastTravelPointsDiscovered`. -/
def getTotalFastTravelPointsDiscovered (fastTravelPoints : List CGMZ_FastTravelPoint) : Nat :=
  (getAllDiscoveredFastTravelPoints fastTravelPoints).length

end CGMZ_Core

/-- The plugin commands that change the registry, with their arguments:
`Reinitialize` and the seeding done by `createPluginData` and `onAfterLoad`
(`seed`, for the configuration in force), `discover`, `Change Map` and
`Change Category`. -/
inductive Command where
  | seed (Points : List PointData) ( reinitialize : Bool)
  | discover (name : String) (discovered : Bool)
  | changeMap (name : String) (mapId x y dir : Int)
  | changeCategory (name : String) (category : String)

/-- Effect of one command on `this._fastTravelPoints`. A command other than
seeding that reaches an `undefined` array raises a `TypeError` in
`getFastTravelPoint` before anything is written, so the property stays
`undefined`. -/
def Command.run (o : ToastOptions) :
    Command → Option (List CGMZ_FastTravelPoint) → Option (List CGMZ_FastTravelPoint)
  | .seed Points reinitialize, s => some (CGMZ_Core.initializeFastTravelData Points reinitialize s)
  | _, none => none
  | .discover name discovered, some l =>
    some (CGMZ_Core.discoverFastTravelPoint o l name discovered).1
  | .changeMap name mapId x y dir, some l =>
    some (CGMZ_Core.changeFastTravelPointMap l name mapId x y dir)
  | .changeCategory name category, some l =>
    some (CGMZ_Core.changeFastTravelPointCategory l name category)

/-- The registry after a sequence of commands. -/
def runCommands (o : ToastOptions) (cmds : List Command)
    (s : Option (List CGMZ_FastTravelPoint)) : Option (List CGMZ_FastTravelPoint) :=
  cmds.foldl (fun s c => c.run o s) s


/-! ## Costs and travel -/

/-- The calls that `takeCosts` and `onListOk` make into the host, with their
arguments: `AudioManager.playSe(se)`, `$gameParty.loseGold(amount)`,
`$gameParty.loseItem($dataItems[itemId], amount, includeEquip)`,
`$gamePlayer.reserveTransfer(mapId, x, y, d, fadeType)` and
`SceneManager.goto(Scene_Map)`. -/
inductive HostCall where
  | playSe (se : ToastSE)
  | loseGold (amount : Int)
  | loseItem (itemId : Int) (amount : Int) (includeEquip : Bool)
  | reserveTransfer (mapId x y d fadeType : Int)
  | gotoSceneMap
deriving DecidableEq, Repr

namespace CGMZ_FastTravelPoint

/-- `CGMZ_FastTravelPoint.prototype.hasCosts`. -/
def hasCosts (p : CGMZ_FastTravelPoint) : Bool := p._hasCosts

/-- `CGMZ_FastTravelPoint.prototype.takeCosts`: the host calls it makes, in
order. -/
def takeCosts (p : CGMZ_FastTravelPoint) : List HostCall :=
  [HostCall.loseGold p._goldCost, HostCall.loseItem p._itemCostId p._itemCostAmount false]

end CGMZ_FastTravelPoint

namespace CGMZ_Scene_FastTravel

/-- `CGMZ_Scene_FastTravel.prototype.onListOk`, for the point `fastTravel`
returned by `this._listWindow.item()`: the host calls it makes, in order. -/
def onListOk (fastTravel : CGMZ_FastTravelPoint) : List HostCall :=
  (if fastTravel._travelSe ≠ "" then
      [HostCall.playSe ⟨fastTravel._travelSe, 0, 100, 100⟩]
    else []) ++
    fastTravel.takeCosts ++
    [HostCall.reserveTransfer fastTravel._mapId fastTravel._x fastTravel._y fastTravel._dir 0,
      HostCall.gotoSceneMap]

end CGMZ_Scene_FastTravel

namespace CGMZ_Window_FastTravelList

/-- `CGMZ_Window_FastTravelList.prototype.meetsCosts`; `gold` is the value of
`$gameParty.gold()` and `numItems id` the value of
`$gameParty.numItems($dataItems[id])`. -/
def meetsCosts (gold : Int) (numItems : Int → Int) (point : CGMZ_FastTravelPoint) : Bool :=
  if point.hasCosts then
    if point._goldCost > gold then false
    else if point._itemCostAmount > 0 then
      decide (numItems point._itemCostId ≥ point._itemCostAmount)
    else true
  else true

/-- `CGMZ_Window_FastTravelList.prototype.isEnabled`; `none` is the
`undefined` that `item()` returns when no point is selected. -/
def isEnabled (gold : Int) (numItems : Int → Int) : Option CGMZ_FastTravelPoint → Bool
  | none => false
  | some point => meetsCosts gold numItems point

end CGMZ_Window_FastTravelList

end CGMZ

namespace Kron

/-- The distance as the specification words it, `floor(euclidean(x, y))` for
the offsets `x` and `y`: the Euclidean distance floored to an integer, that is
the integer square root of the sum of the squares. -/
def floorEuclidean (x y : Int) : Int :=
  (natSqrt (x.natAbs ^ 2 + y.natAbs ^ 2) : Nat)

/-- Value of `look_x` (or `look_y`) when iteration `i` of the loop of
`eventInSight` tests it: `start` after `i` binary64 additions of `inc`. -/
def lookAt (start inc : ℚ) : Nat → ℚ
  | 0 => start
  | i + 1 => fadd (lookAt start inc i) inc

/-- The number of steps of the line-of-sight walk from `e1` to `e2`, the
larger of `|diff_x|` and `|diff_y|`. -/
def sightSteps (e1 e2 : XY) : Int :=
  if |e2.X - e1.X| > |e2.Y - e1.Y| then |e2.X - e1.X| else |e2.Y - e1.Y|

/-- The cell whose region id iteration `i` of the loop of `eventInSight`
compares with the region id of the cell of `e1`. -/
def lookCell (e1 e2 : XY) (i : Nat) : Int × Int :=
  (mathRound (lookAt e1.X (fdiv (e2.X - e1.X : Int) (sightSteps e1 e2)) i),
    mathRound (lookAt e1.Y (fdiv (e2.Y - e1.Y : Int) (sightSteps e1 e2)) i))

/-- The cell `(round(ax + i*dx/steps), round(ay + i*dy/steps))` that the
specification names as sample `i` of the line from `e1` to `e2`. -/
def lineCell (e1 e2 : XY) (i : Nat) : Int × Int :=
  (mathRound (e1.X + i * ((e2.X - e1.X : Int) : ℚ) / (sightSteps e1 e2 : ℚ)),
    mathRound (e1.Y + i * ((e2.Y - e1.Y : Int) : ℚ) / (sightSteps e1 e2 : ℚ)))

/-- The cone test as `eventInSight` makes it for an observer at `e1` that
faces `direction` and a target at `e2`: none of the four cone `if`s returns
false for this facing. The product `slope * |d|` is the binary64 product that
the plugin compares with. -/
def inViewCone (direction : Int) (e1 e2 : XY) (slope : ℚ) : Prop :=
  (direction = 2 ∧ e1.Y < e2.Y ∧
      ((|e2.X - e1.X| : Int) : ℚ) ≤ fmul slope ((|e2.Y - e1.Y| : Int) : ℚ)) ∨
    (direction = 8 ∧ e1.Y > e2.Y ∧
      ((|e2.X - e1.X| : Int) : ℚ) ≤ fmul slope ((|e2.Y - e1.Y| : Int) : ℚ)) ∨
    (direction = 4 ∧ e1.X > e2.X ∧
      ((|e2.Y - e1.Y| : Int) : ℚ) ≤ fmul slope ((|e2.X - e1.X| : Int) : ℚ)) ∨
    (direction = 6 ∧ e1.X < e2.X ∧
      ((|e2.Y - e1.Y| : Int) : ℚ) ≤ fmul slope ((|e2.X - e1.X| : Int) : ℚ))

/-- The cone test as the specification words it, with the exact product
`slope * |d|`: facing 2 requires `ay < by` and `|dx| ≤ slope * |dy|`, facing 8
`ay > by` and `|dx| ≤ slope * |dy|`, facing 4 `ax > bx` and
`|dy| ≤ slope * |dx|`, facing 6 `ax < bx` and `|dy| ≤ slope * |dx|`. -/
def specViewCone (direction : Int) (e1 e2 : XY) (slope : ℚ) : Prop :=
  (direction = 2 ∧ e1.Y < e2.Y ∧
      ((|e2.X - e1.X| : Int) : ℚ) ≤ slope * ((|e2.Y - e1.Y| : Int) : ℚ)) ∨
    (direction = 8 ∧ e1.Y > e2.Y ∧
      ((|e2.X - e1.X| : Int) : ℚ) ≤ slope * ((|e2.Y - e1.Y| : Int) : ℚ)) ∨
    (direction = 4 ∧ e1.X > e2.X ∧
      ((|e2.Y - e1.Y| : Int) : ℚ) ≤ slope * ((|e2.X - e1.X| : Int) : ℚ)) ∨
    (direction = 6 ∧ e1.X < e2.X ∧
      ((|e2.Y - e1.Y| : Int) : ℚ) ≤ slope * ((|e2.X - e1.X| : Int) : ℚ))

/-- The three conditions under which the specification has `eventInSight`
return true for an observer at `e1` facing `direction` and a target at `e2`:
floored Euclidean distance at most the range, cone, and equal region ids on
every cell `lineCell e1 e2 i`. -/
def inSightAsSpecified (h : Host) (direction : Int) (e1 e2 : XY) (range slope : ℚ) : Prop :=
  (floorEuclidean (e1.X - e2.X) (e1.Y - e2.Y) : ℚ) ≤ range ∧
    specViewCone direction e1 e2 slope ∧
    ∀ i : Nat, (i : Int) ≤ sightSteps e1 e2 →
      h.regionId (lineCell e1 e2 i).1 (lineCell e1 e2 i).2 = h.regionId e1.X e1.Y

/-- The host of the examples: event `1` stands on cell `(2, 0)` and faces
down, every other event stands on `(3, 6)`; cell `(3, 3)` has region id `1`,
all other cells have region id `0`. -/
def driftHost : Host where
  event := fun i => if i = 1 then ⟨2, 0, 2⟩ else ⟨3, 6, 2⟩
  player := ⟨0, 0, 2⟩
  follower := fun _ => ⟨0, 0, 2⟩
  regionId := fun x y => if x = 3 ∧ y = 3 then 1 else 0

/-- A host with one region id everywhere: event `1` stands on `(5, 5)` and
faces `direction`, every other event stands on `(5, 8)`. -/
def uniformHost (direction : Int) : Host where
  event := fun i => if i = 1 then ⟨5, 5, direction⟩ else ⟨5, 8, 2⟩
  player := ⟨0, 0, 2⟩
  follower := fun _ => ⟨0, 0, 2⟩
  regionId := fun _ _ => 0

end Kron

/-! ## Definitions used to state the properties -/

namespace CGMZ

/-- The names of the points of a registry, in registry order. -/
def pointNames (l : List CGMZ_FastTravelPoint) : List String := l.map (fun p => p._name)

/-- Of the points of a list, the first one of every name, in list order. -/
def keepFirstByName : List CGMZ_FastTravelPoint → List CGMZ_FastTravelPoint
  | [] => []
  | p :: ps => p :: (keepFirstByName ps).filter (fun q => decide (q._name ≠ p._name))

/-- The points a configuration describes, in configuration order. -/
def configuredPoints (Points : List PointData) : List CGMZ_FastTravelPoint :=
  Points.map CGMZ_FastTravelPoint.initializePoint

end CGMZ


namespace CGMZ

/-- The names of the points held by `this._fastTravelPoints`; there is none
while the property is `undefined`. -/
def registryNames : Option (List CGMZ_FastTravelPoint) → List String
  | none => []
  | some l => pointNames l


/-- The categories of the discovered points, one entry per discovered point,
in registry order. -/
def discoveredCategories (l : List CGMZ_FastTravelPoint) : List String :=
  (l.filter (fun p => p._discovered)).map (fun p => p._category)

/-- Of the entries of a list of strings, the first occurrence of each, in
list order. -/
def firstOccurrences : List String → List String
  | [] => []
  | c :: cs => c :: (firstOccurrences cs).filter (fun x => decide (x ≠ c))


/-- The affordability predicate as the specification writes it:
`!hasCost || (balance >= currencyAmount && (itemAmount == 0 ||
itemBalance(itemId) >= itemAmount))`, with `hasCost` true exactly when the
currency amount or the item amount is positive. -/
def affordable (point : CGMZ_FastTravelPoint) (currencyBalance : Int)
    (itemBalanceFn : Int → Int) : Bool :=
  !(decide (point._goldCost > 0 ∨ point._itemCostAmount > 0)) ||
    (decide (currencyBalance ≥ point._goldCost) &&
      (decide (point._itemCostAmount = 0) ||
        decide (itemBalanceFn point._itemCostId ≥ point._itemCostAmount)))

/-- The cached `_hasCosts` of a point holds the value that `setupCosts`
computes from its costs; the constructor establishes this and no command
writes a cost or `_hasCosts` afterwards. -/
def CostsSetUp (p : CGMZ_FastTravelPoint) : Prop :=
  p._hasCosts = decide (p._goldCost > 0 ∨ p._itemCostAmount > 0)

/-- Modelled from the spec: the currency ledger and the inventory of the host
(`$gameParty`), absent from the sources. It holds the currency balance and the
quantity held of every item id (0 for an id that names no item); the host
keeps every balance between 0 and its maximum. -/
structure Ledger where
  gold : Int
  items : Int → Int
  maxGold : Int
  maxItems : Int

/-- Modelled from the spec: a balance after a change, kept between 0 and the
maximum by the host (its clamping, absent from the sources). -/
def clampBalance (v maxV : Int) : Int := max 0 (min v maxV)

/-- Modelled from the spec: `$gameParty.loseGold(amount)`, absent from the
sources: the currency balance is lowered by `amount` and clamped. -/
def Ledger.loseGold (L : Ledger) (amount : Int) : Ledger :=
  { L with gold := clampBalance (L.gold - amount) L.maxGold }

/-- Modelled from the spec: `$gameParty.loseItem($dataItems[itemId], amount,
false)`, absent from the sources: the quantity held of `itemId` is lowered by
`amount` and clamped; no other quantity changes. -/
def Ledger.loseItem (L : Ledger) (itemId amount : Int) : Ledger :=
  { L with items := fun j =>
      if j = itemId then clampBalance (L.items itemId - amount) L.maxItems else L.items j }

/-- Modelled from the spec: the effect of one host call on the ledger; calls
that do not concern the ledger leave it as it is. -/
def Ledger.call (L : Ledger) : HostCall → Ledger
  | .loseGold amount => L.loseGold amount
  | .loseItem itemId amount _ => L.loseItem itemId amount
  | _ => L

/-- Modelled from the spec: the ledger after a sequence of host calls. -/
def Ledger.run (L : Ledger) (calls : List HostCall) : Ledger :=
  calls.foldl Ledger.call L

/-- The ledger is in a state the host can be in: every balance lies between 0
and its maximum. -/
def Ledger.Valid (L : Ledger) : Prop :=
  0 ≤ L.gold ∧ L.gold ≤ L.maxGold ∧ ∀ j, 0 ≤ L.items j ∧ L.items j ≤ L.maxItems

/-- A ledger used in the examples: 15 currency and 3 of every item, the
maxima being 99999999 and 99. -/
def purse : Ledger := ⟨15, fun _ => 3, 99999999, 99⟩

/-- A configured point used in the examples: the undiscovered `Cave` of
category `land`, at map 4, cell (5, 6), facing 8, which costs 10 currency and
2 of item 7 and has a travel sound and a toast sound. -/
def caveData : PointData :=
  ⟨"Cave", "false", "A cave", "land", "", 4, 5, 6, 8, 10, 7, 2, "Warp", "Chime"⟩

/-- The point that the constructor builds from `caveData`. -/
def cavePoint : CGMZ_FastTravelPoint := CGMZ_FastTravelPoint.initializePoint caveData

end CGMZ

namespace Kron

/-- A host with two actors: event `1` is `a`, every other event, the player
and every follower are `b`; `region` gives the region id of a cell. -/
def pairHost (a b : Character) (region : Int → Int → Int) : Host where
  event := fun i => if i = 1 then a else b
  player := b
  follower := fun _ => b
  regionId := region

/-- One of the four cone `if`s of `eventInSight` returns false for an observer
at `e1` that faces `direction`: the facing is the one of the `if`, and the
target is not strictly inside the half-plane the observer faces or its
perpendicular offset is greater than the binary64 product of `slope` and its
forward offset. -/
def failsConeTest (direction : Int) (e1 e2 : XY) (slope : ℚ) : Prop :=
  (direction = 2 ∧ (¬ e1.Y < e2.Y ∨
      ((|e2.X - e1.X| : Int) : ℚ) > fmul slope ((|e2.Y - e1.Y| : Int) : ℚ))) ∨
    (direction = 8 ∧ (¬ e1.Y > e2.Y ∨
      ((|e2.X - e1.X| : Int) : ℚ) > fmul slope ((|e2.Y - e1.Y| : Int) : ℚ))) ∨
    (direction = 4 ∧ (¬ e1.X > e2.X ∨
      ((|e2.Y - e1.Y| : Int) : ℚ) > fmul slope ((|e2.X - e1.X| : Int) : ℚ))) ∨
    (direction = 6 ∧ (¬ e1.X < e2.X ∨
      ((|e2.Y - e1.Y| : Int) : ℚ) > fmul slope ((|e2.X - e1.X| : Int) : ℚ)))

/-- The target is outside the view cone as the specification words it, for an
observer at `e1` that faces `direction`: it is not strictly inside the
half-plane the observer faces, or its perpendicular offset exceeds `slope`
times its forward offset (the exact product). -/
def outsideViewCone (direction : Int) (e1 e2 : XY) (slope : ℚ) : Prop :=
  (direction = 2 ∧ (¬ e1.Y < e2.Y ∨
      ((|e2.X - e1.X| : Int) : ℚ) > slope * ((|e2.Y - e1.Y| : Int) : ℚ))) ∨
    (direction = 8 ∧ (¬ e1.Y > e2.Y ∨
      ((|e2.X - e1.X| : Int) : ℚ) > slope * ((|e2.Y - e1.Y| : Int) : ℚ))) ∨
    (direction = 4 ∧ (¬ e1.X > e2.X ∨
      ((|e2.Y - e1.Y| : Int) : ℚ) > slope * ((|e2.X - e1.X| : Int) : ℚ))) ∨
    (direction = 6 ∧ (¬ e1.X < e2.X ∨
      ((|e2.Y - e1.Y| : Int) : ℚ) > slope * ((|e2.X - e1.X| : Int) : ℚ)))

/-- The binary64 value nearest to `0.3`, `0.299999999999999988897769753748...`. -/
def slope03 : ℚ := 5404319552844595 / 2 ^ 54

/-- Rounding to the nearest integer with a tie going away from zero, the
rounding that the specification ascribes to the sample coordinates. -/
def roundHalfAwayFromZero (x : ℚ) : Int :=
  if 0 ≤ x then ⌊x + 1 / 2⌋ else -⌊-x + 1 / 2⌋

/-- The cells that the loop of `eventInSight` tests when no test fails, in the
order of the walk: `lookCell e1 e2 i` for `i = 0, ..., steps`. -/
def walkCells (e1 e2 : XY) : List (Int × Int) :=
  (List.range ((sightSteps e1 e2).toNat + 1)).map (lookCell e1 e2)

/-- The cell lies in the range of coordinates considered for a map: both
coordinates are at most `2 ^ 20` in absolute value (the engine limits a map to
256 by 256 cells). -/
def CellInRange (e : XY) : Prop := |e.X| ≤ 2 ^ 20 ∧ |e.Y| ≤ 2 ^ 20

end Kron

/-! ## Sight evaluator: auxiliary lemmas -/

namespace Kron

open AI_base Game_Interpreter

theorem lookAt_fadd (start inc : ℚ) (i : Nat) :
    lookAt (fadd start inc) inc i = lookAt start inc (i + 1) := by
  induction i with
  | zero => rfl
  | succ k ih => simp only [lookAt] at ih ⊢; rw [ih]

theorem lookLoop_eq_true_iff (h : Host) (r0 : Int) (x_inc y_inc : ℚ) (n : Nat)
    (look_x look_y : ℚ) :
    lookLoop h r0 x_inc y_inc n look_x look_y = true ↔
      ∀ i : Nat, i ≤ n →
        h.regionId (mathRound (lookAt look_x x_inc i)) (mathRound (lookAt look_y y_inc i)) =
          r0 := by
  induction n generalizing look_x look_y with
  | zero =>
    simp only [lookLoop, Nat.le_zero]
    constructor
    · intro h1 i hi
      subst hi
      by_contra hne
      simp only [lookAt] at hne
      simp [hne] at h1
    · intro h1
      have := h1 0 rfl
      simp [lookAt] at this
      simp [this]
  | succ k ih =>
    simp only [lookLoop]
    constructor
    · intro h1 i hi
      by_cases h0 : h.regionId (mathRound look_x) (mathRound look_y) = r0
      · simp only [h0, ne_eq, not_true_eq_false, if_false] at h1
        cases i with
        | zero => simpa [lookAt] using h0
        | succ j =>
          have := (ih _ _).mp h1 j (Nat.le_of_succ_le_succ hi)
          rwa [lookAt_fadd, lookAt_fadd] at this
      · simp [h0] at h1
    · intro h1
      have h0 : h.regionId (mathRound look_x) (mathRound look_y) = r0 := by
        simpa [lookAt] using h1 0 (Nat.zero_le _)
      simp only [h0, ne_eq, not_true_eq_false, if_false]
      apply (ih _ _).mpr
      intro i hi
      rw [lookAt_fadd, lookAt_fadd]
      exact h1 (i + 1) (Nat.succ_le_succ hi)


theorem eventInRange_eq_true_iff (h : Host) (eventId event1_id event2_id : Int) (range : ℚ) :
    eventInRange h eventId event1_id event2_id range = true ↔
      (eventDistance h eventId event1_id event2_id : ℚ) ≤ range := by
  simp only [eventInRange, eventDistance]
  split_ifs with h1
  · simp only [Bool.false_eq_true, false_iff, not_le]
    exact h1
  · simp only [true_iff]
    exact not_lt.mp h1

theorem sightSteps_nonneg (e1 e2 : XY) : 0 ≤ sightSteps e1 e2 := by
  unfold sightSteps
  split_ifs <;> exact abs_nonneg _

theorem coneChain_eq_true_iff (dir : Int) (a b : XY) (sl : ℚ) (L : Bool) :
    (if dir = 2 ∧ (¬ (a.Y < b.Y) ∨
          ((|b.X - a.X| : Int) : ℚ) > fmul sl ((|b.Y - a.Y| : Int) : ℚ)) then false
      else if dir = 4 ∧ (¬ (a.X > b.X) ∨
          ((|b.Y - a.Y| : Int) : ℚ) > fmul sl ((|b.X - a.X| : Int) : ℚ)) then false
      else if dir = 8 ∧ (¬ (a.Y > b.Y) ∨
          ((|b.X - a.X| : Int) : ℚ) > fmul sl ((|b.Y - a.Y| : Int) : ℚ)) then false
      else if dir = 6 ∧ (¬ (a.X < b.X) ∨
          ((|b.Y - a.Y| : Int) : ℚ) > fmul sl ((|b.X - a.X| : Int) : ℚ)) then false
      else L) = true ↔
      ((dir = 2 ∨ dir = 4 ∨ dir = 6 ∨ dir = 8) → inViewCone dir a b sl) ∧ L = true := by
  by_cases h2 : dir = 2
  · subst h2
    simp only [inViewCone, true_and, true_or, forall_const]
    norm_num
  by_cases h4 : dir = 4
  · subst h4
    simp only [inViewCone, true_and, true_or, or_true, forall_const]
    norm_num
  by_cases h8 : dir = 8
  · subst h8
    simp only [inViewCone, true_and, true_or, or_true, forall_const]
    norm_num
  by_cases h6 : dir = 6
  · subst h6
    simp only [inViewCone, true_and, true_or, or_true, forall_const]
    norm_num
  simp [h2, h4, h6, h8]

/-- The value returned by `eventInSight`, for every facing: the range test,
the cone test when the facing is one of 2, 4, 6, 8, and the region test on
every cell the loop visits. -/
theorem eventInSight_eq_true_iff (h : Host) (eventId event1_id event2_id : Int) (range : ℚ)
    (slope : Option ℚ) :
    eventInSight h eventId event1_id event2_id range slope = true ↔
      (eventDistance h eventId event1_id event2_id : ℚ) ≤ range ∧
      ((getDirection h event1_id eventId = 2 ∨ getDirection h event1_id eventId = 4 ∨
          getDirection h event1_id eventId = 6 ∨ getDirection h event1_id eventId = 8) →
        inViewCone (getDirection h event1_id eventId) (getXY h event1_id eventId)
          (getXY h event2_id eventId) (slopeOrDefault slope)) ∧
      ∀ i : Nat, (i : Int) ≤ sightSteps (getXY h event1_id eventId) (getXY h event2_id eventId) →
        h.regionId (lookCell (getXY h event1_id eventId) (getXY h event2_id eventId) i).1
            (lookCell (getXY h event1_id eventId) (getXY h event2_id eventId) i).2 =
          h.regionId (getXY h event1_id eventId).X (getXY h event1_id eventId).Y := by
  have hloop := lookLoop_eq_true_iff h
    (h.regionId (getXY h event1_id eventId).X (getXY h event1_id eventId).Y)
    (fdiv ((getXY h event2_id eventId).X - (getXY h event1_id eventId).X : Int)
      (sightSteps (getXY h event1_id eventId) (getXY h event2_id eventId)))
    (fdiv ((getXY h event2_id eventId).Y - (getXY h event1_id eventId).Y : Int)
      (sightSteps (getXY h event1_id eventId) (getXY h event2_id eventId)))
    (sightSteps (getXY h event1_id eventId) (getXY h event2_id eventId)).toNat
    (getXY h event1_id eventId).X (getXY h event1_id eventId).Y
  have hsteps : ∀ i : Nat,
      i ≤ (sightSteps (getXY h event1_id eventId) (getXY h event2_id eventId)).toNat ↔
        (i : Int) ≤ sightSteps (getXY h event1_id eventId) (getXY h event2_id eventId) := by
    intro i
    have := sightSteps_nonneg (getXY h event1_id eventId) (getXY h event2_id eventId)
    omega
  have hrange := eventInRange_eq_true_iff h eventId event1_id event2_id range
  simp only [eventInSight]
  by_cases hr : eventInRange h eventId event1_id event2_id range = true
  · have hr2 := hrange.mp hr
    simp only [hr, Bool.true_eq_false, if_false, hr2, true_and]
    have hss : (if |(getXY h event2_id eventId).X - (getXY h event1_id eventId).X| >
          |(getXY h event2_id eventId).Y - (getXY h event1_id eventId).Y| then
        |(getXY h event2_id eventId).X - (getXY h event1_id eventId).X|
        else |(getXY h event2_id eventId).Y - (getXY h event1_id eventId).Y|) =
        sightSteps (getXY h event1_id eventId) (getXY h event2_id eventId) := rfl
    rw [hss, coneChain_eq_true_iff, hloop]
    simp only [hsteps, lookCell]
  · have hr2 : ¬ (eventDistance h eventId event1_id event2_id : ℚ) ≤ range :=
      fun h2 => hr (hrange.mpr h2)
    have hr3 : eventInRange h eventId event1_id event2_id range = false := by
      simpa using hr
    simp [hr3, hr2]

end Kron

/-! ## Fast travel registry: auxiliary lemmas -/

namespace CGMZ

open CGMZ_Core

theorem getFastTravelPoint_isNone_iff (l : List CGMZ_FastTravelPoint) (n : String) :
    (getFastTravelPoint l n).isNone = true ↔ n ∉ pointNames l := by
  induction l with
  | nil => simp [getFastTravelPoint, pointNames]
  | cons p ps ih =>
    by_cases hp : p._name = n
    · simp [getFastTravelPoint, pointNames, List.find?, hp]
    · have hn : ¬ n = p._name := fun h => hp h.symm
      simp [getFastTravelPoint, pointNames, List.find?, hp, hn] at ih ⊢

theorem seedStep_eq (acc : List CGMZ_FastTravelPoint) (pd : PointData) :
    seedStep acc pd =
      if pd.Name ∈ pointNames acc then acc
      else acc ++ [CGMZ_FastTravelPoint.initializePoint pd] := by
  unfold seedStep
  by_cases h : pd.Name ∈ pointNames acc
  · have : ¬ (getFastTravelPoint acc pd.Name).isNone = true := by
      rw [getFastTravelPoint_isNone_iff]; exact not_not.mpr h
    simp [CGMZ_FastTravelPoint.initializePoint, h, this]
  · have : (getFastTravelPoint acc pd.Name).isNone = true := by
      rw [getFastTravelPoint_isNone_iff]; exact h
    simp [CGMZ_FastTravelPoint.initializePoint, h, this]

theorem keepFirstByName_filter (q : String → Bool) (l : List CGMZ_FastTravelPoint) :
    keepFirstByName (l.filter (fun p => q p._name)) =
      (keepFirstByName l).filter (fun p => q p._name) := by
  induction l with
  | nil => simp [keepFirstByName]
  | cons a t ih =>
    by_cases ha : q a._name = true
    · simp only [List.filter_cons, ha, if_true, keepFirstByName, ih, List.filter_filter]
      congr 1
      apply List.filter_congr
      intro x _
      simp [Bool.and_comm]
    · simp only [List.filter_cons, ha, keepFirstByName, List.filter_filter]
      simp only [Bool.false_eq_true, if_false]
      rw [ih]
      apply List.filter_congr
      intro x _
      by_cases hx : q x._name = true
      · have : x._name ≠ a._name := fun h => ha (h ▸ hx)
        simp [hx, this]
      · simp [hx]

theorem foldl_seedStep (Points : List PointData) (acc : List CGMZ_FastTravelPoint) :
    Points.foldl seedStep acc =
      acc ++ keepFirstByName
        ((configuredPoints Points).filter (fun p => decide (p._name ∉ pointNames acc))) := by
  induction Points generalizing acc with
  | nil => simp [configuredPoints, keepFirstByName]
  | cons pd rest ih =>
    rw [List.foldl_cons, ih, seedStep_eq]
    by_cases h : pd.Name ∈ pointNames acc
    · simp [h, configuredPoints, CGMZ_FastTravelPoint.initializePoint]
    · have hname : (CGMZ_FastTravelPoint.initializePoint pd)._name = pd.Name := rfl
      simp only [h, if_false, configuredPoints, List.map_cons, List.filter_cons, hname,
        not_false_eq_true, decide_True, if_true, keepFirstByName, List.append_assoc,
        List.singleton_append]
      congr 2
      rw [← keepFirstByName_filter (fun n => decide (n ≠ pd.Name)), List.filter_filter]
      congr 1
      apply List.filter_congr
      intro x _
      simp [pointNames, hname, Bool.and_comm]


theorem mem_pointNames_keepFirstByName (l : List CGMZ_FastTravelPoint) (n : String) :
    n ∈ pointNames (keepFirstByName l) ↔ n ∈ pointNames l := by
  induction l with
  | nil => simp [keepFirstByName, pointNames]
  | cons p ps ih =>
    simp only [pointNames, List.mem_map, keepFirstByName, List.mem_cons, List.mem_filter,
      decide_eq_true_eq] at ih ⊢
    constructor
    · rintro ⟨a, ha | ⟨ha, _⟩, rfl⟩
      · exact ⟨a, Or.inl ha, rfl⟩
      · obtain ⟨b, hb, hbn⟩ := ih.mp ⟨a, ha, rfl⟩
        exact ⟨b, Or.inr hb, hbn⟩
    · rintro ⟨a, ha | ha, rfl⟩
      · exact ⟨a, Or.inl ha, rfl⟩
      · by_cases h : a._name = p._name
        · exact ⟨p, Or.inl rfl, h.symm⟩
        · obtain ⟨b, hb, hbn⟩ := ih.mpr ⟨a, ha, rfl⟩
          exact ⟨b, Or.inr ⟨hb, by rw [hbn]; exact h⟩, hbn⟩

theorem nodup_pointNames_keepFirstByName (l : List CGMZ_FastTravelPoint) :
    (pointNames (keepFirstByName l)).Nodup := by
  induction l with
  | nil => simp [keepFirstByName, pointNames]
  | cons p ps ih =>
    simp only [pointNames, keepFirstByName, List.map_cons, List.nodup_cons, List.mem_map,
      List.mem_filter, decide_eq_true_eq, not_exists, not_and]
    refine ⟨fun x hx hxn => hx.2 hxn, ?_⟩
    exact List.Nodup.sublist ((List.filter_sublist _).map _) ih

theorem keepFirstByName_of_nodup (l : List CGMZ_FastTravelPoint)
    (h : (pointNames l).Nodup) : keepFirstByName l = l := by
  induction l with
  | nil => rfl
  | cons p ps ih =>
    simp only [pointNames, List.map_cons, List.nodup_cons, List.mem_map, not_exists,
      not_and] at h
    simp only [keepFirstByName, ih h.2]
    congr 1
    rw [List.filter_eq_self]
    intro a ha
    simpa using h.1 a ha

theorem mem_pointNames_foldl_seedStep (Points : List PointData)
    (acc : List CGMZ_FastTravelPoint) (p : CGMZ_FastTravelPoint)
    (hp : p ∈ configuredPoints Points) :
    p._name ∈ pointNames (Points.foldl seedStep acc) := by
  rw [foldl_seedStep]
  by_cases h : p._name ∈ pointNames acc
  · simp only [pointNames, List.map_append, List.mem_append] at h ⊢
    exact Or.inl h
  · have hmem : p._name ∈ pointNames
        ((configuredPoints Points).filter (fun p => decide (p._name ∉ pointNames acc))) := by
      simp only [pointNames, List.mem_map, List.mem_filter, decide_eq_true_eq] at h ⊢
      exact ⟨p, ⟨hp, h⟩, rfl⟩
    have := (mem_pointNames_keepFirstByName _ _).mpr hmem
    simp only [pointNames, List.map_append, List.mem_append] at this ⊢
    exact Or.inr this

theorem pointNames_storePoint (n : String) (q : CGMZ_FastTravelPoint) (hq : q._name = n)
    (l : List CGMZ_FastTravelPoint) : pointNames (storePoint n q l) = pointNames l := by
  induction l with
  | nil => rfl
  | cons p ps ih =>
    unfold storePoint
    by_cases h : p._name = n
    · simp [h, pointNames, hq]
    · simp only [h, if_false, pointNames, List.map_cons] at ih ⊢
      rw [ih]

theorem getFastTravelPoint_name {l : List CGMZ_FastTravelPoint} {n : String}
    {p : CGMZ_FastTravelPoint} (h : getFastTravelPoint l n = some p) : p._name = n := by
  have := List.find?_some h
  simpa using this

theorem nodup_foldl_seedStep (Points : List PointData) (acc : List CGMZ_FastTravelPoint)
    (h : (pointNames acc).Nodup) : (pointNames (Points.foldl seedStep acc)).Nodup := by
  rw [foldl_seedStep]
  unfold pointNames at h ⊢
  rw [List.map_append, List.nodup_append]
  refine ⟨h, nodup_pointNames_keepFirstByName _, ?_⟩
  intro n hn hn2
  have h3 := (mem_pointNames_keepFirstByName _ n).mp hn2
  simp only [pointNames, List.mem_map, List.mem_filter, decide_eq_true_eq] at h3 hn
  obtain ⟨a, ⟨_, ha⟩, rfl⟩ := h3
  exact ha hn


theorem mem_keepFirstByName_iff (l : List CGMZ_FastTravelPoint) (p : CGMZ_FastTravelPoint) :
    p ∈ keepFirstByName l ↔ l.find? (fun q => decide (q._name = p._name)) = some p := by
  induction l with
  | nil => simp [keepFirstByName]
  | cons a t ih =>
    simp only [keepFirstByName, List.mem_cons, List.mem_filter, decide_eq_true_eq,
      List.find?_cons]
    by_cases h : a._name = p._name
    · simp only [h, decide_True]
      constructor
      · rintro (rfl | ⟨_, h2⟩)
        · rfl
        · exact absurd rfl h2
      · intro h2
        exact Or.inl (Option.some.inj h2).symm
    · simp only [h, decide_False]
      rw [← ih]
      constructor
      · rintro (rfl | ⟨h1, _⟩)
        · exact absurd rfl h
        · exact h1
      · intro h1
        exact Or.inr ⟨h1, fun h2 => h h2.symm⟩


theorem find?_filter_of_imp {α : Type} (p q : α → Bool) (l : List α)
    (hpq : ∀ x, p x = true → q x = true) : (l.filter q).find? p = l.find? p := by
  rw [List.find?_filter]
  congr 1
  funext x
  cases hp : p x
  · simp
  · simp [hpq x hp]

theorem getFastTravelPoint_keepFirstByName (l : List CGMZ_FastTravelPoint) (n : String) :
    getFastTravelPoint (keepFirstByName l) n = getFastTravelPoint l n := by
  unfold getFastTravelPoint
  induction l with
  | nil => rfl
  | cons a t ih =>
    simp only [keepFirstByName, List.find?_cons]
    by_cases h : a._name = n
    · simp [h]
    · simp only [h, decide_False]
      rw [find?_filter_of_imp, ih]
      intro x hx
      have hx2 : x._name = n := by simpa using hx
      simpa [hx2] using fun h2 : n = a._name => h h2.symm

theorem nodup_registryNames_run (o : ToastOptions) (c : Command)
    (s : Option (List CGMZ_FastTravelPoint)) (h : (registryNames s).Nodup) :
    (registryNames (c.run o s)).Nodup := by
  cases c with
  | seed Points r =>
    simp only [Command.run, registryNames, initializeFastTravelData]
    apply nodup_foldl_seedStep
    cases s with
    | none => simp [setupFastTravelVariables, pointNames]
    | some l =>
      by_cases hr : r = true
      · simp [hr, setupFastTravelVariables, pointNames]
      · simpa [hr, registryNames] using h
  | discover n d =>
    cases s with
    | none => simp [Command.run, registryNames]
    | some l =>
      simp only [Command.run, registryNames, discoverFastTravelPoint] at h ⊢
      cases hg : getFastTravelPoint l n with
      | none => simpa using h
      | some p =>
        simp only
        rw [pointNames_storePoint n _ (by
          simpa [CGMZ_FastTravelPoint.discover] using getFastTravelPoint_name hg)]
        exact h
  | changeMap n m x y d =>
    cases s with
    | none => simp [Command.run, registryNames]
    | some l =>
      simp only [Command.run, registryNames, changeFastTravelPointMap] at h ⊢
      cases hg : getFastTravelPoint l n with
      | none => simpa using h
      | some p =>
        simp only
        rw [pointNames_storePoint n _ (by simpa using getFastTravelPoint_name hg)]
        exact h
  | changeCategory n c =>
    cases s with
    | none => simp [Command.run, registryNames]
    | some l =>
      simp only [Command.run, registryNames, changeFastTravelPointCategory] at h ⊢
      cases hg : getFastTravelPoint l n with
      | none => simpa using h
      | some p =>
        simp only
        rw [pointNames_storePoint n _ (by simpa using getFastTravelPoint_name hg)]
        exact h

theorem nodup_registryNames_runCommands (o : ToastOptions) (cmds : List Command)
    (s : Option (List CGMZ_FastTravelPoint)) (h : (registryNames s).Nodup) :
    (registryNames (runCommands o cmds s)).Nodup := by
  induction cmds generalizing s with
  | nil => exact h
  | cons c cs ih => exact ih _ (nodup_registryNames_run o c s h)


theorem getFastTravelPoint_eq_some_iff (l : List CGMZ_FastTravelPoint) (n : String)
    (p : CGMZ_FastTravelPoint) :
    getFastTravelPoint l n = some p ↔
      ∃ l1 l2, l = l1 ++ p :: l2 ∧ p._name = n ∧ ∀ q ∈ l1, q._name ≠ n := by
  unfold getFastTravelPoint
  rw [List.find?_eq_some]
  constructor
  · rintro ⟨hp, l1, l2, hl, hq⟩
    refine ⟨l1, l2, hl, by simpa using hp, fun q hq1 => ?_⟩
    simpa using hq q hq1
  · rintro ⟨l1, l2, hl, hp, hq⟩
    refine ⟨by simpa using hp, l1, l2, hl, fun q hq1 => ?_⟩
    simpa using hq q hq1

theorem getFastTravelPoint_isSome_iff (l : List CGMZ_FastTravelPoint) (n : String) :
    (∃ p, getFastTravelPoint l n = some p) ↔ ∃ q ∈ l, q._name = n := by
  rw [← Option.isSome_iff_exists]
  unfold getFastTravelPoint
  simp

theorem storePoint_append (n : String) (p' p : CGMZ_FastTravelPoint)
    (l1 l2 : List CGMZ_FastTravelPoint) (hp : p._name = n) (h1 : ∀ q ∈ l1, q._name ≠ n) :
    storePoint n p' (l1 ++ p :: l2) = l1 ++ p' :: l2 := by
  induction l1 with
  | nil => simp [storePoint, hp]
  | cons a t ih =>
    have ha : a._name ≠ n := h1 a (List.mem_cons_self _ _)
    have ih2 := ih (fun q hq => h1 q (List.mem_cons_of_mem _ hq))
    rw [List.cons_append, storePoint, if_neg ha, ih2, List.cons_append]


theorem mem_firstOccurrences (l : List String) (c : String) :
    c ∈ firstOccurrences l ↔ c ∈ l := by
  induction l with
  | nil => simp [firstOccurrences]
  | cons a t ih =>
    simp only [firstOccurrences, List.mem_cons, List.mem_filter, decide_eq_true_eq, ih]
    by_cases h : c = a
    · simp [h]
    · simp [h]

theorem nodup_firstOccurrences (l : List String) : (firstOccurrences l).Nodup := by
  induction l with
  | nil => simp [firstOccurrences]
  | cons a t ih =>
    simp only [firstOccurrences, List.nodup_cons, List.mem_filter, decide_eq_true_eq]
    exact ⟨fun h => h.2 rfl, List.Nodup.sublist (List.filter_sublist _) ih⟩

theorem pairwise_indexOf_firstOccurrences (l : List String) :
    (firstOccurrences l).Pairwise (fun a b => l.indexOf a < l.indexOf b) := by
  induction l with
  | nil => simp [firstOccurrences]
  | cons c cs ih =>
    simp only [firstOccurrences, List.pairwise_cons, List.mem_filter, decide_eq_true_eq]
    constructor
    · rintro b ⟨_, hb⟩
      rw [List.indexOf_cons_self, List.indexOf_cons_ne _ (fun h => hb h.symm)]
      exact Nat.succ_pos _
    · have h1 := List.Pairwise.filter (fun x => decide (x ≠ c)) ih
      refine List.Pairwise.imp_of_mem ?_ h1
      intro a b ha hb hab
      have ha2 : a ≠ c := by simpa using (List.mem_filter.mp ha).2
      have hb2 : b ≠ c := by simpa using (List.mem_filter.mp hb).2
      rw [List.indexOf_cons_ne _ (fun h => ha2 h.symm),
        List.indexOf_cons_ne _ (fun h => hb2 h.symm)]
      exact Nat.succ_lt_succ hab

theorem foldl_categoryStep (l : List CGMZ_FastTravelPoint) (acc : List String) :
    l.foldl categoryStep acc =
      acc ++ (firstOccurrences (discoveredCategories l)).filter
        (fun c => decide (c ∉ acc)) := by
  induction l generalizing acc with
  | nil => simp [discoveredCategories, firstOccurrences]
  | cons p t ih =>
    rw [List.foldl_cons, ih]
    by_cases hd : p._discovered = true
    · have hD : discoveredCategories (p :: t) = p._category :: discoveredCategories t := by
        simp [discoveredCategories, hd]
      rw [hD]
      by_cases hc : p._category ∈ acc
      · have hstep : categoryStep acc p = acc := by simp [categoryStep, hc]
        rw [hstep]
        simp only [firstOccurrences, List.filter_cons, hc, not_true_eq_false, decide_False,
          Bool.false_eq_true, if_false, List.filter_filter]
        congr 1
        apply List.filter_congr
        intro x _
        by_cases hx : x ∈ acc
        · simp [hx]
        · have : x ≠ p._category := fun h => hx (h ▸ hc)
          simp [hx, this]
      · have hstep : categoryStep acc p = acc ++ [p._category] := by
          simp [categoryStep, hd, hc]
        rw [hstep]
        simp only [firstOccurrences, List.filter_cons, hc, not_false_eq_true, decide_True,
          if_true, List.filter_filter, List.append_assoc, List.singleton_append]
        congr 2
        apply List.filter_congr
        intro x _
        simp [Bool.and_comm, not_or]
    · have hD : discoveredCategories (p :: t) = discoveredCategories t := by
        simp [discoveredCategories, hd]
      have hstep : categoryStep acc p = acc := by simp [categoryStep, hd]
      rw [hD, hstep]

end CGMZ

/-! ## Costs and travel: auxiliary lemmas -/

namespace CGMZ

open CGMZ_Core CGMZ_Window_FastTravelList

theorem costsSetUp_initializePoint (d : PointData) :
    CostsSetUp (CGMZ_FastTravelPoint.initializePoint d) := rfl

theorem mem_storePoint {n : String} {p' q : CGMZ_FastTravelPoint}
    {l : List CGMZ_FastTravelPoint} (h : q ∈ storePoint n p' l) : q = p' ∨ q ∈ l := by
  induction l with
  | nil => simp [storePoint] at h
  | cons a t ih =>
    unfold storePoint at h
    by_cases ha : a._name = n
    · simp only [ha, if_true, List.mem_cons] at h
      rcases h with h | h
      · exact Or.inl h
      · exact Or.inr (List.mem_cons_of_mem _ h)
    · simp only [ha, if_false, List.mem_cons] at h
      rcases h with h | h
      · exact Or.inr (h ▸ List.mem_cons_self _ _)
      · rcases ih h with h2 | h2
        · exact Or.inl h2
        · exact Or.inr (List.mem_cons_of_mem _ h2)

theorem costsSetUp_foldl_seedStep (Points : List PointData) (acc : List CGMZ_FastTravelPoint)
    (h : ∀ p ∈ acc, CostsSetUp p) : ∀ p ∈ Points.foldl seedStep acc, CostsSetUp p := by
  induction Points generalizing acc with
  | nil => exact h
  | cons d rest ih =>
    apply ih
    intro p hp
    rw [seedStep_eq] at hp
    split_ifs at hp
    · exact h p hp
    · rcases List.mem_append.mp hp with h1 | h1
      · exact h p h1
      · rw [List.mem_singleton.mp h1]
        exact costsSetUp_initializePoint d

/-- Every point of a registry that the commands can produce has the
`_hasCosts` that `setupCosts` computed from its costs. -/
theorem costsSetUp_run (o : ToastOptions) (c : Command)
    (s : Option (List CGMZ_FastTravelPoint))
    (h : ∀ l, s = some l → ∀ p ∈ l, CostsSetUp p) :
    ∀ l, c.run o s = some l → ∀ p ∈ l, CostsSetUp p := by
  intro l hl p hp
  cases c with
  | seed Points r =>
    simp only [Command.run, Option.some.injEq] at hl
    subst hl
    refine costsSetUp_foldl_seedStep Points _ ?_ p hp
    intro q hq
    cases s with
    | none => simp [setupFastTravelVariables] at hq
    | some l0 =>
      by_cases hr : r = true
      · simp [hr, setupFastTravelVariables] at hq
      · simp only [hr, if_false] at hq
        exact h l0 rfl q hq
  | discover n d =>
    cases s with
    | none => simp [Command.run] at hl
    | some l0 =>
      simp only [Command.run, Option.some.injEq, discoverFastTravelPoint] at hl
      subst hl
      cases hg : getFastTravelPoint l0 n with
      | none => simp only [hg] at hp; exact h l0 rfl p hp
      | some q =>
        simp only [hg] at hp
        have hq : q ∈ l0 := List.mem_of_find?_eq_some hg
        rcases mem_storePoint hp with h1 | h1
        · rw [h1]
          exact h l0 rfl q hq
        · exact h l0 rfl p h1
  | changeMap n m x y d =>
    cases s with
    | none => simp [Command.run] at hl
    | some l0 =>
      simp only [Command.run, Option.some.injEq, changeFastTravelPointMap] at hl
      subst hl
      cases hg : getFastTravelPoint l0 n with
      | none => simp only [hg] at hp; exact h l0 rfl p hp
      | some q =>
        simp only [hg] at hp
        have hq : q ∈ l0 := List.mem_of_find?_eq_some hg
        rcases mem_storePoint hp with h1 | h1
        · rw [h1]
          exact h l0 rfl q hq
        · exact h l0 rfl p h1
  | changeCategory n c =>
    cases s with
    | none => simp [Command.run] at hl
    | some l0 =>
      simp only [Command.run, Option.some.injEq, changeFastTravelPointCategory] at hl
      subst hl
      cases hg : getFastTravelPoint l0 n with
      | none => simp only [hg] at hp; exact h l0 rfl p hp
      | some q =>
        simp only [hg] at hp
        have hq : q ∈ l0 := List.mem_of_find?_eq_some hg
        rcases mem_storePoint hp with h1 | h1
        · rw [h1]
          exact h l0 rfl q hq
        · exact h l0 rfl p h1

theorem costsSetUp_runCommands (o : ToastOptions) (cmds : List Command)
    (s : Option (List CGMZ_FastTravelPoint))
    (h : ∀ l, s = some l → ∀ p ∈ l, CostsSetUp p) :
    ∀ l, runCommands o cmds s = some l → ∀ p ∈ l, CostsSetUp p := by
  induction cmds generalizing s with
  | nil => exact h
  | cons c cs ih => exact ih _ (costsSetUp_run o c s h)

theorem getFastTravelPoint_changeFastTravelPointMap (l : List CGMZ_FastTravelPoint)
    (n : String) (mapId x y dir : Int) (h : ∃ q ∈ l, q._name = n) :
    ∃ p, getFastTravelPoint l n = some p ∧
      getFastTravelPoint (changeFastTravelPointMap l n mapId x y dir) n =
        some { p with _mapId := mapId, _x := x, _y := y, _dir := dir } := by
  obtain ⟨p, hp⟩ := (getFastTravelPoint_isSome_iff l n).mpr h
  obtain ⟨l1, l2, hl, hpn, hl1⟩ := (getFastTravelPoint_eq_some_iff l n p).mp hp
  refine ⟨p, hp, ?_⟩
  simp only [changeFastTravelPointMap, hp]
  rw [hl, storePoint_append n _ p l1 l2 hpn hl1]
  exact (getFastTravelPoint_eq_some_iff _ n _).mpr ⟨l1, l2, rfl, hpn, hl1⟩

end CGMZ

/-! ## Cone and walk: auxiliary lemmas -/

namespace Kron

open AI_base Game_Interpreter

theorem not_inViewCone_of_failsConeTest {dir : Int} {a b : XY} {s : ℚ}
    (hout : failsConeTest dir a b s) : ¬ inViewCone dir a b s := by
  intro hin
  unfold failsConeTest at hout
  unfold inViewCone at hin
  rcases hout with ⟨hd, ho⟩ | ⟨hd, ho⟩ | ⟨hd, ho⟩ | ⟨hd, ho⟩ <;>
    subst hd <;>
    rcases hin with ⟨hd2, h1, h2⟩ | ⟨hd2, h1, h2⟩ | ⟨hd2, h1, h2⟩ | ⟨hd2, h1, h2⟩ <;>
    first
      | (exfalso; revert hd2; decide)
      | (rcases ho with ho | ho
         · exact ho h1
         · exact absurd h2 (not_le.mpr ho))

theorem recognized_of_failsConeTest {dir : Int} {a b : XY} {s : ℚ}
    (hout : failsConeTest dir a b s) : dir = 2 ∨ dir = 4 ∨ dir = 6 ∨ dir = 8 := by
  unfold failsConeTest at hout
  rcases hout with ⟨hd, _⟩ | ⟨hd, _⟩ | ⟨hd, _⟩ | ⟨hd, _⟩ <;> simp [hd]

theorem mathRound_intCast (n : Int) : mathRound (n : ℚ) = n := by
  unfold mathRound
  rw [Int.floor_eq_iff]
  constructor <;> norm_num

theorem eventInSight_eq_false_of_not_true {h : Host} {eventId event1_id event2_id : Int}
    {range : ℚ} {slope : Option ℚ}
    (hn : ¬ eventInSight h eventId event1_id event2_id range slope = true) :
    eventInSight h eventId event1_id event2_id range slope = false := by
  simpa using hn

end Kron

/-! ## binary64 arithmetic: rounding error -/

namespace Kron

theorem bitLengthAux_spec (fuel n : Nat) (h : n ≤ fuel) :
    n < 2 ^ bitLengthAux fuel n ∧
      (0 < n → 0 < bitLengthAux fuel n ∧ 2 ^ (bitLengthAux fuel n - 1) ≤ n) := by
  induction fuel generalizing n with
  | zero =>
    have hn : n = 0 := by omega
    subst hn
    simp [bitLengthAux]
  | succ f ih =>
    unfold bitLengthAux
    by_cases hn : n = 0
    · subst hn
      simp
    · simp only [hn, if_false]
      have hhalf : n / 2 ≤ f := by omega
      obtain ⟨hup, hlow⟩ := ih (n / 2) hhalf
      constructor
      · rw [pow_succ]
        omega
      · intro _
        refine ⟨Nat.succ_pos _, ?_⟩
        simp only [Nat.add_sub_cancel]
        by_cases h2 : n / 2 = 0
        · have hk : bitLengthAux f (n / 2) = 0 := by
            rw [h2]
            cases f <;> simp [bitLengthAux]
          rw [hk]
          simp
          omega
        · obtain ⟨hpos, hle⟩ := hlow (Nat.pos_of_ne_zero h2)
          have : 2 ^ bitLengthAux f (n / 2) = 2 * 2 ^ (bitLengthAux f (n / 2) - 1) := by
            rw [← pow_succ']
            congr 1
            omega
          omega

theorem bitLength_spec (n : Nat) (hn : 0 < n) :
    0 < bitLength n ∧ 2 ^ (bitLength n - 1) ≤ n ∧ n < 2 ^ bitLength n := by
  obtain ⟨h1, h2⟩ := bitLengthAux_spec n n le_rfl
  obtain ⟨h3, h4⟩ := h2 hn
  exact ⟨h3, h4, h1⟩

theorem two_zpow_split (z : Int) : (2 : ℚ) ^ z = 2 ^ z.toNat / 2 ^ (-z).toNat := by
  rcases le_or_lt 0 z with hz | hz
  · have h1 : (-z).toNat = 0 := by omega
    have h2 : z = (z.toNat : Int) := by omega
    rw [h1, pow_zero, div_one]
    conv_lhs => rw [h2]
    exact zpow_natCast 2 _
  · have h1 : z.toNat = 0 := by omega
    have h2 : z = -((-z).toNat : Int) := by omega
    rw [h1, pow_zero]
    conv_lhs => rw [h2]
    rw [zpow_neg, zpow_natCast, one_div]

theorem leadingExponent_le (n d : Nat) (hn : 0 < n) (hd : 0 < d) :
    (2 : ℚ) ^ leadingExponent n d ≤ (n : ℚ) / d := by
  have hdq : (0 : ℚ) < d := by exact_mod_cast hd
  unfold leadingExponent
  simp only
  split_ifs with htest
  · rw [two_zpow_split, div_le_div_iff₀ (by positivity) hdq]
    have : ((d * 2 ^ ((bitLength n : Int) - (bitLength d : Int)).toNat : Nat) : ℚ) ≤
        ((n * 2 ^ (-((bitLength n : Int) - (bitLength d : Int))).toNat : Nat) : ℚ) := by
      exact_mod_cast htest
    push_cast at this
    linarith
  · obtain ⟨hpos, hlow, _⟩ := bitLength_spec n hn
    obtain ⟨_, _, hup⟩ := bitLength_spec d hd
    have he : (bitLength n : Int) - (bitLength d : Int) - 1 =
        ((bitLength n - 1 : Nat) : Int) - (bitLength d : Int) := by omega
    rw [he, zpow_sub₀ (by norm_num), zpow_natCast, zpow_natCast]
    apply div_le_div₀ (by positivity) _ hdq _
    · exact_mod_cast hlow
    · exact_mod_cast le_of_lt hup

theorem roundNearestEven_error (N D : Nat) (hD : 0 < D) :
    |(roundNearestEven N D : ℚ) - (N : ℚ) / D| ≤ 1 / 2 := by
  have hDq : (0 : ℚ) < D := by exact_mod_cast hD
  have hdm : (N : ℚ) = (D : ℚ) * ((N / D : Nat) : ℚ) + ((N % D : Nat) : ℚ) := by
    exact_mod_cast (Nat.div_add_mod N D).symm
  have hr : ((N % D : Nat) : ℚ) < D := by exact_mod_cast Nat.mod_lt N hD
  have hr0 : (0 : ℚ) ≤ ((N % D : Nat) : ℚ) := Nat.cast_nonneg _
  have hq : (N : ℚ) / D = ((N / D : Nat) : ℚ) + ((N % D : Nat) : ℚ) / D := by
    rw [eq_comm, ← sub_eq_zero]
    field_simp
    linarith
  unfold roundNearestEven
  simp only
  split_ifs with hup
  · have h2r : (D : ℚ) ≤ 2 * ((N % D : Nat) : ℚ) := by
      rcases hup with h | ⟨h, _⟩
      · exact_mod_cast le_of_lt h
      · exact_mod_cast le_of_eq h.symm
    rw [hq, abs_le]
    push_cast
    have hfrac : ((N % D : Nat) : ℚ) / D < 1 := (div_lt_one hDq).mpr hr
    have hfrac2 : 1 / 2 ≤ ((N % D : Nat) : ℚ) / D := by
      rw [le_div_iff₀ hDq]
      linarith
    constructor <;> linarith
  · have h2r : 2 * ((N % D : Nat) : ℚ) ≤ D := by
      have : 2 * (N % D) ≤ D := by
        by_contra hc
        exact hup (Or.inl (by omega))
      exact_mod_cast this
    rw [hq, abs_le]
    have hfrac0 : 0 ≤ ((N % D : Nat) : ℚ) / D := div_nonneg hr0 (le_of_lt hDq)
    have hfrac2 : ((N % D : Nat) : ℚ) / D ≤ 1 / 2 := by
      rw [div_le_iff₀ hDq]
      linarith
    constructor <;> linarith

theorem roundBinary64_error (q : ℚ) : |roundBinary64 q - q| ≤ |q| / 2 ^ 53 := by
  by_cases hq0 : q = 0
  · simp [roundBinary64, hq0]
  have hnum : q.num ≠ 0 := fun hz => hq0 (Rat.num_eq_zero.mp hz)
  have hn : 0 < q.num.natAbs := Int.natAbs_pos.mpr hnum
  have hd : 0 < q.den := q.den_pos
  have hnq : (0 : ℚ) < (q.num.natAbs : ℚ) := by exact_mod_cast hn
  have hdq : (0 : ℚ) < (q.den : ℚ) := by exact_mod_cast hd
  have habs : |q| = (q.num.natAbs : ℚ) / (q.den : ℚ) := by
    conv_lhs => rw [← Rat.num_div_den q]
    rw [abs_div, Nat.abs_cast, Nat.cast_natAbs, Int.cast_abs]
  set n := q.num.natAbs with hndef
  set d := q.den with hddef
  set s : Int := leadingExponent n d - 52 with hsdef
  set a := (-s).toNat with hadef
  set b := s.toNat with hbdef
  set m := roundNearestEven (n * 2 ^ a) (d * 2 ^ b) with hmdef
  have hA : (0 : ℚ) < (2 : ℚ) ^ a := by positivity
  have hB : (0 : ℚ) < (2 : ℚ) ^ b := by positivity
  have hsplit : (2 : ℚ) ^ s = 2 ^ b / 2 ^ a := two_zpow_split s
  have herr := roundNearestEven_error (n * 2 ^ a) (d * 2 ^ b) (by positivity)
  rw [← hmdef] at herr
  push_cast at herr
  have hv : (mkRat ((m * 2 ^ b : Nat) : Int) (2 ^ a) : ℚ) = (m : ℚ) * 2 ^ b / 2 ^ a := by
    rw [Rat.mkRat_eq_div]
    push_cast
    rfl
  have hdiff : (m : ℚ) * 2 ^ b / 2 ^ a - (n : ℚ) / d =
      (2 ^ b / 2 ^ a) * ((m : ℚ) - (n : ℚ) * 2 ^ a / ((d : ℚ) * 2 ^ b)) := by
    field_simp
    ring
  have hexp : (2 : ℚ) ^ s ≤ |q| / 2 ^ 52 := by
    have hle := leadingExponent_le n d hn hd
    rw [hsdef, zpow_sub₀ (by norm_num), habs]
    have h52 : (2 : ℚ) ^ (52 : Int) = 2 ^ 52 := by norm_num
    rw [h52]
    exact div_le_div_of_nonneg_right hle (by positivity)
  have hbound : |(m : ℚ) * 2 ^ b / 2 ^ a - (n : ℚ) / d| ≤ |q| / 2 ^ 53 := by
    rw [hdiff, abs_mul, abs_of_pos (div_pos hB hA), ← hsplit]
    calc (2 : ℚ) ^ s * |(m : ℚ) - (n : ℚ) * 2 ^ a / ((d : ℚ) * 2 ^ b)|
        ≤ (2 : ℚ) ^ s * (1 / 2) := by
          apply mul_le_mul_of_nonneg_left herr
          positivity
      _ ≤ |q| / 2 ^ 52 * (1 / 2) := by
          apply mul_le_mul_of_nonneg_right hexp
          norm_num
      _ = |q| / 2 ^ 53 := by ring
  unfold roundBinary64
  simp only [hq0, if_false]
  rw [← hndef, ← hddef, ← hsdef, ← hadef, ← hbdef, ← hmdef, hv]
  split_ifs with hneg
  · have hqa : q = -((n : ℚ) / d) := by
      rw [← habs, abs_of_neg hneg, neg_neg]
    conv_lhs => rw [hqa]
    rw [← abs_neg]
    have : -(-((m : ℚ) * 2 ^ b / 2 ^ a) - -((n : ℚ) / d)) =
        (m : ℚ) * 2 ^ b / 2 ^ a - (n : ℚ) / d := by ring
    rw [this]
    exact hbound
  · have hqa : q = (n : ℚ) / d := by
      rw [← habs, abs_of_nonneg (not_lt.mp hneg)]
    conv_lhs => rw [hqa]
    exact hbound

end Kron

/-! ## The walk in binary64: distance from the exact line -/

namespace Kron

theorem abs_ratio_le_one (dlt s : Int) (hs : 1 ≤ s) (hd : |dlt| ≤ s) :
    |(dlt : ℚ) / (s : ℚ)| ≤ 1 := by
  have hsq : (0 : ℚ) < (s : ℚ) := by exact_mod_cast (by omega : (0 : Int) < s)
  rw [abs_div, abs_of_pos hsq, div_le_one hsq]
  exact_mod_cast hd

theorem fdiv_error (dlt s : Int) (hs : 1 ≤ s) (hd : |dlt| ≤ s) :
    |fdiv (dlt : ℚ) (s : ℚ) - (dlt : ℚ) / (s : ℚ)| ≤ 1 / 2 ^ 53 := by
  have h1 := roundBinary64_error ((dlt : ℚ) / (s : ℚ))
  have h2 := abs_ratio_le_one dlt s hs hd
  unfold fdiv
  calc |roundBinary64 ((dlt : ℚ) / (s : ℚ)) - (dlt : ℚ) / (s : ℚ)|
      ≤ |(dlt : ℚ) / (s : ℚ)| / 2 ^ 53 := h1
    _ ≤ 1 / 2 ^ 53 := div_le_div_of_nonneg_right h2 (by positivity)

/-- The coordinate that the loop holds at step `i` stays within `i / 2 ^ 30` of
the exact point `a + i * dlt / s` of the line, for cells within `2 ^ 20` of the
origin. -/
theorem lookAt_error (a dlt s : Int) (hs : 1 ≤ s) (hd : |dlt| ≤ s) (ha : |a| ≤ 2 ^ 20)
    (hs2 : s ≤ 2 ^ 21) (i : Nat) (hi : (i : Int) ≤ s) :
    |lookAt (a : ℚ) (fdiv (dlt : ℚ) (s : ℚ)) i - ((a : ℚ) + i * ((dlt : ℚ) / (s : ℚ)))| ≤
      i / 2 ^ 30 := by
  have hr := abs_le.mp (abs_ratio_le_one dlt s hs hd)
  have hinc := abs_le.mp (fdiv_error dlt s hs hd)
  have haq : |(a : ℚ)| ≤ 1048576 := by
    have : |(a : ℚ)| ≤ 2 ^ 20 := by exact_mod_cast ha
    linarith [show (2 : ℚ) ^ 20 = 1048576 by norm_num]
  have haq' := abs_le.mp haq
  have hu : (1 : ℚ) / 2 ^ 53 = 1 / 9007199254740992 := by norm_num
  rw [hu] at hinc
  induction i with
  | zero => simp [lookAt]
  | succ k ih =>
    have hk : (k : Int) ≤ s := by push_cast at hi; omega
    have hkq : (k : ℚ) ≤ 2097152 := by
      have h1 : (k : Int) ≤ 2 ^ 21 := le_trans hk hs2
      have h2 : (k : ℚ) ≤ 2 ^ 21 := by exact_mod_cast h1
      linarith [show (2 : ℚ) ^ 21 = 2097152 by norm_num]
    have hk0 : (0 : ℚ) ≤ (k : ℚ) := Nat.cast_nonneg k
    have ihk0 := ih hk
    rw [show (k : ℚ) / 2 ^ 30 = (k : ℚ) / 1073741824 by norm_num] at ihk0
    have ihk := abs_le.mp ihk0
    have hkr1 : (k : ℚ) * ((dlt : ℚ) / (s : ℚ)) ≤ k := by
      have := mul_le_mul_of_nonneg_left hr.2 hk0
      linarith
    have hkr2 : -(k : ℚ) ≤ (k : ℚ) * ((dlt : ℚ) / (s : ℚ)) := by
      have := mul_le_mul_of_nonneg_left hr.1 hk0
      linarith
    have hfl := roundBinary64_error
      (lookAt (a : ℚ) (fdiv (dlt : ℚ) (s : ℚ)) k + fdiv (dlt : ℚ) (s : ℚ))
    have hy : |lookAt (a : ℚ) (fdiv (dlt : ℚ) (s : ℚ)) k + fdiv (dlt : ℚ) (s : ℚ)| ≤
        4194304 := by
      rw [abs_le]
      constructor <;> linarith
    have hfl2 : |roundBinary64
        (lookAt (a : ℚ) (fdiv (dlt : ℚ) (s : ℚ)) k + fdiv (dlt : ℚ) (s : ℚ)) -
        (lookAt (a : ℚ) (fdiv (dlt : ℚ) (s : ℚ)) k + fdiv (dlt : ℚ) (s : ℚ))| ≤
        1 / 2147483648 := by
      refine le_trans hfl ?_
      rw [show (2 : ℚ) ^ 53 = 9007199254740992 by norm_num, div_le_iff₀ (by norm_num)]
      linarith
    have hfl3 := abs_le.mp hfl2
    simp only [lookAt, fadd]
    rw [show ((k + 1 : Nat) : ℚ) / 2 ^ 30 = ((k : ℚ) + 1) / 1073741824 by push_cast; norm_num,
      abs_le]
    push_cast
    constructor <;> linarith

/-- One step of the loop adds the increment up to a rounding error of at most
`2 ^ (-31)`. -/
theorem lookAt_step_error (a dlt s : Int) (hs : 1 ≤ s) (hd : |dlt| ≤ s) (ha : |a| ≤ 2 ^ 20)
    (hs2 : s ≤ 2 ^ 21) (k : Nat) (hk : (k : Int) ≤ s) :
    |lookAt (a : ℚ) (fdiv (dlt : ℚ) (s : ℚ)) (k + 1) -
        (lookAt (a : ℚ) (fdiv (dlt : ℚ) (s : ℚ)) k + fdiv (dlt : ℚ) (s : ℚ))| ≤
      1 / 2147483648 := by
  have hr := abs_le.mp (abs_ratio_le_one dlt s hs hd)
  have hinc := abs_le.mp (fdiv_error dlt s hs hd)
  have haq : |(a : ℚ)| ≤ 1048576 := by
    have : |(a : ℚ)| ≤ 2 ^ 20 := by exact_mod_cast ha
    linarith [show (2 : ℚ) ^ 20 = 1048576 by norm_num]
  have haq' := abs_le.mp haq
  rw [show (1 : ℚ) / 2 ^ 53 = 1 / 9007199254740992 by norm_num] at hinc
  have hkq : (k : ℚ) ≤ 2097152 := by
    have h1 : (k : Int) ≤ 2 ^ 21 := le_trans hk hs2
    have h2 : (k : ℚ) ≤ 2 ^ 21 := by exact_mod_cast h1
    linarith [show (2 : ℚ) ^ 21 = 2097152 by norm_num]
  have hk0 : (0 : ℚ) ≤ (k : ℚ) := Nat.cast_nonneg k
  have ihk0 := lookAt_error a dlt s hs hd ha hs2 k hk
  rw [show (k : ℚ) / 2 ^ 30 = (k : ℚ) / 1073741824 by norm_num] at ihk0
  have ihk := abs_le.mp ihk0
  have hkr1 : (k : ℚ) * ((dlt : ℚ) / (s : ℚ)) ≤ k := by
    have := mul_le_mul_of_nonneg_left hr.2 hk0
    linarith
  have hkr2 : -(k : ℚ) ≤ (k : ℚ) * ((dlt : ℚ) / (s : ℚ)) := by
    have := mul_le_mul_of_nonneg_left hr.1 hk0
    linarith
  have hfl := roundBinary64_error
    (lookAt (a : ℚ) (fdiv (dlt : ℚ) (s : ℚ)) k + fdiv (dlt : ℚ) (s : ℚ))
  have hy : |lookAt (a : ℚ) (fdiv (dlt : ℚ) (s : ℚ)) k + fdiv (dlt : ℚ) (s : ℚ)| ≤
      4194304 := by
    rw [abs_le]
    constructor <;> linarith
  simp only [lookAt, fadd]
  refine le_trans hfl ?_
  rw [show (2 : ℚ) ^ 53 = 9007199254740992 by norm_num, div_le_iff₀ (by norm_num)]
  linarith

/-- Where the exact point of the line is an integer, the loop rounds to it. -/
theorem mathRound_lookAt_of_exact (a dlt s : Int) (hs : 1 ≤ s) (hd : |dlt| ≤ s)
    (ha : |a| ≤ 2 ^ 20) (hs2 : s ≤ 2 ^ 21) (i : Nat) (hi : (i : Int) ≤ s) (z : Int)
    (hz : (a : ℚ) + i * ((dlt : ℚ) / (s : ℚ)) = z) :
    mathRound (lookAt (a : ℚ) (fdiv (dlt : ℚ) (s : ℚ)) i) = z := by
  have herr := lookAt_error a dlt s hs hd ha hs2 i hi
  rw [hz, show (i : ℚ) / 2 ^ 30 = (i : ℚ) / 1073741824 by norm_num] at herr
  have hiq : (i : ℚ) ≤ 2097152 := by
    have h1 : (i : Int) ≤ 2 ^ 21 := le_trans hi hs2
    have h2 : (i : ℚ) ≤ 2 ^ 21 := by exact_mod_cast h1
    linarith [show (2 : ℚ) ^ 21 = 2097152 by norm_num]
  have he := abs_le.mp herr
  unfold mathRound
  rw [Int.floor_eq_iff]
  constructor <;> linarith

theorem floor_half_sub_le_one (u v : ℚ) (h : |u - v| ≤ 1) :
    |mathRound u - mathRound v| ≤ 1 := by
  have h' := abs_le.mp h
  unfold mathRound
  have hu1 := Int.floor_le (u + 1 / 2)
  have hu2 := Int.lt_floor_add_one (u + 1 / 2)
  have hv1 := Int.floor_le (v + 1 / 2)
  have hv2 := Int.lt_floor_add_one (v + 1 / 2)
  have h1 : (⌊u + 1 / 2⌋ : ℚ) < ⌊v + 1 / 2⌋ + 2 := by linarith
  have h2 : (⌊v + 1 / 2⌋ : ℚ) < ⌊u + 1 / 2⌋ + 2 := by linarith
  have h1' : ⌊u + 1 / 2⌋ < ⌊v + 1 / 2⌋ + 2 := by exact_mod_cast h1
  have h2' : ⌊v + 1 / 2⌋ < ⌊u + 1 / 2⌋ + 2 := by exact_mod_cast h2
  rw [abs_le]
  constructor <;> omega

theorem ratio_of_abs_eq (dlt s : Int) (hs : 1 ≤ s) (hd : |dlt| = s) :
    (dlt : ℚ) / (s : ℚ) = 1 ∧ dlt = s ∨ (dlt : ℚ) / (s : ℚ) = -1 ∧ dlt = -s := by
  have hsq : (s : ℚ) ≠ 0 := by exact_mod_cast (by omega : s ≠ 0)
  rcases abs_eq (by omega : (0 : Int) ≤ s) |>.mp hd with h | h
  · left
    exact ⟨by rw [h]; exact div_self hsq, h⟩
  · right
    refine ⟨?_, h⟩
    rw [h]
    push_cast
    rw [neg_div, div_self hsq]

/-- Along an axis, two consecutive cells of the loop differ by at most 1, and
by exactly 1 when the offset along the axis is the number of steps. -/
theorem lookAt_round_step (a dlt s : Int) (hs : 1 ≤ s) (hd : |dlt| ≤ s) (ha : |a| ≤ 2 ^ 20)
    (hs2 : s ≤ 2 ^ 21) (k : Nat) (hk : (k : Int) + 1 ≤ s) :
    |mathRound (lookAt (a : ℚ) (fdiv (dlt : ℚ) (s : ℚ)) (k + 1)) -
        mathRound (lookAt (a : ℚ) (fdiv (dlt : ℚ) (s : ℚ)) k)| ≤ 1 ∧
      (|dlt| = s →
        |mathRound (lookAt (a : ℚ) (fdiv (dlt : ℚ) (s : ℚ)) (k + 1)) -
          mathRound (lookAt (a : ℚ) (fdiv (dlt : ℚ) (s : ℚ)) k)| = 1) := by
  have hk0 : (k : Int) ≤ s := by omega
  have hk1 : ((k + 1 : Nat) : Int) ≤ s := by push_cast; omega
  have hexact : |dlt| = s →
      |mathRound (lookAt (a : ℚ) (fdiv (dlt : ℚ) (s : ℚ)) (k + 1)) -
        mathRound (lookAt (a : ℚ) (fdiv (dlt : ℚ) (s : ℚ)) k)| = 1 := by
    intro heq
    rcases ratio_of_abs_eq dlt s hs heq with ⟨hr, _⟩ | ⟨hr, _⟩
    · rw [mathRound_lookAt_of_exact a dlt s hs hd ha hs2 (k + 1) hk1 (a + (k + 1))
          (by rw [hr]; push_cast; ring),
        mathRound_lookAt_of_exact a dlt s hs hd ha hs2 k hk0 (a + k)
          (by rw [hr]; push_cast; ring)]
      simp
    · rw [mathRound_lookAt_of_exact a dlt s hs hd ha hs2 (k + 1) hk1 (a - (k + 1))
          (by rw [hr]; push_cast; ring),
        mathRound_lookAt_of_exact a dlt s hs hd ha hs2 k hk0 (a - k)
          (by rw [hr]; push_cast; ring)]
      simp
  refine ⟨?_, hexact⟩
  by_cases heq : |dlt| = s
  · exact le_of_eq (hexact heq)
  · have hlt : |dlt| ≤ s - 1 := by
      have := lt_of_le_of_ne hd heq
      omega
    have hsq : (0 : ℚ) < (s : ℚ) := by exact_mod_cast (by omega : (0 : Int) < s)
    have hs2q : (s : ℚ) ≤ 2097152 := by
      have h2 : (s : ℚ) ≤ 2 ^ 21 := by exact_mod_cast hs2
      linarith [show (2 : ℚ) ^ 21 = 2097152 by norm_num]
    have hdq : |(dlt : ℚ)| ≤ (s : ℚ) - 1 := by exact_mod_cast hlt
    have hr : |(dlt : ℚ) / (s : ℚ)| ≤ 2097151 / 2097152 := by
      rw [abs_div, abs_of_pos hsq, div_le_iff₀ hsq]
      linarith
    have hr' := abs_le.mp hr
    have hinc := abs_le.mp (fdiv_error dlt s hs hd)
    rw [show (1 : ℚ) / 2 ^ 53 = 1 / 9007199254740992 by norm_num] at hinc
    have hstep := abs_le.mp (lookAt_step_error a dlt s hs hd ha hs2 k hk0)
    apply floor_half_sub_le_one
    rw [abs_le]
    constructor <;> linarith

end Kron

/-! ## The walk: cells -/

namespace Kron

open AI_base Game_Interpreter

theorem sightSteps_bounds (e1 e2 : XY) :
    |e2.X - e1.X| ≤ sightSteps e1 e2 ∧ |e2.Y - e1.Y| ≤ sightSteps e1 e2 ∧
      (sightSteps e1 e2 = |e2.X - e1.X| ∨ sightSteps e1 e2 = |e2.Y - e1.Y|) ∧
      sightSteps e1 e2 = max |e2.X - e1.X| |e2.Y - e1.Y| := by
  unfold sightSteps
  split_ifs with h
  · refine ⟨le_rfl, le_of_lt h, Or.inl rfl, ?_⟩
    rw [max_eq_left (le_of_lt h)]
  · have h' := not_lt.mp h
    refine ⟨h', le_rfl, Or.inr rfl, ?_⟩
    rw [max_eq_right h']

theorem sightSteps_le_of_inRange (e1 e2 : XY) (h1 : CellInRange e1) (h2 : CellInRange e2) :
    sightSteps e1 e2 ≤ 2 ^ 21 := by
  obtain ⟨h1x, h1y⟩ := h1
  obtain ⟨h2x, h2y⟩ := h2
  have a1 := abs_le.mp h1x
  have a2 := abs_le.mp h1y
  have a3 := abs_le.mp h2x
  have a4 := abs_le.mp h2y
  have hx : |e2.X - e1.X| ≤ 2 ^ 21 := by
    rw [abs_le]
    constructor <;> norm_num at * <;> omega
  have hy : |e2.Y - e1.Y| ≤ 2 ^ 21 := by
    rw [abs_le]
    constructor <;> norm_num at * <;> omega
  rcases (sightSteps_bounds e1 e2).2.2.1 with h | h <;> rw [h] <;> assumption

theorem lookCell_zero (e1 e2 : XY) : lookCell e1 e2 0 = (e1.X, e1.Y) := by
  simp [lookCell, lookAt, mathRound_intCast]

/-- The last cell that the loop tests is the cell of the target, for cells
within `2 ^ 20` of the origin. -/
theorem lookCell_last (e1 e2 : XY) (h1 : CellInRange e1) (h2 : CellInRange e2) :
    lookCell e1 e2 (sightSteps e1 e2).toNat = (e2.X, e2.Y) := by
  obtain ⟨hbx, hby, _, _⟩ := sightSteps_bounds e1 e2
  have h0 := sightSteps_nonneg e1 e2
  have hs2 := sightSteps_le_of_inRange e1 e2 h1 h2
  by_cases hs : sightSteps e1 e2 = 0
  · have hx : e2.X = e1.X := by
      rw [hs] at hbx
      have := abs_nonpos_iff.mp hbx
      omega
    have hy : e2.Y = e1.Y := by
      rw [hs] at hby
      have := abs_nonpos_iff.mp hby
      omega
    rw [hs, show (0 : Int).toNat = 0 from rfl, lookCell_zero, hx, hy]
  · have hs1 : 1 ≤ sightSteps e1 e2 := by omega
    have hsq : ((sightSteps e1 e2 : Int) : ℚ) ≠ 0 := by exact_mod_cast hs
    have htn : (((sightSteps e1 e2).toNat : Nat) : Int) = sightSteps e1 e2 := Int.toNat_of_nonneg h0
    have htq : (((sightSteps e1 e2).toNat : Nat) : ℚ) = ((sightSteps e1 e2 : Int) : ℚ) := by
      exact_mod_cast htn
    unfold lookCell
    rw [mathRound_lookAt_of_exact e1.X (e2.X - e1.X) (sightSteps e1 e2) hs1 hbx h1.1 hs2 _
        (le_of_eq htn) e2.X (by rw [htq]; field_simp),
      mathRound_lookAt_of_exact e1.Y (e2.Y - e1.Y) (sightSteps e1 e2) hs1 hby h1.2 hs2 _
        (le_of_eq htn) e2.Y (by rw [htq]; field_simp)]

/-- Under exact arithmetic the last sample of the line is the cell of the
target. -/
theorem lineCell_last (e1 e2 : XY) :
    lineCell e1 e2 (sightSteps e1 e2).toNat = (e2.X, e2.Y) := by
  obtain ⟨hbx, hby, _, _⟩ := sightSteps_bounds e1 e2
  have h0 := sightSteps_nonneg e1 e2
  have htn : (((sightSteps e1 e2).toNat : Nat) : Int) = sightSteps e1 e2 := Int.toNat_of_nonneg h0
  have htq : (((sightSteps e1 e2).toNat : Nat) : ℚ) = ((sightSteps e1 e2 : Int) : ℚ) := by
    exact_mod_cast htn
  unfold lineCell
  rw [htq]
  by_cases hs : sightSteps e1 e2 = 0
  · have hx : e2.X = e1.X := by
      rw [hs] at hbx
      have := abs_nonpos_iff.mp hbx
      omega
    have hy : e2.Y = e1.Y := by
      rw [hs] at hby
      have := abs_nonpos_iff.mp hby
      omega
    rw [hs, hx, hy]
    simp [mathRound_intCast]
  · have hsq : ((sightSteps e1 e2 : Int) : ℚ) ≠ 0 := by exact_mod_cast hs
    have hx : (e1.X : ℚ) + ((sightSteps e1 e2 : Int) : ℚ) * ((e2.X - e1.X : Int) : ℚ) /
        ((sightSteps e1 e2 : Int) : ℚ) = ((e2.X : Int) : ℚ) := by
      field_simp
    have hy : (e1.Y : ℚ) + ((sightSteps e1 e2 : Int) : ℚ) * ((e2.Y - e1.Y : Int) : ℚ) /
        ((sightSteps e1 e2 : Int) : ℚ) = ((e2.Y : Int) : ℚ) := by
      field_simp
    rw [hx, hy, mathRound_intCast, mathRound_intCast]

/-- Under exact arithmetic two consecutive samples of the line differ along an
axis by at most 1, and by exactly 1 when the offset along the axis is the
number of steps. -/
theorem lineAxis_step (a dlt s : Int) (hs : 1 ≤ s) (hd : |dlt| ≤ s) (k : Nat) :
    |mathRound ((a : ℚ) + ((k + 1 : Nat) : ℚ) * (dlt : ℚ) / (s : ℚ)) -
        mathRound ((a : ℚ) + (k : ℚ) * (dlt : ℚ) / (s : ℚ))| ≤ 1 ∧
      (|dlt| = s →
        |mathRound ((a : ℚ) + ((k + 1 : Nat) : ℚ) * (dlt : ℚ) / (s : ℚ)) -
          mathRound ((a : ℚ) + (k : ℚ) * (dlt : ℚ) / (s : ℚ))| = 1) := by
  have hr := abs_ratio_le_one dlt s hs hd
  have hdiff : (a : ℚ) + ((k + 1 : Nat) : ℚ) * (dlt : ℚ) / (s : ℚ) -
      ((a : ℚ) + (k : ℚ) * (dlt : ℚ) / (s : ℚ)) = (dlt : ℚ) / (s : ℚ) := by
    push_cast
    ring
  refine ⟨floor_half_sub_le_one _ _ (by rw [hdiff]; exact hr), ?_⟩
  intro heq
  rcases ratio_of_abs_eq dlt s hs heq with ⟨hr1, _⟩ | ⟨hr1, _⟩
  · have h1 : (a : ℚ) + ((k + 1 : Nat) : ℚ) * (dlt : ℚ) / (s : ℚ) = ((a + (k + 1) : Int) : ℚ) := by
      rw [mul_div_assoc, hr1]
      push_cast
      ring
    have h2 : (a : ℚ) + (k : ℚ) * (dlt : ℚ) / (s : ℚ) = ((a + k : Int) : ℚ) := by
      rw [mul_div_assoc, hr1]
      push_cast
      ring
    rw [h1, h2, mathRound_intCast, mathRound_intCast]
    simp
  · have h1 : (a : ℚ) + ((k + 1 : Nat) : ℚ) * (dlt : ℚ) / (s : ℚ) = ((a - (k + 1) : Int) : ℚ) := by
      rw [mul_div_assoc, hr1]
      push_cast
      ring
    have h2 : (a : ℚ) + (k : ℚ) * (dlt : ℚ) / (s : ℚ) = ((a - k : Int) : ℚ) := by
      rw [mul_div_assoc, hr1]
      push_cast
      ring
    rw [h1, h2, mathRound_intCast, mathRound_intCast]
    simp

end Kron

/-! ## binary64 arithmetic: exponent, square root -/

namespace Kron

theorem sqrtBits_spec (k n r : Nat) (h1 : r * r ≤ n) (h2 : n < (r + 2 ^ k) * (r + 2 ^ k)) :
    sqrtBits k n r * sqrtBits k n r ≤ n ∧ n < (sqrtBits k n r + 1) * (sqrtBits k n r + 1) := by
  induction k generalizing r with
  | zero =>
    simp only [sqrtBits]
    simpa using And.intro h1 h2
  | succ k ih =>
    unfold sqrtBits
    split_ifs with h
    · apply ih _ h
      have : r + 2 ^ k + 2 ^ k = r + 2 ^ (k + 1) := by rw [pow_succ]; omega
      rw [this]
      exact h2
    · exact ih _ h1 (not_le.mp h)

theorem natSqrt_spec (n : Nat) :
    natSqrt n * natSqrt n ≤ n ∧ n < (natSqrt n + 1) * (natSqrt n + 1) := by
  unfold natSqrt
  apply sqrtBits_spec
  · simp
  · have h := (bitLengthAux_spec n n le_rfl).1
    have h1 : 1 ≤ 2 ^ bitLength n := Nat.one_le_two_pow
    simp only [zero_add]
    unfold bitLength at *
    calc n < 2 ^ bitLengthAux n n := h
      _ = 2 ^ bitLengthAux n n * 1 := (mul_one _).symm
      _ ≤ 2 ^ bitLengthAux n n * 2 ^ bitLengthAux n n := Nat.mul_le_mul_left _ h1

theorem leadingExponent_lt (n d : Nat) (hn : 0 < n) (hd : 0 < d) :
    (n : ℚ) / d < (2 : ℚ) ^ (leadingExponent n d + 1) := by
  have hdq : (0 : ℚ) < d := by exact_mod_cast hd
  unfold leadingExponent
  simp only
  split_ifs with htest
  · obtain ⟨_, _, hup⟩ := bitLength_spec n hn
    obtain ⟨hpos, hlow, _⟩ := bitLength_spec d hd
    have he : (bitLength n : Int) - (bitLength d : Int) + 1 =
        (bitLength n : Int) - ((bitLength d - 1 : Nat) : Int) := by omega
    rw [he, zpow_sub₀ (by norm_num), zpow_natCast, zpow_natCast]
    have h1 : (n : ℚ) < 2 ^ bitLength n := by exact_mod_cast hup
    have h2 : (2 : ℚ) ^ (bitLength d - 1) ≤ d := by exact_mod_cast hlow
    rw [div_lt_div_iff₀ hdq (by positivity)]
    calc (n : ℚ) * 2 ^ (bitLength d - 1) ≤ n * d := by
          apply mul_le_mul_of_nonneg_left h2 (by positivity)
      _ < 2 ^ bitLength n * d := by
          apply mul_lt_mul_of_pos_right h1 hdq
  · rw [sub_add_cancel, two_zpow_split, div_lt_div_iff₀ hdq (by positivity)]
    have : ((n * 2 ^ (-((bitLength n : Int) - (bitLength d : Int))).toNat : Nat) : ℚ) <
        ((d * 2 ^ ((bitLength n : Int) - (bitLength d : Int)).toNat : Nat) : ℚ) := by
      exact_mod_cast not_le.mp htest
    push_cast at this
    linarith

end Kron

/-! ## binary64 arithmetic: values that rounding keeps -/

namespace Kron

theorem roundNearestEven_ge (N D : Nat) : N / D ≤ roundNearestEven N D := by
  unfold roundNearestEven
  simp only
  split_ifs <;> omega

theorem roundNearestEven_le (N D : Nat) : roundNearestEven N D ≤ N / D + 1 := by
  unfold roundNearestEven
  simp only
  split_ifs <;> omega

theorem roundNearestEven_mul (K D : Nat) (hD : 0 < D) : roundNearestEven (K * D) D = K := by
  unfold roundNearestEven
  have h1 : K * D / D = K := Nat.mul_div_cancel _ hD
  have h2 : K * D % D = 0 := Nat.mul_mod_left _ _
  simp only [h1, h2]
  rw [if_neg]
  rintro (h | ⟨h, _⟩) <;> omega

theorem natAbs_num_div_den (q : ℚ) (hq : 0 < q) : ((q.num.natAbs : Nat) : ℚ) / (q.den : ℚ) = q := by
  have hnum : 0 < q.num := Rat.num_pos.mpr hq
  have : ((q.num.natAbs : Nat) : ℚ) = (q.num : ℚ) := by
    rw [Nat.cast_natAbs, abs_of_pos hnum]
  rw [this]
  exact Rat.num_div_den q

/-- The value of `roundBinary64` at a positive number: the significand
`roundNearestEven (q / 2 ^ s)` times `2 ^ s`, for `s` the exponent of the
leading bit of `q` less 52. -/
theorem roundBinary64_of_pos (q : ℚ) (hq : 0 < q) :
    roundBinary64 q =
      (roundNearestEven
          (q.num.natAbs * 2 ^ (-(leadingExponent q.num.natAbs q.den - 52)).toNat)
          (q.den * 2 ^ (leadingExponent q.num.natAbs q.den - 52).toNat) : ℚ) *
        (2 : ℚ) ^ (leadingExponent q.num.natAbs q.den - 52) := by
  unfold roundBinary64
  simp only [ne_of_gt hq, if_false, not_lt.mpr (le_of_lt hq)]
  rw [Rat.mkRat_eq_div, two_zpow_split (leadingExponent q.num.natAbs q.den - 52)]
  push_cast
  ring

/-- The scaled quotient that `roundBinary64` rounds to an integer is
`q / 2 ^ s`. -/
theorem scaled_quotient (q : ℚ) (hq : 0 < q) (s : Int) :
    ((q.num.natAbs * 2 ^ (-s).toNat : Nat) : ℚ) / ((q.den * 2 ^ s.toNat : Nat) : ℚ) =
      q / (2 : ℚ) ^ s := by
  have h := natAbs_num_div_den q hq
  have hd : (0 : ℚ) < (q.den : ℚ) := by exact_mod_cast q.den_pos
  rw [two_zpow_split s]
  push_cast
  conv_rhs => rw [← h]
  field_simp

theorem leadingExponent_rat_le (q : ℚ) (hq : 0 < q) :
    (2 : ℚ) ^ leadingExponent q.num.natAbs q.den ≤ q := by
  have h := leadingExponent_le q.num.natAbs q.den
    (Int.natAbs_pos.mpr (ne_of_gt (Rat.num_pos.mpr hq))) q.den_pos
  rwa [natAbs_num_div_den q hq] at h

theorem leadingExponent_rat_lt (q : ℚ) (hq : 0 < q) :
    q < (2 : ℚ) ^ (leadingExponent q.num.natAbs q.den + 1) := by
  have h := leadingExponent_lt q.num.natAbs q.den
    (Int.natAbs_pos.mpr (ne_of_gt (Rat.num_pos.mpr hq))) q.den_pos
  rwa [natAbs_num_div_den q hq] at h

/-- The exponent of the leading bit is the only `e` with
`2 ^ e ≤ q < 2 ^ (e + 1)`. -/
theorem leadingExponent_unique (q : ℚ) (hq : 0 < q) (e : Int) (h1 : (2 : ℚ) ^ e ≤ q)
    (h2 : q < (2 : ℚ) ^ (e + 1)) : leadingExponent q.num.natAbs q.den = e := by
  have h3 := leadingExponent_rat_le q hq
  have h4 := leadingExponent_rat_lt q hq
  have h5 : (2 : ℚ) ^ e < (2 : ℚ) ^ (leadingExponent q.num.natAbs q.den + 1) :=
    lt_of_le_of_lt h1 h4
  have h6 : (2 : ℚ) ^ leadingExponent q.num.natAbs q.den < (2 : ℚ) ^ (e + 1) :=
    lt_of_le_of_lt h3 h2
  rw [zpow_lt_zpow_iff_right₀ (by norm_num)] at h5 h6
  omega

/-- The significand of a rounded positive number lies between `2 ^ 52` and
`2 ^ 53`. -/
theorem significand_bounds (q : ℚ) (hq : 0 < q) :
    2 ^ 52 ≤ roundNearestEven
        (q.num.natAbs * 2 ^ (-(leadingExponent q.num.natAbs q.den - 52)).toNat)
        (q.den * 2 ^ (leadingExponent q.num.natAbs q.den - 52).toNat) ∧
      roundNearestEven
        (q.num.natAbs * 2 ^ (-(leadingExponent q.num.natAbs q.den - 52)).toNat)
        (q.den * 2 ^ (leadingExponent q.num.natAbs q.den - 52).toNat) ≤ 2 ^ 53 := by
  set s : Int := leadingExponent q.num.natAbs q.den - 52 with hs
  set N := q.num.natAbs * 2 ^ (-s).toNat with hN
  set D := q.den * 2 ^ s.toNat with hD
  have hDpos : 0 < D := Nat.mul_pos q.den_pos (by positivity)
  have hDq : (0 : ℚ) < (D : ℚ) := by exact_mod_cast hDpos
  have hquot : (N : ℚ) / (D : ℚ) = q / (2 : ℚ) ^ s := scaled_quotient q hq s
  have hspos : (0 : ℚ) < (2 : ℚ) ^ s := by positivity
  have hlow : (2 : ℚ) ^ 52 ≤ (N : ℚ) / (D : ℚ) := by
    rw [hquot, le_div_iff₀ hspos]
    have h := leadingExponent_rat_le q hq
    have : (2 : ℚ) ^ 52 * (2 : ℚ) ^ s = (2 : ℚ) ^ leadingExponent q.num.natAbs q.den := by
      rw [hs, zpow_sub₀ (by norm_num)]
      have : (2 : ℚ) ^ (52 : Int) = 2 ^ 52 := by norm_num
      rw [this]
      field_simp
    rw [this]
    exact h
  have hup : (N : ℚ) / (D : ℚ) < (2 : ℚ) ^ 53 := by
    rw [hquot, div_lt_iff₀ hspos]
    have h := leadingExponent_rat_lt q hq
    have : (2 : ℚ) ^ 53 * (2 : ℚ) ^ s = (2 : ℚ) ^ (leadingExponent q.num.natAbs q.den + 1) := by
      rw [hs, zpow_sub₀ (by norm_num), zpow_add₀ (by norm_num)]
      have : (2 : ℚ) ^ (52 : Int) = 2 ^ 52 := by norm_num
      rw [this]
      field_simp
      ring
    rw [this]
    exact h
  have hlowN : 2 ^ 52 * D ≤ N := by
    rw [le_div_iff₀ hDq] at hlow
    exact_mod_cast hlow
  have hupN : N < 2 ^ 53 * D := by
    rw [div_lt_iff₀ hDq] at hup
    exact_mod_cast hup
  constructor
  · exact le_trans ((Nat.le_div_iff_mul_le hDpos).mpr hlowN) (roundNearestEven_ge N D)
  · have : N / D < 2 ^ 53 := (Nat.div_lt_iff_lt_mul hDpos).mpr hupN
    have := roundNearestEven_le N D
    omega

/-- Rounding does not go below the power of two at or below the number. -/
theorem leading_le_roundBinary64 (q : ℚ) (hq : 0 < q) :
    (2 : ℚ) ^ leadingExponent q.num.natAbs q.den ≤ roundBinary64 q := by
  rw [roundBinary64_of_pos q hq]
  have h := (significand_bounds q hq).1
  have hq52 : ((2 : ℚ) ^ 52) ≤
      (roundNearestEven
        (q.num.natAbs * 2 ^ (-(leadingExponent q.num.natAbs q.den - 52)).toNat)
        (q.den * 2 ^ (leadingExponent q.num.natAbs q.den - 52).toNat) : ℚ) := by
    exact_mod_cast h
  have hspos : (0 : ℚ) < (2 : ℚ) ^ (leadingExponent q.num.natAbs q.den - 52) := by positivity
  calc (2 : ℚ) ^ leadingExponent q.num.natAbs q.den
      = 2 ^ 52 * (2 : ℚ) ^ (leadingExponent q.num.natAbs q.den - 52) := by
        rw [zpow_sub₀ (by norm_num)]
        have : (2 : ℚ) ^ (52 : Int) = 2 ^ 52 := by norm_num
        rw [this]
        field_simp
    _ ≤ _ := mul_le_mul_of_nonneg_right hq52 (le_of_lt hspos)

theorem one_le_roundBinary64 (q : ℚ) (hq : 1 ≤ q) : 1 ≤ roundBinary64 q := by
  have hpos : 0 < q := lt_of_lt_of_le one_pos hq
  have h1 := leadingExponent_rat_lt q hpos
  have h2 : (2 : ℚ) ^ (0 : Int) < (2 : ℚ) ^ (leadingExponent q.num.natAbs q.den + 1) := by
    rw [zpow_zero]
    exact lt_of_le_of_lt hq h1
  rw [zpow_lt_zpow_iff_right₀ (by norm_num)] at h2
  have h3 : (1 : ℚ) ≤ (2 : ℚ) ^ leadingExponent q.num.natAbs q.den :=
    one_le_zpow₀ (by norm_num) (by omega)
  exact le_trans h3 (leading_le_roundBinary64 q hpos)

theorem roundBinary64_nonneg (q : ℚ) (hq : 0 ≤ q) : 0 ≤ roundBinary64 q := by
  rcases eq_or_lt_of_le hq with h | h
  · rw [← h]
    simp [roundBinary64]
  · exact le_trans (by positivity) (leading_le_roundBinary64 q h)

/-- A number with a 53 bit significand is kept by rounding. -/
theorem roundBinary64_of_significand (M : Nat) (t : Int) (h1 : 2 ^ 52 ≤ M) (h2 : M < 2 ^ 53) :
    roundBinary64 ((M : ℚ) * (2 : ℚ) ^ t) = (M : ℚ) * (2 : ℚ) ^ t := by
  have htpos : (0 : ℚ) < (2 : ℚ) ^ t := by positivity
  have hM1 : ((2 : ℚ) ^ 52) ≤ (M : ℚ) := by exact_mod_cast h1
  have hM2 : (M : ℚ) < (2 : ℚ) ^ 53 := by exact_mod_cast h2
  have hq : (0 : ℚ) < (M : ℚ) * (2 : ℚ) ^ t := by positivity
  have h52 : (2 : ℚ) ^ (52 : Int) = 2 ^ 52 := by norm_num
  have h53 : (2 : ℚ) ^ (53 : Int) = 2 ^ 53 := by norm_num
  have he : leadingExponent ((M : ℚ) * (2 : ℚ) ^ t).num.natAbs ((M : ℚ) * (2 : ℚ) ^ t).den =
      52 + t := by
    apply leadingExponent_unique _ hq
    · rw [zpow_add₀ (by norm_num), h52]
      exact mul_le_mul_of_nonneg_right hM1 (le_of_lt htpos)
    · rw [show 52 + t + 1 = 53 + t by ring, zpow_add₀ (by norm_num), h53]
      exact mul_lt_mul_of_pos_right hM2 htpos
  rw [roundBinary64_of_pos _ hq, he, show 52 + t - 52 = t by ring]
  have hquot := scaled_quotient _ hq t
  rw [mul_div_assoc, div_self (ne_of_gt htpos), mul_one] at hquot
  have hDpos : 0 < ((M : ℚ) * (2 : ℚ) ^ t).den * 2 ^ t.toNat :=
    Nat.mul_pos (Rat.den_pos _) (by positivity)
  have hDq : (0 : ℚ) < ((((M : ℚ) * (2 : ℚ) ^ t).den * 2 ^ t.toNat : Nat) : ℚ) := by
    exact_mod_cast hDpos
  have hN : ((M : ℚ) * (2 : ℚ) ^ t).num.natAbs * 2 ^ (-t).toNat =
      M * (((M : ℚ) * (2 : ℚ) ^ t).den * 2 ^ t.toNat) := by
    rw [div_eq_iff (ne_of_gt hDq)] at hquot
    exact_mod_cast hquot
  rw [hN, roundNearestEven_mul _ _ hDpos]

theorem roundBinary64_zero : roundBinary64 0 = 0 := by
  simp [roundBinary64]

/-- Rounding a rounded number changes nothing. -/
theorem roundBinary64_idem (q : ℚ) (hq : 0 ≤ q) :
    roundBinary64 (roundBinary64 q) = roundBinary64 q := by
  rcases eq_or_lt_of_le hq with h | h
  · rw [← h, roundBinary64_zero, roundBinary64_zero]
  · obtain ⟨hlow, hup⟩ := significand_bounds q h
    rw [roundBinary64_of_pos q h]
    rcases eq_or_lt_of_le hup with heq | hlt
    · rw [heq]
      have : ((2 ^ 53 : Nat) : ℚ) * (2 : ℚ) ^ (leadingExponent q.num.natAbs q.den - 52) =
          ((2 ^ 52 : Nat) : ℚ) * (2 : ℚ) ^ (leadingExponent q.num.natAbs q.den - 52 + 1) := by
        rw [zpow_add₀ (by norm_num)]
        push_cast
        ring
      rw [this]
      exact roundBinary64_of_significand _ _ le_rfl (by norm_num)
    · exact roundBinary64_of_significand _ _ hlow hlt

theorem roundBinary64_one : roundBinary64 1 = 1 := by
  have h := roundBinary64_of_significand (2 ^ 52) (-52) le_rfl (by norm_num)
  have h1 : ((2 ^ 52 : Nat) : ℚ) * (2 : ℚ) ^ (-52 : Int) = 1 := by
    rw [zpow_neg]
    norm_num
  rwa [h1] at h

end Kron

/-! ## binary64 arithmetic: lower bounds of the square root -/

namespace Kron

theorem natSqrt_ge (n k : Nat) (h : k * k ≤ n) : k ≤ natSqrt n := by
  by_contra hc
  have h1 := (natSqrt_spec n).2
  have h2 : natSqrt n + 1 ≤ k := by omega
  have h3 := Nat.mul_le_mul h2 h2
  omega

theorem fsqrt_nonneg (q : ℚ) : 0 ≤ fsqrt q := by
  unfold fsqrt
  split_ifs with h
  · exact le_rfl
  · simp only
    rw [Rat.mkRat_eq_div]
    apply div_nonneg
    · exact_mod_cast Int.natCast_nonneg _
    · exact_mod_cast Nat.zero_le _

theorem one_le_fsqrt (q : ℚ) (hq : 1 ≤ q) : 1 ≤ fsqrt q := by
  have hpos : 0 < q := lt_of_lt_of_le one_pos hq
  have hlt := leadingExponent_rat_lt q hpos
  have hle := leadingExponent_rat_le q hpos
  have he : 0 ≤ leadingExponent q.num.natAbs q.den := by
    have h2 : (2 : ℚ) ^ (0 : Int) < (2 : ℚ) ^ (leadingExponent q.num.natAbs q.den + 1) := by
      rw [zpow_zero]
      exact lt_of_le_of_lt hq hlt
    rw [zpow_lt_zpow_iff_right₀ (by norm_num)] at h2
    omega
  have hnd : q.den ≤ q.num.natAbs := by
    have h := natAbs_num_div_den q hpos
    have hd : (0 : ℚ) < (q.den : ℚ) := by exact_mod_cast q.den_pos
    rw [← h, le_div_iff₀ hd, one_mul] at hq
    exact_mod_cast hq
  unfold fsqrt
  simp only [not_le.mpr hpos, if_false]
  set e := leadingExponent q.num.natAbs q.den with hedef
  set s : Int := e / 2 - 52 with hsdef
  set N := q.num.natAbs * 4 ^ (-s).toNat with hNdef
  set D := q.den * 4 ^ s.toNat with hDdef
  set m := natSqrt (N / D) with hmdef
  have hDpos : 0 < D := Nat.mul_pos q.den_pos (by positivity)
  have hkey : 2 ^ (-s).toNat ≤ m * 2 ^ s.toNat := by
    rcases le_or_lt s 0 with hs | hs
    · have hb : s.toNat = 0 := by omega
      have hD : D = q.den := by rw [hDdef, hb]; simp
      rw [hb, pow_zero, mul_one]
      apply natSqrt_ge
      rw [Nat.le_div_iff_mul_le hDpos, hD, hNdef]
      have h4 : (4 : Nat) ^ (-s).toNat = 2 ^ (-s).toNat * 2 ^ (-s).toNat := by
        rw [← mul_pow]
        norm_num
      rw [h4]
      calc 2 ^ (-s).toNat * 2 ^ (-s).toNat * q.den
          ≤ 2 ^ (-s).toNat * 2 ^ (-s).toNat * q.num.natAbs := Nat.mul_le_mul_left _ hnd
        _ = q.num.natAbs * (2 ^ (-s).toNat * 2 ^ (-s).toNat) := Nat.mul_comm _ _
    · have ha : (-s).toNat = 0 := by omega
      have hN : N = q.num.natAbs := by rw [hNdef, ha]; simp
      rw [ha, pow_zero]
      have hm1 : 1 ≤ m := by
        apply natSqrt_ge
        rw [Nat.le_div_iff_mul_le hDpos, hN, hDdef]
        have h1 : ((2 : ℚ) ^ (2 * s)) ≤ (2 : ℚ) ^ e :=
          zpow_le_zpow_right₀ (by norm_num) (by omega)
        have h2 : (2 : ℚ) ^ (2 * s) = ((4 ^ s.toNat : Nat) : ℚ) := by
          have hs2 : 2 * s = ((2 * s.toNat : Nat) : Int) := by omega
          rw [hs2, zpow_natCast, pow_mul]
          norm_num
        have h3 : ((4 ^ s.toNat : Nat) : ℚ) ≤ q := by
          rw [← h2]
          exact le_trans h1 hle
        have h := natAbs_num_div_den q hpos
        have hd : (0 : ℚ) < (q.den : ℚ) := by exact_mod_cast q.den_pos
        rw [← h, le_div_iff₀ hd] at h3
        have h5 : ((q.den * 4 ^ s.toNat : Nat) : ℚ) ≤ (q.num.natAbs : ℚ) := by
          push_cast
          push_cast at h3
          linarith
        simp only [one_mul]
        exact_mod_cast h5
      calc 1 ≤ m := hm1
        _ ≤ m * 2 ^ s.toNat := Nat.le_mul_of_pos_right _ (by positivity)
  have hA : (0 : ℚ) < ((2 ^ (-s).toNat : Nat) : ℚ) := by positivity
  rw [Rat.mkRat_eq_div, le_div_iff₀ (by exact_mod_cast hA), one_mul]
  split_ifs with hup
  · have : 2 ^ (-s).toNat ≤ (m + 1) * 2 ^ s.toNat :=
      le_trans hkey (Nat.mul_le_mul_right _ (Nat.le_succ m))
    exact_mod_cast this
  · exact_mod_cast hkey

end Kron

/-! ## `Math.hypot` and the distance -/

namespace Kron

open AI_base

/-- With two arguments the compensation of the summation in `Math.hypot` is
zero when it is read: the sum is the binary64 sum of the two binary64
squares. -/
theorem hypot_sum (mx a b : ℚ) :
    ([a, b].foldl (hypotStep mx) (0, 0)).1 =
      fadd (fmul (fdiv a mx) (fdiv a mx)) (fmul (fdiv b mx) (fdiv b mx)) := by
  have hidem : ∀ n : ℚ, roundBinary64 (roundBinary64 (n * n)) = roundBinary64 (n * n) :=
    fun n => roundBinary64_idem _ (mul_self_nonneg n)
  simp only [List.foldl, hypotStep, fsub, fadd, fmul, sub_zero, zero_add, hidem, sub_self,
    roundBinary64_zero]

theorem hypot_max (x y : ℚ) :
    (if |y| > (if |x| > (0 : ℚ) then |x| else 0) then |y|
      else (if |x| > (0 : ℚ) then |x| else 0)) = max |x| |y| := by
  have h1 : (if |x| > (0 : ℚ) then |x| else 0) = |x| := by
    split_ifs with h
    · rfl
    · exact (le_antisymm (not_lt.mp h) (abs_nonneg x)).symm
  rw [h1]
  split_ifs with h
  · exact (max_eq_right (le_of_lt h)).symm
  · exact (max_eq_left (not_lt.mp h)).symm

/-- The value of `Math.hypot(x, y)` when one argument is not zero. -/
theorem mathHypot_eq (x y : ℚ) (h : max |x| |y| ≠ 0) :
    mathHypot x y =
      fmul (fsqrt (fadd (fmul (fdiv |x| (max |x| |y|)) (fdiv |x| (max |x| |y|)))
        (fmul (fdiv |y| (max |x| |y|)) (fdiv |y| (max |x| |y|))))) (max |x| |y|) := by
  unfold mathHypot
  simp only [hypot_max, h, if_false, hypot_sum]

theorem mathHypot_zero : mathHypot 0 0 = 0 := by
  simp [mathHypot]

theorem mathHypot_neg (x y : ℚ) : mathHypot (-x) (-y) = mathHypot x y := by
  simp only [mathHypot, abs_neg]

theorem fdiv_self (a : ℚ) (ha : a ≠ 0) : fdiv a a = 1 := by
  rw [fdiv, div_self ha, roundBinary64_one]

/-- The sum of the squares in `Math.hypot` is at least 1: the largest absolute
value divided by itself is 1. -/
theorem one_le_hypot_sum (x y : ℚ) (hne : max |x| |y| ≠ 0) :
    1 ≤ fadd (fmul (fdiv |x| (max |x| |y|)) (fdiv |x| (max |x| |y|)))
      (fmul (fdiv |y| (max |x| |y|)) (fdiv |y| (max |x| |y|))) := by
  have hsq : ∀ n : ℚ, 0 ≤ fmul n n := fun n => roundBinary64_nonneg _ (mul_self_nonneg n)
  have hone : fmul 1 1 = 1 := by rw [fmul, mul_one, roundBinary64_one]
  apply one_le_roundBinary64
  rcases max_choice |x| |y| with hc | hc
  · have : fdiv |x| (max |x| |y|) = 1 := by
      rw [hc]
      exact fdiv_self _ (by rw [← hc]; exact hne)
    rw [this, hone]
    linarith [hsq (fdiv |y| (max |x| |y|))]
  · have : fdiv |y| (max |x| |y|) = 1 := by
      rw [hc]
      exact fdiv_self _ (by rw [← hc]; exact hne)
    rw [this, hone]
    linarith [hsq (fdiv |x| (max |x| |y|))]

theorem one_le_mathHypot (x y : ℚ) (h : 1 ≤ |x| ∨ 1 ≤ |y|) : 1 ≤ mathHypot x y := by
  have hmax : 1 ≤ max |x| |y| := by
    rcases h with h | h
    · exact le_trans h (le_max_left _ _)
    · exact le_trans h (le_max_right _ _)
  have hne : max |x| |y| ≠ 0 := ne_of_gt (lt_of_lt_of_le one_pos hmax)
  rw [mathHypot_eq x y hne]
  have hroot := one_le_fsqrt _ (one_le_hypot_sum x y hne)
  apply one_le_roundBinary64
  calc (1 : ℚ) = 1 * 1 := (mul_one 1).symm
    _ ≤ _ := mul_le_mul hroot hmax zero_le_one (le_trans zero_le_one hroot)

theorem mathHypot_nonneg (x y : ℚ) : 0 ≤ mathHypot x y := by
  by_cases h : max |x| |y| = 0
  · unfold mathHypot
    simp only [hypot_max, h, if_true]
    exact le_rfl
  · rw [mathHypot_eq x y h]
    apply roundBinary64_nonneg
    exact mul_nonneg (fsqrt_nonneg _) (le_max_of_le_left (abs_nonneg x))

theorem getDistance_nonneg (e1x e1y e2x e2y : Int) : 0 ≤ getDistance e1x e1y e2x e2y :=
  Int.floor_nonneg.mpr (mathHypot_nonneg _ _)

theorem getDistance_comm (e1x e1y e2x e2y : Int) :
    getDistance e1x e1y e2x e2y = getDistance e2x e2y e1x e1y := by
  unfold getDistance
  rw [← mathHypot_neg]
  congr 2 <;> push_cast <;> ring

theorem getDistance_eq_zero_iff (e1x e1y e2x e2y : Int) :
    getDistance e1x e1y e2x e2y = 0 ↔ e1x = e2x ∧ e1y = e2y := by
  unfold getDistance
  constructor
  · intro h
    by_contra hne
    have hcell : e1x - e2x ≠ 0 ∨ e1y - e2y ≠ 0 := by omega
    have habs : (1 : ℚ) ≤ |((e1x - e2x : Int) : ℚ)| ∨ (1 : ℚ) ≤ |((e1y - e2y : Int) : ℚ)| := by
      rcases hcell with hc | hc
      · left
        have : (1 : Int) ≤ |e1x - e2x| := Int.one_le_abs hc
        exact_mod_cast this
      · right
        have : (1 : Int) ≤ |e1y - e2y| := Int.one_le_abs hc
        exact_mod_cast this
    have h1 := one_le_mathHypot _ _ habs
    have h2 : (1 : Int) ≤ ⌊mathHypot ((e1x - e2x : Int) : ℚ) ((e1y - e2y : Int) : ℚ)⌋ :=
      Int.le_floor.mpr (by exact_mod_cast h1)
    omega
  · rintro ⟨rfl, rfl⟩
    simp [mathHypot_zero]

end Kron

/-! ## The distance of the specification -/

namespace Kron

theorem cast_sumSq_natAbs (x y : Int) :
    ((x.natAbs ^ 2 + y.natAbs ^ 2 : Nat) : Int) = x ^ 2 + y ^ 2 := by
  push_cast
  rw [sq_abs, sq_abs]

theorem natSqrt_eq_sqrt (n : Nat) : natSqrt n = Nat.sqrt n :=
  Nat.eq_sqrt.mpr (natSqrt_spec n)

/-- The floored Euclidean distance is the one integer `d ≥ 0` with
`d * d ≤ x ^ 2 + y ^ 2 < (d + 1) * (d + 1)`. -/
theorem floorEuclidean_iff (x y d : Int) :
    d = floorEuclidean x y ↔
      0 ≤ d ∧ d * d ≤ x ^ 2 + y ^ 2 ∧ x ^ 2 + y ^ 2 < (d + 1) * (d + 1) := by
  unfold floorEuclidean
  rw [← cast_sumSq_natAbs, natSqrt_eq_sqrt]
  generalize x.natAbs ^ 2 + y.natAbs ^ 2 = n
  constructor
  · intro h
    subst h
    refine ⟨Int.natCast_nonneg _, ?_, ?_⟩
    · exact_mod_cast Nat.sqrt_le n
    · exact_mod_cast Nat.lt_succ_sqrt n
  · rintro ⟨h0, h1, h2⟩
    obtain ⟨k, rfl⟩ := Int.eq_ofNat_of_zero_le h0
    have : k = Nat.sqrt n := Nat.eq_sqrt.mpr ⟨by exact_mod_cast h1, by exact_mod_cast h2⟩
    exact_mod_cast this

theorem floorEuclidean_eq_floor_sqrt (x y : Int) :
    floorEuclidean x y = ⌊Real.sqrt (((x ^ 2 + y ^ 2 : Int)) : ℝ)⌋ := by
  unfold floorEuclidean
  rw [← cast_sumSq_natAbs, Int.cast_natCast, Real.floor_real_sqrt_eq_nat_sqrt, natSqrt_eq_sqrt]

end Kron

/-! ## binary64 arithmetic: integers -/

namespace Kron

/-- A natural number below `2 ^ 53` is kept by rounding. -/
theorem roundBinary64_natCast (n : Nat) (h : n < 2 ^ 53) : roundBinary64 (n : ℚ) = n := by
  rcases Nat.eq_zero_or_pos n with h0 | hpos
  · subst h0
    simp [roundBinary64_zero]
  · obtain ⟨hL, hlow, hup⟩ := bitLength_spec n hpos
    have hL53 : bitLength n ≤ 53 := by
      by_contra hc
      have h1 : 2 ^ 53 ≤ 2 ^ (bitLength n - 1) := Nat.pow_le_pow_right (by norm_num) (by omega)
      omega
    have hsplit : 2 ^ (bitLength n - 1) * 2 ^ (53 - bitLength n) = 2 ^ 52 := by
      rw [← pow_add]
      congr 1
      omega
    have hsplit2 : 2 ^ bitLength n * 2 ^ (53 - bitLength n) = 2 ^ 53 := by
      rw [← pow_add]
      congr 1
      omega
    have hM1 : 2 ^ 52 ≤ n * 2 ^ (53 - bitLength n) := by
      rw [← hsplit]
      exact Nat.mul_le_mul_right _ hlow
    have hM2 : n * 2 ^ (53 - bitLength n) < 2 ^ 53 := by
      rw [← hsplit2]
      exact Nat.mul_lt_mul_of_pos_right hup (by positivity)
    have hval : ((n * 2 ^ (53 - bitLength n) : Nat) : ℚ) *
        (2 : ℚ) ^ (-((53 - bitLength n : Nat) : Int)) = n := by
      rw [zpow_neg, zpow_natCast]
      push_cast
      field_simp
    have := roundBinary64_of_significand _ (-((53 - bitLength n : Nat) : Int)) hM1 hM2
    rwa [hval] at this

/-- Rounding does not go below a natural number below `2 ^ 53` that the exact
value reaches. -/
theorem natCast_le_roundBinary64 (p : Nat) (hp : p < 2 ^ 53) (q : ℚ) (h : (p : ℚ) ≤ q) :
    (p : ℚ) ≤ roundBinary64 q := by
  rcases Nat.eq_zero_or_pos p with h0 | hpos
  · subst h0
    simpa using roundBinary64_nonneg q (by simpa using h)
  have hppos : (0 : ℚ) < (p : ℚ) := by exact_mod_cast hpos
  have hq : 0 < q := lt_of_lt_of_le hppos h
  rcases lt_or_le 52 (leadingExponent q.num.natAbs q.den) with hs | hs
  · have h1 := leading_le_roundBinary64 q hq
    have h2 : (2 : ℚ) ^ (53 : Int) ≤ (2 : ℚ) ^ leadingExponent q.num.natAbs q.den :=
      zpow_le_zpow_right₀ (by norm_num) (by omega)
    have h3 : (p : ℚ) < (2 : ℚ) ^ (53 : Int) := by
      have h53 : (2 : ℚ) ^ (53 : Int) = 2 ^ 53 := by norm_num
      rw [h53]
      exact_mod_cast hp
    linarith
  · rw [roundBinary64_of_pos q hq]
    set s : Int := leadingExponent q.num.natAbs q.den - 52 with hsdef
    have hb : s.toNat = 0 := by omega
    have hsval : s = -(((-s).toNat : Nat) : Int) := by omega
    set a := (-s).toNat with hadef
    have hDpos : 0 < q.den * 2 ^ s.toNat := Nat.mul_pos q.den_pos (by positivity)
    have hnd : p * q.den ≤ q.num.natAbs := by
      have hh := natAbs_num_div_den q hq
      have hd : (0 : ℚ) < (q.den : ℚ) := by exact_mod_cast q.den_pos
      rw [← hh, le_div_iff₀ hd] at h
      exact_mod_cast h
    have hK : p * 2 ^ a ≤ roundNearestEven (q.num.natAbs * 2 ^ a) (q.den * 2 ^ s.toNat) := by
      refine le_trans ?_ (roundNearestEven_ge _ _)
      rw [Nat.le_div_iff_mul_le hDpos, hb, pow_zero, mul_one]
      calc p * 2 ^ a * q.den = p * q.den * 2 ^ a := by ring
        _ ≤ q.num.natAbs * 2 ^ a := Nat.mul_le_mul_right _ hnd
    have hKq : ((p * 2 ^ a : Nat) : ℚ) ≤
        (roundNearestEven (q.num.natAbs * 2 ^ a) (q.den * 2 ^ s.toNat) : ℚ) := by
      exact_mod_cast hK
    have hspos : (0 : ℚ) < (2 : ℚ) ^ s := by positivity
    have hpa : (p : ℚ) = ((p * 2 ^ a : Nat) : ℚ) * (2 : ℚ) ^ s := by
      rw [hsval, zpow_neg, zpow_natCast]
      push_cast
      field_simp
    calc (p : ℚ) = ((p * 2 ^ a : Nat) : ℚ) * (2 : ℚ) ^ s := hpa
      _ ≤ _ := mul_le_mul_of_nonneg_right hKq (le_of_lt hspos)

end Kron

/-! ## The cone test: rounded and exact product -/

namespace Kron

theorem abs_cast_lt_of_inRange (a b : Int) (ha : |a| ≤ 2 ^ 20) (hb : |b| ≤ 2 ^ 20) :
    ∃ p : Nat, p < 2 ^ 53 ∧ ((|b - a| : Int) : ℚ) = (p : ℚ) := by
  refine ⟨(b - a).natAbs, ?_, ?_⟩
  · have h1 := abs_le.mp ha
    have h2 := abs_le.mp hb
    have h3 : ((b - a).natAbs : Int) = |b - a| := Int.natCast_natAbs _
    have h4 : |b - a| ≤ 2 ^ 21 := by
      rw [abs_le]
      constructor <;> norm_num at * <;> omega
    have h5 : ((b - a).natAbs : Int) < 2 ^ 53 := by
      rw [h3]
      exact lt_of_le_of_lt h4 (by norm_num)
    exact_mod_cast h5
  · rw [Nat.cast_natAbs]

/-- An offset that is greater than the binary64 product is greater than the
exact product: the rounded product is not below an integer that the exact
product reaches. -/
theorem gt_mul_of_gt_fmul (p : Nat) (hp : p < 2 ^ 53) (s f : ℚ) (h : (p : ℚ) > fmul s f) :
    (p : ℚ) > s * f := by
  by_contra hc
  have := natCast_le_roundBinary64 p hp (s * f) (not_lt.mp hc)
  unfold fmul at h
  linarith

/-- For cells within `2 ^ 20` of the origin, a target that a cone `if` of the
plugin rejects is outside the view cone of the specification. -/
theorem outsideViewCone_of_failsConeTest {dir : Int} {a b : XY} {s : ℚ}
    (ha : CellInRange a) (hb : CellInRange b) (hf : failsConeTest dir a b s) :
    outsideViewCone dir a b s := by
  obtain ⟨px, hpx, hx⟩ := abs_cast_lt_of_inRange a.X b.X ha.1 hb.1
  obtain ⟨py, hpy, hy⟩ := abs_cast_lt_of_inRange a.Y b.Y ha.2 hb.2
  unfold failsConeTest at hf
  unfold outsideViewCone
  rcases hf with ⟨hd, ho⟩ | ⟨hd, ho⟩ | ⟨hd, ho⟩ | ⟨hd, ho⟩
  · refine Or.inl ⟨hd, ho.imp id fun h => ?_⟩
    rw [hx] at h ⊢
    exact gt_mul_of_gt_fmul px hpx _ _ h
  · refine Or.inr (Or.inl ⟨hd, ho.imp id fun h => ?_⟩)
    rw [hx] at h ⊢
    exact gt_mul_of_gt_fmul px hpx _ _ h
  · refine Or.inr (Or.inr (Or.inl ⟨hd, ho.imp id fun h => ?_⟩))
    rw [hy] at h ⊢
    exact gt_mul_of_gt_fmul py hpy _ _ h
  · refine Or.inr (Or.inr (Or.inr ⟨hd, ho.imp id fun h => ?_⟩))
    rw [hy] at h ⊢
    exact gt_mul_of_gt_fmul py hpy _ _ h

/-- With slope 1 the binary64 product is the forward offset itself, for cells
within `2 ^ 20` of the origin, so the test of the plugin is the test of the
specification. -/
theorem failsConeTest_one_iff {dir : Int} {a b : XY}
    (ha : CellInRange a) (hb : CellInRange b) :
    failsConeTest dir a b 1 ↔ outsideViewCone dir a b 1 := by
  obtain ⟨px, hpx, hx⟩ := abs_cast_lt_of_inRange a.X b.X ha.1 hb.1
  obtain ⟨py, hpy, hy⟩ := abs_cast_lt_of_inRange a.Y b.Y ha.2 hb.2
  have h1 : fmul 1 ((|b.X - a.X| : Int) : ℚ) = 1 * ((|b.X - a.X| : Int) : ℚ) := by
    rw [fmul, one_mul, hx, roundBinary64_natCast px hpx]
  have h2 : fmul 1 ((|b.Y - a.Y| : Int) : ℚ) = 1 * ((|b.Y - a.Y| : Int) : ℚ) := by
    rw [fmul, one_mul, hy, roundBinary64_natCast py hpy]
  unfold failsConeTest outsideViewCone
  rw [h1, h2]

end Kron

/-! ## `Math.hypot`: accuracy -/

namespace Kron

open AI_base

/-- The relative error of rounding is at most `2 ^ (-53)`. -/
theorem roundBinary64_rel (q : ℚ) (hq : 0 ≤ q) :
    (1 - 1 / 2 ^ 53) * q ≤ roundBinary64 q ∧ roundBinary64 q ≤ (1 + 1 / 2 ^ 53) * q := by
  have h := roundBinary64_error q
  rw [abs_of_nonneg hq, abs_le] at h
  constructor <;> linarith [h.1, h.2]

theorem natSqrt_scaled (N D : Nat) (hD : 0 < D) :
    natSqrt (N / D) * natSqrt (N / D) * D ≤ N ∧
      N < (natSqrt (N / D) + 1) * (natSqrt (N / D) + 1) * D := by
  obtain ⟨h1, h2⟩ := natSqrt_spec (N / D)
  exact ⟨(Nat.le_div_iff_mul_le hD).mp h1, (Nat.div_lt_iff_lt_mul hD).mp h2⟩

/-- The significand that `fsqrt` chooses is within one half of the exact root:
`(2 * m1 - 1) ^ 2 * D ≤ 4 * N ≤ (2 * m1 + 1) ^ 2 * D`. -/
theorem sqrt_significand_bounds (N D : Nat) (hD : 0 < D) (hm0 : 1 ≤ natSqrt (N / D))
    (m1 : Nat)
    (hm1 : m1 = if D * (2 * natSqrt (N / D) + 1) ^ 2 < 4 * N ∨
        (D * (2 * natSqrt (N / D) + 1) ^ 2 = 4 * N ∧ natSqrt (N / D) % 2 = 1)
      then natSqrt (N / D) + 1 else natSqrt (N / D)) :
    (2 * (m1 : ℚ) - 1) ^ 2 * D ≤ 4 * N ∧ 4 * (N : ℚ) ≤ (2 * (m1 : ℚ) + 1) ^ 2 * D := by
  obtain ⟨h1, h2⟩ := natSqrt_scaled N D hD
  set m := natSqrt (N / D) with hm
  have h1q : (m : ℚ) * m * D ≤ N := by exact_mod_cast h1
  have h2q : (N : ℚ) < ((m : ℚ) + 1) * ((m : ℚ) + 1) * D := by exact_mod_cast h2
  have hDq : (0 : ℚ) < D := by exact_mod_cast hD
  have hmq : (1 : ℚ) ≤ m := by exact_mod_cast hm0
  split_ifs at hm1 with hup
  · have hge : (D : ℚ) * (2 * (m : ℚ) + 1) ^ 2 ≤ 4 * N := by
      rcases hup with h | ⟨h, _⟩
      · exact_mod_cast le_of_lt h
      · exact_mod_cast le_of_eq h
    subst hm1
    push_cast
    constructor
    · nlinarith
    · nlinarith
  · have hle : 4 * (N : ℚ) ≤ (D : ℚ) * (2 * (m : ℚ) + 1) ^ 2 := by
      have : 4 * N ≤ D * (2 * m + 1) ^ 2 := by
        by_contra hc
        exact hup (Or.inl (not_le.mp hc))
      exact_mod_cast this
    subst hm1
    constructor
    · have : (0 : ℚ) ≤ (4 * (m : ℚ) - 1) * D := mul_nonneg (by linarith) (le_of_lt hDq)
      nlinarith
    · nlinarith

/-- The relative error of the binary64 square root is at most `2 ^ (-53)`:
the square of `fsqrt q` is `q` up to the factor `(1 ± 2 ^ (-53)) ^ 2`. -/
theorem fsqrt_sq_bounds (q : ℚ) (hq : 0 < q) :
    (1 - 1 / 2 ^ 53) ^ 2 * fsqrt q ^ 2 ≤ q ∧ q ≤ (1 + 1 / 2 ^ 53) ^ 2 * fsqrt q ^ 2 := by
  have hle := leadingExponent_rat_le q hq
  have hnd := natAbs_num_div_den q hq
  have hdq : (0 : ℚ) < (q.den : ℚ) := by exact_mod_cast q.den_pos
  unfold fsqrt
  simp only [not_le.mpr hq, if_false]
  set e := leadingExponent q.num.natAbs q.den with hedef
  set s : Int := e / 2 - 52 with hsdef
  set a := (-s).toNat with hadef
  set b := s.toNat with hbdef
  set N := q.num.natAbs * 4 ^ a with hNdef
  set D := q.den * 4 ^ b with hDdef
  set m := natSqrt (N / D) with hmdef
  set m1 := (if D * (2 * m + 1) ^ 2 < 4 * N ∨ (D * (2 * m + 1) ^ 2 = 4 * N ∧ m % 2 = 1) then m + 1
    else m) with hm1def
  have hDpos : 0 < D := Nat.mul_pos q.den_pos (by positivity)
  have hDq : (0 : ℚ) < (D : ℚ) := by exact_mod_cast hDpos
  have hA : (0 : ℚ) < (2 : ℚ) ^ a := by positivity
  have hB : (0 : ℚ) < (2 : ℚ) ^ b := by positivity
  have h4a : (4 : ℚ) ^ a = ((2 : ℚ) ^ a) ^ 2 := by
    rw [← pow_mul, mul_comm, pow_mul]
    norm_num
  have h4b : (4 : ℚ) ^ b = ((2 : ℚ) ^ b) ^ 2 := by
    rw [← pow_mul, mul_comm, pow_mul]
    norm_num
  have hX : (N : ℚ) / (D : ℚ) = q * ((2 : ℚ) ^ a) ^ 2 / ((2 : ℚ) ^ b) ^ 2 := by
    rw [hNdef, hDdef]
    push_cast
    rw [h4a, h4b]
    conv_rhs => rw [← hnd]
    field_simp
  have hsplit : (2 : ℚ) ^ s = (2 : ℚ) ^ b / (2 : ℚ) ^ a := two_zpow_split s
  have hX104 : (2 : ℚ) ^ 104 ≤ (N : ℚ) / (D : ℚ) := by
    have h1 : (2 : ℚ) ^ (104 : Int) * ((2 : ℚ) ^ s) ^ 2 ≤ (2 : ℚ) ^ e := by
      rw [← zpow_natCast ((2 : ℚ) ^ s) 2, ← zpow_mul, ← zpow_add₀ (by norm_num)]
      apply zpow_le_zpow_right₀ (by norm_num)
      push_cast
      omega
    have h2 : (2 : ℚ) ^ (104 : Int) = 2 ^ 104 := by norm_num
    rw [h2, hsplit, div_pow] at h1
    rw [hX, le_div_iff₀ (by positivity)]
    have h3 := le_trans h1 hle
    rw [mul_div_assoc', div_le_iff₀ (by positivity)] at h3
    exact h3
  have hm52 : 2 ^ 52 ≤ m := by
    apply natSqrt_ge
    rw [Nat.le_div_iff_mul_le hDpos]
    rw [le_div_iff₀ hDq] at hX104
    have hN : 2 ^ 104 * D ≤ N := by exact_mod_cast hX104
    calc 2 ^ 52 * 2 ^ 52 * D = 2 ^ 104 * D := by norm_num
      _ ≤ N := hN
  have hmm1 : m ≤ m1 := by
    rw [hm1def]
    split_ifs <;> omega
  have hm1q : (2 : ℚ) ^ 52 ≤ (m1 : ℚ) := by
    have : 2 ^ 52 ≤ m1 := le_trans hm52 hmm1
    exact_mod_cast this
  obtain ⟨hb1, hb2⟩ := sqrt_significand_bounds N D hDpos
    (le_trans (Nat.one_le_two_pow) hm52) m1 hm1def
  have hX1 : ((m1 : ℚ) - 1 / 2) ^ 2 ≤ (N : ℚ) / (D : ℚ) := by
    rw [le_div_iff₀ hDq]
    have : ((m1 : ℚ) - 1 / 2) ^ 2 * D = (2 * (m1 : ℚ) - 1) ^ 2 * D / 4 := by ring
    linarith
  have hX2 : (N : ℚ) / (D : ℚ) ≤ ((m1 : ℚ) + 1 / 2) ^ 2 := by
    rw [div_le_iff₀ hDq]
    have : ((m1 : ℚ) + 1 / 2) ^ 2 * D = (2 * (m1 : ℚ) + 1) ^ 2 * D / 4 := by ring
    linarith
  have hval : (mkRat ((m1 * 2 ^ b : Nat) : Int) (2 ^ a) : ℚ) =
      (m1 : ℚ) * (2 : ℚ) ^ b / (2 : ℚ) ^ a := by
    rw [Rat.mkRat_eq_div]
    push_cast
    rfl
  rw [hval]
  have hqX : q = (N : ℚ) / (D : ℚ) * (((2 : ℚ) ^ b) ^ 2 / ((2 : ℚ) ^ a) ^ 2) := by
    rw [hX]
    field_simp
  have hc : (0 : ℚ) ≤ ((2 : ℚ) ^ b) ^ 2 / ((2 : ℚ) ^ a) ^ 2 := by positivity
  have hr2 : ((m1 : ℚ) * (2 : ℚ) ^ b / (2 : ℚ) ^ a) ^ 2 =
      (m1 : ℚ) ^ 2 * (((2 : ℚ) ^ b) ^ 2 / ((2 : ℚ) ^ a) ^ 2) := by
    field_simp
    ring
  have hlow : ((1 - 1 / 2 ^ 53) * (m1 : ℚ)) ^ 2 ≤ ((m1 : ℚ) - 1 / 2) ^ 2 := by
    apply pow_le_pow_left₀
    · apply mul_nonneg (by norm_num)
      linarith [show (0 : ℚ) ≤ 2 ^ 52 by norm_num]
    · have : (m1 : ℚ) / 2 ^ 53 ≥ 1 / 2 := by
        rw [ge_iff_le, le_div_iff₀ (by norm_num)]
        linarith [show (1 : ℚ) / 2 * 2 ^ 53 = 2 ^ 52 by norm_num]
      linarith [show (1 - 1 / 2 ^ 53) * (m1 : ℚ) = (m1 : ℚ) - (m1 : ℚ) / 2 ^ 53 by ring]
  have hhigh : ((m1 : ℚ) + 1 / 2) ^ 2 ≤ ((1 + 1 / 2 ^ 53) * (m1 : ℚ)) ^ 2 := by
    apply pow_le_pow_left₀
    · linarith [show (0 : ℚ) ≤ 2 ^ 52 by norm_num]
    · have : (m1 : ℚ) / 2 ^ 53 ≥ 1 / 2 := by
        rw [ge_iff_le, le_div_iff₀ (by norm_num)]
        linarith [show (1 : ℚ) / 2 * 2 ^ 53 = 2 ^ 52 by norm_num]
      linarith [show (1 + 1 / 2 ^ 53) * (m1 : ℚ) = (m1 : ℚ) + (m1 : ℚ) / 2 ^ 53 by ring]
  rw [hr2]
  constructor
  · calc (1 - 1 / 2 ^ 53) ^ 2 * ((m1 : ℚ) ^ 2 * (((2 : ℚ) ^ b) ^ 2 / ((2 : ℚ) ^ a) ^ 2))
        = ((1 - 1 / 2 ^ 53) * (m1 : ℚ)) ^ 2 * (((2 : ℚ) ^ b) ^ 2 / ((2 : ℚ) ^ a) ^ 2) := by ring
      _ ≤ (N : ℚ) / (D : ℚ) * (((2 : ℚ) ^ b) ^ 2 / ((2 : ℚ) ^ a) ^ 2) :=
          mul_le_mul_of_nonneg_right (le_trans hlow hX1) hc
      _ = q := hqX.symm
  · calc q = (N : ℚ) / (D : ℚ) * (((2 : ℚ) ^ b) ^ 2 / ((2 : ℚ) ^ a) ^ 2) := hqX
      _ ≤ ((1 + 1 / 2 ^ 53) * (m1 : ℚ)) ^ 2 * (((2 : ℚ) ^ b) ^ 2 / ((2 : ℚ) ^ a) ^ 2) :=
          mul_le_mul_of_nonneg_right (le_trans hX2 hhigh) hc
      _ = (1 + 1 / 2 ^ 53) ^ 2 * ((m1 : ℚ) ^ 2 * (((2 : ℚ) ^ b) ^ 2 / ((2 : ℚ) ^ a) ^ 2)) := by
          ring

/-- The error of `Math.hypot` from the errors of its operations: with every
operation exact up to the factors `l` and `u`, the square of the result is the
sum of the squares up to the factors `l ^ 6 / u ^ 2` and `u ^ 6 / l ^ 2`. -/
theorem hypot_chain (l u M t0 t1 n0 n1 s0 s1 S r R : ℚ)
    (hl : 0 < l) (hu : 0 < u) (hM : 0 < M) (ht0 : 0 ≤ t0) (ht1 : 0 ≤ t1)
    (hn0 : l * t0 ≤ n0 ∧ n0 ≤ u * t0) (hn1 : l * t1 ≤ n1 ∧ n1 ≤ u * t1)
    (hs0 : l * (n0 * n0) ≤ s0 ∧ s0 ≤ u * (n0 * n0))
    (hs1 : l * (n1 * n1) ≤ s1 ∧ s1 ≤ u * (n1 * n1))
    (hS : l * (s0 + s1) ≤ S ∧ S ≤ u * (s0 + s1))
    (hr0 : 0 ≤ r) (hr : l ^ 2 * r ^ 2 ≤ S ∧ S ≤ u ^ 2 * r ^ 2)
    (hR : l * (r * M) ≤ R ∧ R ≤ u * (r * M)) :
    l ^ 2 * R ^ 2 ≤ u ^ 6 * ((t0 ^ 2 + t1 ^ 2) * M ^ 2) ∧
      l ^ 6 * ((t0 ^ 2 + t1 ^ 2) * M ^ 2) ≤ u ^ 2 * R ^ 2 := by
  have sq : ∀ t n : ℚ, 0 ≤ t → l * t ≤ n → n ≤ u * t →
      l ^ 2 * t ^ 2 ≤ n * n ∧ n * n ≤ u ^ 2 * t ^ 2 := by
    intro t n ht h1 h2
    have hlt : 0 ≤ l * t := mul_nonneg hl.le ht
    have hn : 0 ≤ n := le_trans hlt h1
    constructor
    · calc l ^ 2 * t ^ 2 = (l * t) * (l * t) := by ring
        _ ≤ n * n := mul_self_le_mul_self hlt h1
    · calc n * n ≤ (u * t) * (u * t) := mul_self_le_mul_self hn h2
        _ = u ^ 2 * t ^ 2 := by ring
  have cube : ∀ t n s : ℚ, 0 ≤ t → l * t ≤ n → n ≤ u * t → l * (n * n) ≤ s → s ≤ u * (n * n) →
      l ^ 3 * t ^ 2 ≤ s ∧ s ≤ u ^ 3 * t ^ 2 := by
    intro t n s ht h1 h2 h3 h4
    obtain ⟨q1, q2⟩ := sq t n ht h1 h2
    constructor
    · calc l ^ 3 * t ^ 2 = l * (l ^ 2 * t ^ 2) := by ring
        _ ≤ l * (n * n) := mul_le_mul_of_nonneg_left q1 hl.le
        _ ≤ s := h3
    · calc s ≤ u * (n * n) := h4
        _ ≤ u * (u ^ 2 * t ^ 2) := mul_le_mul_of_nonneg_left q2 hu.le
        _ = u ^ 3 * t ^ 2 := by ring
  obtain ⟨c0, d0⟩ := cube t0 n0 s0 ht0 hn0.1 hn0.2 hs0.1 hs0.2
  obtain ⟨c1, d1⟩ := cube t1 n1 s1 ht1 hn1.1 hn1.2 hs1.1 hs1.2
  have eS : l ^ 4 * (t0 ^ 2 + t1 ^ 2) ≤ S := by
    calc l ^ 4 * (t0 ^ 2 + t1 ^ 2) = l * (l ^ 3 * t0 ^ 2 + l ^ 3 * t1 ^ 2) := by ring
      _ ≤ l * (s0 + s1) := mul_le_mul_of_nonneg_left (add_le_add c0 c1) hl.le
      _ ≤ S := hS.1
  have fS : S ≤ u ^ 4 * (t0 ^ 2 + t1 ^ 2) := by
    calc S ≤ u * (s0 + s1) := hS.2
      _ ≤ u * (u ^ 3 * t0 ^ 2 + u ^ 3 * t1 ^ 2) :=
          mul_le_mul_of_nonneg_left (add_le_add d0 d1) hu.le
      _ = u ^ 4 * (t0 ^ 2 + t1 ^ 2) := by ring
  have hrM : 0 ≤ r * M := mul_nonneg hr0 hM.le
  obtain ⟨g1, g2⟩ := sq (r * M) R hrM hR.1 hR.2
  have hM2 : 0 ≤ M ^ 2 := by positivity
  constructor
  · calc l ^ 2 * R ^ 2 = l ^ 2 * (R * R) := by ring
      _ ≤ l ^ 2 * (u ^ 2 * (r * M) ^ 2) := mul_le_mul_of_nonneg_left g2 (by positivity)
      _ = u ^ 2 * M ^ 2 * (l ^ 2 * r ^ 2) := by ring
      _ ≤ u ^ 2 * M ^ 2 * S := mul_le_mul_of_nonneg_left hr.1 (by positivity)
      _ ≤ u ^ 2 * M ^ 2 * (u ^ 4 * (t0 ^ 2 + t1 ^ 2)) :=
          mul_le_mul_of_nonneg_left fS (by positivity)
      _ = u ^ 6 * ((t0 ^ 2 + t1 ^ 2) * M ^ 2) := by ring
  · calc l ^ 6 * ((t0 ^ 2 + t1 ^ 2) * M ^ 2) = l ^ 2 * M ^ 2 * (l ^ 4 * (t0 ^ 2 + t1 ^ 2)) := by
          ring
      _ ≤ l ^ 2 * M ^ 2 * S := mul_le_mul_of_nonneg_left eS (by positivity)
      _ ≤ l ^ 2 * M ^ 2 * (u ^ 2 * r ^ 2) := mul_le_mul_of_nonneg_left hr.2 (by positivity)
      _ = u ^ 2 * (l ^ 2 * (r * M) ^ 2) := by ring
      _ ≤ u ^ 2 * (R * R) := mul_le_mul_of_nonneg_left g1 (by positivity)
      _ = u ^ 2 * R ^ 2 := by ring

/-- The square of `Math.hypot(x, y)` is `x ^ 2 + y ^ 2` up to the factors
`(1 - 2 ^ (-53)) ^ 6 / (1 + 2 ^ (-53)) ^ 2` and
`(1 + 2 ^ (-53)) ^ 6 / (1 - 2 ^ (-53)) ^ 2`. -/
theorem mathHypot_sq_bounds (x y : ℚ) (hne : max |x| |y| ≠ 0) :
    (1 - 1 / 2 ^ 53) ^ 2 * mathHypot x y ^ 2 ≤ (1 + 1 / 2 ^ 53) ^ 6 * (x ^ 2 + y ^ 2) ∧
      (1 - 1 / 2 ^ 53) ^ 6 * (x ^ 2 + y ^ 2) ≤ (1 + 1 / 2 ^ 53) ^ 2 * mathHypot x y ^ 2 := by
  have hM : 0 < max |x| |y| :=
    lt_of_le_of_ne (le_max_of_le_left (abs_nonneg x)) (Ne.symm hne)
  have ht0 : 0 ≤ |x| / max |x| |y| := div_nonneg (abs_nonneg x) hM.le
  have ht1 : 0 ≤ |y| / max |x| |y| := div_nonneg (abs_nonneg y) hM.le
  have hsum := one_le_hypot_sum x y hne
  rw [mathHypot_eq x y hne]
  set M := max |x| |y| with hMdef
  set n0 := fdiv |x| M with hn0
  set n1 := fdiv |y| M with hn1
  set s0 := fmul n0 n0 with hs0
  set s1 := fmul n1 n1 with hs1
  set S := fadd s0 s1 with hS
  have hs0nn : 0 ≤ s0 := roundBinary64_nonneg _ (mul_self_nonneg n0)
  have hs1nn : 0 ≤ s1 := roundBinary64_nonneg _ (mul_self_nonneg n1)
  have hSpos : 0 < S := lt_of_lt_of_le one_pos hsum
  have hr0 := fsqrt_nonneg S
  have key := hypot_chain (1 - 1 / 2 ^ 53) (1 + 1 / 2 ^ 53) M (|x| / M) (|y| / M) n0 n1 s0 s1 S
    (fsqrt S) (fmul (fsqrt S) M) (by norm_num) (by norm_num) hM ht0 ht1
    (roundBinary64_rel _ ht0) (roundBinary64_rel _ ht1)
    (roundBinary64_rel _ (mul_self_nonneg n0)) (roundBinary64_rel _ (mul_self_nonneg n1))
    (roundBinary64_rel _ (add_nonneg hs0nn hs1nn)) hr0 (fsqrt_sq_bounds S hSpos)
    (roundBinary64_rel _ (mul_nonneg hr0 hM.le))
  have hN : ((|x| / M) ^ 2 + (|y| / M) ^ 2) * M ^ 2 = x ^ 2 + y ^ 2 := by
    have hM0 : M ≠ 0 := ne_of_gt hM
    field_simp
  rw [hN] at key
  exact key

/-- The two numeric facts about the error factors. -/
theorem hypot_factor_bounds :
    ((1 : ℚ) + 1 / 2 ^ 53) ^ 6 ≤ (1 - 1 / 2 ^ 53) ^ 2 * (1 + 1 / 2 ^ 49) ∧
      ((1 : ℚ) + 1 / 2 ^ 53) ^ 2 * (1 - 1 / 2 ^ 49) ≤ (1 - 1 / 2 ^ 53) ^ 6 := by
  constructor <;> norm_num

/-- For offsets of at most `2 ^ 21` the floor of `Math.hypot` is at least every
`j` with `j ^ 2 + 1 ≤ x ^ 2 + y ^ 2` and at most every `k` with
`x ^ 2 + y ^ 2 < (k + 1) ^ 2`. -/
theorem floor_mathHypot_bounds (x y : Int) (hx : |x| ≤ 2 ^ 21) (hy : |y| ≤ 2 ^ 21) :
    (∀ j : Int, 0 ≤ j → j ^ 2 + 1 ≤ x ^ 2 + y ^ 2 → j ≤ ⌊mathHypot (x : ℚ) (y : ℚ)⌋) ∧
      (∀ k : Int, 0 ≤ k → x ^ 2 + y ^ 2 < (k + 1) ^ 2 → ⌊mathHypot (x : ℚ) (y : ℚ)⌋ ≤ k) := by
  have hR0 := mathHypot_nonneg (x : ℚ) (y : ℚ)
  have hNle : x ^ 2 + y ^ 2 ≤ 2 ^ 43 := by
    have h1 : x ^ 2 ≤ (2 ^ 21) ^ 2 := by
      rw [← sq_abs x]
      exact pow_le_pow_left₀ (abs_nonneg x) hx 2
    have h2 : y ^ 2 ≤ (2 ^ 21) ^ 2 := by
      rw [← sq_abs y]
      exact pow_le_pow_left₀ (abs_nonneg y) hy 2
    calc x ^ 2 + y ^ 2 ≤ (2 ^ 21) ^ 2 + (2 ^ 21) ^ 2 := add_le_add h1 h2
      _ = 2 ^ 43 := by norm_num
  have hNq : ((x : ℚ) ^ 2 + (y : ℚ) ^ 2) ≤ 2 ^ 43 := by exact_mod_cast hNle
  have hN0 : (0 : ℚ) ≤ (x : ℚ) ^ 2 + (y : ℚ) ^ 2 := by positivity
  by_cases hne : max |(x : ℚ)| |(y : ℚ)| = 0
  · have hx0 : (x : ℚ) = 0 := by
      have := le_max_left |(x : ℚ)| |(y : ℚ)|
      rw [hne] at this
      exact abs_nonpos_iff.mp this
    have hy0 : (y : ℚ) = 0 := by
      have := le_max_right |(x : ℚ)| |(y : ℚ)|
      rw [hne] at this
      exact abs_nonpos_iff.mp this
    have hx0i : x = 0 := by exact_mod_cast hx0
    have hy0i : y = 0 := by exact_mod_cast hy0
    subst hx0i hy0i
    constructor
    · intro j hj hjN
      exfalso
      nlinarith
    · intro k hk _
      simp [mathHypot_zero]
      exact hk
  · obtain ⟨hup, hlow⟩ := mathHypot_sq_bounds (x : ℚ) (y : ℚ) hne
    obtain ⟨f1, f2⟩ := hypot_factor_bounds
    have hl2 : (0 : ℚ) < (1 - 1 / 2 ^ 53) ^ 2 := by norm_num
    have hu2 : (0 : ℚ) < (1 + 1 / 2 ^ 53) ^ 2 := by norm_num
    have hRup : mathHypot (x : ℚ) (y : ℚ) ^ 2 ≤ (1 + 1 / 2 ^ 49) * ((x : ℚ) ^ 2 + (y : ℚ) ^ 2) := by
      have h1 : (1 - 1 / 2 ^ 53) ^ 2 * mathHypot (x : ℚ) (y : ℚ) ^ 2 ≤
          (1 - 1 / 2 ^ 53) ^ 2 * ((1 + 1 / 2 ^ 49) * ((x : ℚ) ^ 2 + (y : ℚ) ^ 2)) := by
        calc (1 - 1 / 2 ^ 53) ^ 2 * mathHypot (x : ℚ) (y : ℚ) ^ 2
            ≤ (1 + 1 / 2 ^ 53) ^ 6 * ((x : ℚ) ^ 2 + (y : ℚ) ^ 2) := hup
          _ ≤ (1 - 1 / 2 ^ 53) ^ 2 * (1 + 1 / 2 ^ 49) * ((x : ℚ) ^ 2 + (y : ℚ) ^ 2) :=
              mul_le_mul_of_nonneg_right f1 hN0
          _ = _ := by ring
      exact le_of_mul_le_mul_left h1 hl2
    have hRlow : (1 - 1 / 2 ^ 49) * ((x : ℚ) ^ 2 + (y : ℚ) ^ 2) ≤
        mathHypot (x : ℚ) (y : ℚ) ^ 2 := by
      have h1 : (1 + 1 / 2 ^ 53) ^ 2 * ((1 - 1 / 2 ^ 49) * ((x : ℚ) ^ 2 + (y : ℚ) ^ 2)) ≤
          (1 + 1 / 2 ^ 53) ^ 2 * mathHypot (x : ℚ) (y : ℚ) ^ 2 := by
        calc (1 + 1 / 2 ^ 53) ^ 2 * ((1 - 1 / 2 ^ 49) * ((x : ℚ) ^ 2 + (y : ℚ) ^ 2))
            = (1 + 1 / 2 ^ 53) ^ 2 * (1 - 1 / 2 ^ 49) * ((x : ℚ) ^ 2 + (y : ℚ) ^ 2) := by ring
          _ ≤ (1 - 1 / 2 ^ 53) ^ 6 * ((x : ℚ) ^ 2 + (y : ℚ) ^ 2) :=
              mul_le_mul_of_nonneg_right f2 hN0
          _ ≤ _ := hlow
      exact le_of_mul_le_mul_left h1 hu2
    have hsmall : (1 / 2 ^ 49 : ℚ) * ((x : ℚ) ^ 2 + (y : ℚ) ^ 2) ≤ 1 / 64 := by
      calc (1 / 2 ^ 49 : ℚ) * ((x : ℚ) ^ 2 + (y : ℚ) ^ 2) ≤ 1 / 2 ^ 49 * 2 ^ 43 :=
            mul_le_mul_of_nonneg_left hNq (by norm_num)
        _ = 1 / 64 := by norm_num
    constructor
    · intro j hj hjN
      rw [Int.le_floor]
      have hjq : ((j : ℚ)) ^ 2 + 1 ≤ (x : ℚ) ^ 2 + (y : ℚ) ^ 2 := by exact_mod_cast hjN
      have hj0 : (0 : ℚ) ≤ (j : ℚ) := by exact_mod_cast hj
      by_contra hc
      have hlt : mathHypot (x : ℚ) (y : ℚ) < (j : ℚ) := not_le.mp hc
      have hsq : mathHypot (x : ℚ) (y : ℚ) ^ 2 < (j : ℚ) ^ 2 :=
        pow_lt_pow_left₀ hlt hR0 (by norm_num)
      linarith
    · intro k hk hkN
      have hkq : (x : ℚ) ^ 2 + (y : ℚ) ^ 2 + 1 ≤ ((k : ℚ) + 1) ^ 2 := by
        have : x ^ 2 + y ^ 2 + 1 ≤ (k + 1) ^ 2 := by omega
        exact_mod_cast this
      have hk0 : (0 : ℚ) ≤ (k : ℚ) + 1 := by
        have : (0 : ℚ) ≤ (k : ℚ) := by exact_mod_cast hk
        linarith
      have hlt : mathHypot (x : ℚ) (y : ℚ) < (k : ℚ) + 1 := by
        by_contra hc
        have hge : (k : ℚ) + 1 ≤ mathHypot (x : ℚ) (y : ℚ) := not_lt.mp hc
        have hsq : ((k : ℚ) + 1) ^ 2 ≤ mathHypot (x : ℚ) (y : ℚ) ^ 2 :=
          pow_le_pow_left₀ hk0 hge 2
        linarith
      have : ⌊mathHypot (x : ℚ) (y : ℚ)⌋ < k + 1 := by
        rw [Int.floor_lt]
        exact_mod_cast hlt
      omega

/-- How far `getDistance` is from the floored Euclidean distance of the
specification, for cells within `2 ^ 20` of the origin: it is that distance or
one less, and it is that distance whenever the sum of the squares of the
offsets is not a perfect square. -/
theorem getDistance_near_floorEuclidean (ax ay bx cy : Int)
    (ha : CellInRange ⟨ax, ay⟩) (hb : CellInRange ⟨bx, cy⟩) :
    floorEuclidean (ax - bx) (ay - cy) - 1 ≤ getDistance ax ay bx cy ∧
      getDistance ax ay bx cy ≤ floorEuclidean (ax - bx) (ay - cy) ∧
      ((∀ k : Int, k ^ 2 ≠ (ax - bx) ^ 2 + (ay - cy) ^ 2) →
        getDistance ax ay bx cy = floorEuclidean (ax - bx) (ay - cy)) := by
  have hx : |ax - bx| ≤ 2 ^ 21 := by
    have h1 := abs_le.mp ha.1
    have h2 := abs_le.mp hb.1
    rw [abs_le]
    constructor <;> norm_num at * <;> omega
  have hy : |ay - cy| ≤ 2 ^ 21 := by
    have h1 := abs_le.mp ha.2
    have h2 := abs_le.mp hb.2
    rw [abs_le]
    constructor <;> norm_num at * <;> omega
  obtain ⟨hlow, hup⟩ := floor_mathHypot_bounds (ax - bx) (ay - cy) hx hy
  obtain ⟨hk0, hk1, hk2⟩ := (floorEuclidean_iff (ax - bx) (ay - cy) _).mp rfl
  have hnn := getDistance_nonneg ax ay bx cy
  unfold getDistance at hnn ⊢
  set k := floorEuclidean (ax - bx) (ay - cy) with hk
  have hupk := hup k hk0 (by nlinarith)
  refine ⟨?_, hupk, ?_⟩
  · rcases eq_or_lt_of_le hk0 with h0 | hpos
    · omega
    · have := hlow (k - 1) (by omega) (by nlinarith)
      exact this
  · intro hns
    have hne : k ^ 2 ≠ (ax - bx) ^ 2 + (ay - cy) ^ 2 := hns k
    have hlt : k ^ 2 < (ax - bx) ^ 2 + (ay - cy) ^ 2 := by
      rcases lt_or_eq_of_le (show k ^ 2 ≤ (ax - bx) ^ 2 + (ay - cy) ^ 2 by nlinarith) with h | h
      · exact h
      · exact absurd h hne
    have := hlow k hk0 (by omega)
    omega

end Kron

/-! ## Sight evaluator -/

namespace Kron

open AI_base Game_Interpreter

/-- C1, as stated, fails: with the observer (event 1) on `(2, 0)` facing down,
the target (event 2) on `(3, 6)`, range 7 and slope 1, `eventInSight` returns
true, although sample `i = 3` of the specified line, the cell
`(round(2 + 3*1/6), round(0 + 3*6/6)) = (3, 3)`, has a region id different from
the one of the observer. The loop adds the binary64 value of `1/6`
(`0.16666666666666666`) to `look_x = 2` three times and reaches
`2.4999999999999996`, which rounds to column 2, so it tests cell `(2, 3)`
instead. The distance clause fails as well: with the observer on `(0, 0)`
facing down, the target on `(20, 99)`, one region id everywhere, range 100 and
slope 1, `eventInSight` returns true, although the floored Euclidean distance
is 101; the plugin computes the distance 100 there. -/
theorem eventInSight_sample_counterexample :
    eventInSight driftHost 1 1 2 7 (some 1) = true ∧
      fdiv 1 6 = 6004799503160661 / 2 ^ 55 ∧
      lookAt 2 (fdiv 1 6) 3 = 5629499534213119 / 2 ^ 51 ∧
      lookCell ⟨2, 0⟩ ⟨3, 6⟩ 3 = (2, 3) ∧
      lineCell ⟨2, 0⟩ ⟨3, 6⟩ 3 = (3, 3) ∧
      ¬ inSightAsSpecified driftHost (getDirection driftHost 1 1)
        (getXY driftHost 1 1) (getXY driftHost 2 1) 7 1 ∧
      eventInSight (pairHost ⟨0, 0, 2⟩ ⟨20, 99, 2⟩ (fun _ _ => 0)) 1 1 2 100 (some 1) = true ∧
      floorEuclidean (0 - 20) (0 - 99) = 101 ∧
      ¬ inSightAsSpecified (pairHost ⟨0, 0, 2⟩ ⟨20, 99, 2⟩ (fun _ _ => 0))
        (getDirection (pairHost ⟨0, 0, 2⟩ ⟨20, 99, 2⟩ (fun _ _ => 0)) 1 1)
        (getXY (pairHost ⟨0, 0, 2⟩ ⟨20, 99, 2⟩ (fun _ _ => 0)) 1 1)
        (getXY (pairHost ⟨0, 0, 2⟩ ⟨20, 99, 2⟩ (fun _ _ => 0)) 2 1) 100 1 := by
  refine ⟨by decide!, by decide!, by decide!, by decide!, by decide!, ?_, by decide!,
    by decide!, ?_⟩
  · intro hspec
    have h3 := hspec.2.2 3 (by decide!)
    revert h3
    decide!
  · intro hspec
    have h1 := hspec.1
    revert h1
    decide!

/-- C1 (amended): for an observer with facing 2, 4, 6 or 8 and a positive
slope, `eventInSight` returns true exactly when `eventDistance`, the distance
that the plugin computes, is at most the range, the cone test for the facing
holds with the binary64 product, and every cell tested by the loop has the
region id of the cell of the observer; the cell tested at step `i` is
`lookCell`, the rounding of the coordinates reached after `i` binary64
additions of `diff / steps`. -/
theorem eventInSight_recognized_facing (h : Host) (eventId event1_id event2_id : Int)
    (range slope : ℚ) (hslope : 0 < slope)
    (hdir : getDirection h event1_id eventId = 2 ∨ getDirection h event1_id eventId = 4 ∨
      getDirection h event1_id eventId = 6 ∨ getDirection h event1_id eventId = 8) :
    eventInSight h eventId event1_id event2_id range (some slope) = true ↔
      (eventDistance h eventId event1_id event2_id : ℚ) ≤ range ∧
      inViewCone (getDirection h event1_id eventId) (getXY h event1_id eventId)
        (getXY h event2_id eventId) slope ∧
      ∀ i : Nat, (i : Int) ≤ sightSteps (getXY h event1_id eventId) (getXY h event2_id eventId) →
        h.regionId (lookCell (getXY h event1_id eventId) (getXY h event2_id eventId) i).1
            (lookCell (getXY h event1_id eventId) (getXY h event2_id eventId) i).2 =
          h.regionId (getXY h event1_id eventId).X (getXY h event1_id eventId).Y := by
  have hs : slopeOrDefault (some slope) = slope := by
    simp [slopeOrDefault, ne_of_gt hslope]
  rw [eventInSight_eq_true_iff, hs]
  constructor
  · rintro ⟨h1, h2, h3⟩
    exact ⟨h1, h2 hdir, h3⟩
  · rintro ⟨h1, h2, h3⟩
    exact ⟨h1, fun _ => h2, h3⟩

/-- Witness for C1: the observer on `(5, 5)` facing down, the target on
`(5, 8)`, one region id everywhere, range 5 and slope 1. -/
theorem eventInSight_recognized_facing_witness :
    (0 : ℚ) < 1 ∧ getDirection (uniformHost 2) 1 1 = 2 ∧
      (eventInSight (uniformHost 2) 1 1 2 5 (some 1) = true ↔
        (eventDistance (uniformHost 2) 1 1 2 : ℚ) ≤ 5 ∧
        inViewCone (getDirection (uniformHost 2) 1 1) (getXY (uniformHost 2) 1 1)
          (getXY (uniformHost 2) 2 1) 1 ∧
        ∀ i : Nat, (i : Int) ≤ sightSteps (getXY (uniformHost 2) 1 1)
            (getXY (uniformHost 2) 2 1) →
          (uniformHost 2).regionId
              (lookCell (getXY (uniformHost 2) 1 1) (getXY (uniformHost 2) 2 1) i).1
              (lookCell (getXY (uniformHost 2) 1 1) (getXY (uniformHost 2) 2 1) i).2 =
            (uniformHost 2).regionId (getXY (uniformHost 2) 1 1).X
              (getXY (uniformHost 2) 1 1).Y) :=
  ⟨by norm_num, by decide,
    eventInSight_recognized_facing (uniformHost 2) 1 1 2 5 1 (by norm_num)
      (Or.inl (by decide))⟩

/-- C2, as stated, fails: an observer on `(5, 5)` whose facing is 3, a target
on `(5, 8)`, one region id everywhere, range 5 and slope 1 give true; so do an
observer of facing 3 on `(0, 0)`, a target on `(20, 99)` and range 100, where
the plugin computes the distance 100. -/
theorem eventInSight_unrecognized_facing_counterexample :
    getDirection (uniformHost 3) 1 1 = 3 ∧
      eventInSight (uniformHost 3) 1 1 2 5 (some 1) = true ∧
      getDirection (pairHost ⟨0, 0, 3⟩ ⟨20, 99, 2⟩ (fun _ _ => 0)) 1 1 = 3 ∧
      eventInSight (pairHost ⟨0, 0, 3⟩ ⟨20, 99, 2⟩ (fun _ _ => 0)) 1 1 2 100 none = true := by
  refine ⟨by decide, by decide!, by decide, by decide!⟩

/-- C2 (amended): for an observer whose facing is none of 2, 4, 6, 8 no cone
test is made: `eventInSight` returns true exactly when `eventDistance`, the
distance that the plugin computes, is at most the range and every cell tested
by the loop has the region id of the cell of the observer, for every slope
(given or omitted). -/
theorem eventInSight_unrecognized_facing (h : Host) (eventId event1_id event2_id : Int)
    (range : ℚ) (slope : Option ℚ)
    (hdir : ¬ (getDirection h event1_id eventId = 2 ∨ getDirection h event1_id eventId = 4 ∨
      getDirection h event1_id eventId = 6 ∨ getDirection h event1_id eventId = 8)) :
    eventInSight h eventId event1_id event2_id range slope = true ↔
      (eventDistance h eventId event1_id event2_id : ℚ) ≤ range ∧
      ∀ i : Nat, (i : Int) ≤ sightSteps (getXY h event1_id eventId) (getXY h event2_id eventId) →
        h.regionId (lookCell (getXY h event1_id eventId) (getXY h event2_id eventId) i).1
            (lookCell (getXY h event1_id eventId) (getXY h event2_id eventId) i).2 =
          h.regionId (getXY h event1_id eventId).X (getXY h event1_id eventId).Y := by
  rw [eventInSight_eq_true_iff]
  constructor
  · rintro ⟨h1, _, h3⟩
    exact ⟨h1, h3⟩
  · rintro ⟨h1, h3⟩
    exact ⟨h1, fun hd => absurd hd hdir, h3⟩

/-- Witness for C2: the observer of facing 3 on `(5, 5)`, the target on
`(5, 8)`, range 5, slope omitted. -/
theorem eventInSight_unrecognized_facing_witness :
    ¬ (getDirection (uniformHost 3) 1 1 = 2 ∨ getDirection (uniformHost 3) 1 1 = 4 ∨
        getDirection (uniformHost 3) 1 1 = 6 ∨ getDirection (uniformHost 3) 1 1 = 8) ∧
      (eventInSight (uniformHost 3) 1 1 2 5 none = true ↔
        (eventDistance (uniformHost 3) 1 1 2 : ℚ) ≤ 5 ∧
        ∀ i : Nat, (i : Int) ≤ sightSteps (getXY (uniformHost 3) 1 1)
            (getXY (uniformHost 3) 2 1) →
          (uniformHost 3).regionId
              (lookCell (getXY (uniformHost 3) 1 1) (getXY (uniformHost 3) 2 1) i).1
              (lookCell (getXY (uniformHost 3) 1 1) (getXY (uniformHost 3) 2 1) i).2 =
            (uniformHost 3).regionId (getXY (uniformHost 3) 1 1).X
              (getXY (uniformHost 3) 1 1).Y) :=
  ⟨by decide, eventInSight_unrecognized_facing (uniformHost 3) 1 1 2 5 none (by decide)⟩

end Kron

/-! ## Fast travel registry: seeding -/

namespace CGMZ

open CGMZ_Core

/-- C3: seeding twice with `reinitialize = false` gives the same registry as
seeding once, for every registry state (`undefined` included) and every
configuration: the point list after the second call is the list after the
first, so the count, the order and every field of every point (the discovered
flag among them) are unchanged. This holds for all configurations, in
particular for those with unique point names. -/
theorem initializeFastTravelData_idempotent (Points : List PointData)
    (s : Option (List CGMZ_FastTravelPoint)) :
    initializeFastTravelData Points false
        (some (initializeFastTravelData Points false s)) =
      initializeFastTravelData Points false s := by
  have h2 : ∀ acc : List CGMZ_FastTravelPoint,
      Points.foldl seedStep (Points.foldl seedStep acc) = Points.foldl seedStep acc := by
    intro acc
    conv_lhs => rw [foldl_seedStep]
    have hnil : (configuredPoints Points).filter
        (fun p => decide (p._name ∉ pointNames (Points.foldl seedStep acc))) = [] := by
      rw [List.filter_eq_nil_iff]
      intro p hp
      simpa using mem_pointNames_foldl_seedStep Points acc p hp
    rw [hnil]
    simp [keepFirstByName]
  unfold initializeFastTravelData
  simp only [Bool.false_eq_true, if_false]
  exact h2 _


/-- C4, as stated, fails: seeding the empty registry with a configuration that
lists the name `Town` twice stores one point, not the two configured points
whose name is absent from the registry. -/
theorem initializeFastTravelData_repeated_name_counterexample :
    initializeFastTravelData
        [⟨"Town", "true", "", "land", "", 1, 2, 3, 2, 0, 0, 0, "", ""⟩,
          ⟨"Town", "false", "", "sea", "", 4, 5, 6, 8, 0, 0, 0, "", ""⟩] false (some []) ≠
      [] ++ (configuredPoints
        [⟨"Town", "true", "", "land", "", 1, 2, 3, 2, 0, 0, 0, "", ""⟩,
          ⟨"Town", "false", "", "sea", "", 4, 5, 6, 8, 0, 0, 0, "", ""⟩]).filter
        (fun p => decide (p._name ∉ pointNames [])) := by
  decide

/-- C4 (amended): seeding an initialized registry `R` with `reinitialize = false`
yields `R` itself as a prefix (every point of `R` keeps its position and all
its fields, whatever the configuration holds under the same name, and none is
removed), followed by the configured points whose name is absent from `R`,
each such name taken once, at its first occurrence in the configuration, in
configuration order. For a configuration with unique names these are all the
configured points whose name is absent from `R`, and seeding the empty
registry gives the configured points in configuration order. -/
theorem initializeFastTravelData_merge (Points : List PointData)
    (R : List CGMZ_FastTravelPoint) :
    initializeFastTravelData Points false (some R) =
        R ++ keepFirstByName
          ((configuredPoints Points).filter (fun p => decide (p._name ∉ pointNames R))) ∧
      ((Points.map (fun d => d.Name)).Nodup →
        initializeFastTravelData Points false (some R) =
            R ++ (configuredPoints Points).filter (fun p => decide (p._name ∉ pointNames R)) ∧
          initializeFastTravelData Points false (some []) = configuredPoints Points) := by
  have hgen : ∀ R' : List CGMZ_FastTravelPoint,
      initializeFastTravelData Points false (some R') =
        R' ++ keepFirstByName
          ((configuredPoints Points).filter (fun p => decide (p._name ∉ pointNames R'))) := by
    intro R'
    unfold initializeFastTravelData
    simp only [Bool.false_eq_true, if_false]
    exact foldl_seedStep Points R'
  refine ⟨hgen R, fun hnd => ?_⟩
  have hnames : pointNames (configuredPoints Points) = Points.map (fun d => d.Name) := by
    simp [pointNames, configuredPoints, CGMZ_FastTravelPoint.initializePoint]
  have hnd2 : (pointNames (configuredPoints Points)).Nodup := hnames ▸ hnd
  have hsub : ∀ R' : List CGMZ_FastTravelPoint, (pointNames
      ((configuredPoints Points).filter (fun p => decide (p._name ∉ pointNames R')))).Nodup :=
    fun R' => List.Nodup.sublist ((List.filter_sublist _).map _) hnd2
  constructor
  · rw [hgen R, keepFirstByName_of_nodup _ (hsub R)]
  · rw [hgen [], keepFirstByName_of_nodup _ (hsub [])]
    simp [pointNames]

/-- Witness for C4: a registry holding a relocated, undiscovered `Town`, seeded
with a configuration of `Town` and `Cave`. -/
theorem initializeFastTravelData_merge_witness :
    (([⟨"Town", "true", "", "land", "", 1, 2, 3, 2, 0, 0, 0, "", ""⟩,
        ⟨"Cave", "false", "", "land", "", 4, 5, 6, 8, 10, 0, 0, "", ""⟩] :
        List PointData).map (fun d => d.Name)).Nodup ∧
      initializeFastTravelData
          [⟨"Town", "true", "", "land", "", 1, 2, 3, 2, 0, 0, 0, "", ""⟩,
            ⟨"Cave", "false", "", "land", "", 4, 5, 6, 8, 10, 0, 0, "", ""⟩] false
          (some [⟨"Town", false, "", "", 9, 9, 9, 4, "sea", 0, 0, 0, false, "", ""⟩]) =
        [⟨"Town", false, "", "", 9, 9, 9, 4, "sea", 0, 0, 0, false, "", ""⟩] ++
          (configuredPoints
            [⟨"Town", "true", "", "land", "", 1, 2, 3, 2, 0, 0, 0, "", ""⟩,
              ⟨"Cave", "false", "", "land", "", 4, 5, 6, 8, 10, 0, 0, "", ""⟩]).filter
            (fun p => decide (p._name ∉
              pointNames [⟨"Town", false, "", "", 9, 9, 9, 4, "sea", 0, 0, 0, false, "", ""⟩])) :=
  ⟨by decide,
    ((initializeFastTravelData_merge _ _).2 (by decide)).1⟩

end CGMZ
namespace CGMZ

open CGMZ_Core

/-- C5: seeding with `reinitialize = true` discards the registry it is given.
For every registry state `s` and every configuration the result is the
registry obtained by seeding the uninitialized registry with the same
configuration, namely the first configured point of every name. Every point
of the result carries the values of the first configuration entry of its
name: the discovered flag `Discovered === "true"`, the destination
`Map`, `X`, `Y`, `Direction`, the category, the description, the image, the
costs and the sounds; looking a configured name up gives the point with these values; and
every point of the result has the name of a configuration entry, so no stale
point and no runtime change of a flag, destination or category survives. The
last part is an example: a registry that holds a discovered, relocated and
recategorized `Cave` and a stale point `Old` is rebuilt to the configured
`Cave` alone. -/
theorem initializeFastTravelData_rebuild (Points : List PointData)
    (s : Option (List CGMZ_FastTravelPoint)) :
    initializeFastTravelData Points true s = initializeFastTravelData Points false none ∧
      initializeFastTravelData Points true s = keepFirstByName (configuredPoints Points) ∧
      (∀ p, p ∈ initializeFastTravelData Points true s ↔
        ∃ d, Points.find? (fun e => decide (e.Name = p._name)) = some d ∧
          p = CGMZ_FastTravelPoint.initializePoint d) ∧
      (∀ p ∈ initializeFastTravelData Points true s,
        ∃ d ∈ Points, Points.find? (fun e => decide (e.Name = p._name)) = some d ∧
          p._name = d.Name ∧ p._discovered = decide (d.Discovered = "true") ∧
          p._mapId = d.Map ∧ p._x = d.X ∧ p._y = d.Y ∧ p._dir = d.Direction ∧
          p._category = d.Category ∧ p._description = d.Description ∧ p._image = d.Image ∧
          p._goldCost = d.GoldCost ∧ p._itemCostAmount = d.ItemCostAmount ∧
          p._itemCostId = d.ItemCostItem ∧
          p._hasCosts = decide (d.GoldCost > 0 ∨ d.ItemCostAmount > 0) ∧
          p._travelSe = d.TravelSoundEffect ∧ p._toastSe = d.ToastSoundEffect) ∧
      (∀ d ∈ Points, ∃ p d1,
        getFastTravelPoint (initializeFastTravelData Points true s) d.Name = some p ∧
          Points.find? (fun e => decide (e.Name = d.Name)) = some d1 ∧
          p._name = d.Name ∧ p._discovered = decide (d1.Discovered = "true") ∧
          p._mapId = d1.Map ∧ p._x = d1.X ∧ p._y = d1.Y ∧ p._dir = d1.Direction ∧
          p._category = d1.Category) ∧
      (pointNames (initializeFastTravelData Points true s)).Nodup ∧
      initializeFastTravelData [caveData] true
          (some [{ cavePoint with
              _discovered := true, _mapId := 9, _x := 1, _y := 1, _category := "sea" },
            { cavePoint with _name := "Old" }]) = [cavePoint] := by
  have h0 : ∀ r, initializeFastTravelData Points r none = Points.foldl seedStep [] := by
    intro r; rfl
  have h1 : initializeFastTravelData Points true s = Points.foldl seedStep [] := by
    cases s <;> rfl
  have h2 : Points.foldl seedStep [] = keepFirstByName (configuredPoints Points) := by
    rw [foldl_seedStep]; simp [pointNames]
  have hmem : ∀ p, p ∈ keepFirstByName (configuredPoints Points) ↔
      ∃ d, Points.find? (fun e => decide (e.Name = p._name)) = some d ∧
        p = CGMZ_FastTravelPoint.initializePoint d := by
    intro p
    rw [mem_keepFirstByName_iff, configuredPoints, List.find?_map]
    simp only [Option.map_eq_some', Function.comp_def]
    constructor
    · rintro ⟨d, hd, rfl⟩
      exact ⟨d, hd, rfl⟩
    · rintro ⟨d, hd, rfl⟩
      exact ⟨d, hd, rfl⟩
  refine ⟨by rw [h1, h0], by rw [h1, h2], ?_, ?_, ?_, ?_, by decide⟩
  · rw [h1, h2]
    exact hmem
  · rw [h1, h2]
    intro p hp
    obtain ⟨d, hd, rfl⟩ := (hmem p).mp hp
    exact ⟨d, List.mem_of_find?_eq_some hd, hd, rfl, rfl, rfl, rfl, rfl, rfl, rfl, rfl, rfl, rfl,
      rfl, rfl, rfl, rfl, rfl⟩
  · rw [h1, h2]
    intro d hd
    have hsome : (Points.find? (fun e => decide (e.Name = d.Name))).isSome = true := by
      rw [List.find?_isSome]
      exact ⟨d, hd, by simp⟩
    obtain ⟨d1, hd1⟩ := Option.isSome_iff_exists.mp hsome
    have hname : d1.Name = d.Name := by
      have := List.find?_some hd1
      simpa using this
    refine ⟨CGMZ_FastTravelPoint.initializePoint d1, d1, ?_, hd1, hname, rfl, rfl, rfl, rfl,
      rfl, rfl⟩
    rw [getFastTravelPoint_keepFirstByName]
    unfold getFastTravelPoint configuredPoints
    rw [List.find?_map]
    simp only [Function.comp_def, CGMZ_FastTravelPoint.initializePoint]
    rw [hd1]
    rfl
  · rw [h1, h2]
    exact nodup_pointNames_keepFirstByName _


/-- C6: starting from the uninitialized registry, after any sequence of seeding
(any configuration, either value of `reinitialize`), discover, change map and
change category commands, the names of the points held by the registry are
pairwise distinct; and whenever the registry is rebuilt from a configuration
(seeding the uninitialized registry, or seeding with `reinitialize = true`),
the point stored under a name is the one built from the first configuration
entry of that name, later entries of the same name being dropped. -/
theorem registry_names_nodup (o : ToastOptions) (cmds : List Command)
    (Points : List PointData) (s : Option (List CGMZ_FastTravelPoint)) (r : Bool)
    (n : String) :
    (registryNames (runCommands o cmds none)).Nodup ∧
      getFastTravelPoint (initializeFastTravelData Points r none) n =
        (Points.find? (fun e => decide (e.Name = n))).map
          CGMZ_FastTravelPoint.initializePoint ∧
      getFastTravelPoint (initializeFastTravelData Points true s) n =
        (Points.find? (fun e => decide (e.Name = n))).map
          CGMZ_FastTravelPoint.initializePoint := by
  have hk : getFastTravelPoint (keepFirstByName (configuredPoints Points)) n =
      (Points.find? (fun e => decide (e.Name = n))).map
        CGMZ_FastTravelPoint.initializePoint := by
    rw [getFastTravelPoint_keepFirstByName, getFastTravelPoint, configuredPoints,
      List.find?_map]
    rfl
  have h2 : Points.foldl seedStep [] = keepFirstByName (configuredPoints Points) := by
    rw [foldl_seedStep]; simp [pointNames]
  refine ⟨nodup_registryNames_runCommands o cmds none (by simp [registryNames]), ?_, ?_⟩
  · have : initializeFastTravelData Points r none = Points.foldl seedStep [] := rfl
    rw [this, h2, hk]
  · have : initializeFastTravelData Points true s = Points.foldl seedStep [] := by
      cases s <;> rfl
    rw [this, h2, hk]

end CGMZ

/-! ## Fast travel registry: queries -/

namespace CGMZ

open CGMZ_Core

/-- C7: `getFastTravelPoint` is total (a miss is `none`, not an error); it
returns a point exactly when the registry holds a point of that name, the
point returned is the first point of the registry with that name, and it
returns `none` exactly when no point has the name. -/
theorem getFastTravelPoint_spec (l : List CGMZ_FastTravelPoint) (n : String) :
    ((∃ p, getFastTravelPoint l n = some p) ↔ ∃ q ∈ l, q._name = n) ∧
      (∀ p, getFastTravelPoint l n = some p ↔
        ∃ l1 l2, l = l1 ++ p :: l2 ∧ p._name = n ∧ ∀ q ∈ l1, q._name ≠ n) ∧
      (getFastTravelPoint l n = none ↔ ∀ q ∈ l, q._name ≠ n) := by
  refine ⟨getFastTravelPoint_isSome_iff l n, getFastTravelPoint_eq_some_iff l n, ?_⟩
  unfold getFastTravelPoint
  simp


/-- C8: `getAllDiscoveredFastTravelPoints` is the sublist, in registry order,
of the points whose `_discovered` flag is set; for the category `all` the
category query returns that same list, whatever the categories of the points;
for any other category `c` it returns the sublist of the points that are
discovered and whose category is `c`. -/
theorem discovered_lists_spec (l : List CGMZ_FastTravelPoint) (c : String)
    (hc : c ≠ "all") :
    getAllDiscoveredFastTravelPoints l = l.filter (fun p => p._discovered) ∧
      (getAllDiscoveredFastTravelPoints l).Sublist l ∧
      (∀ p, p ∈ getAllDiscoveredFastTravelPoints l ↔ p ∈ l ∧ p._discovered = true) ∧
      getAllDiscoveredFastTravelPointsFromCategory l "all" =
        getAllDiscoveredFastTravelPoints l ∧
      getAllDiscoveredFastTravelPointsFromCategory l c =
        l.filter (fun p => p._discovered && decide (p._category = c)) ∧
      (getAllDiscoveredFastTravelPointsFromCategory l c).Sublist l ∧
      (∀ p, p ∈ getAllDiscoveredFastTravelPointsFromCategory l c ↔
        p ∈ l ∧ p._discovered = true ∧ p._category = c) := by
  refine ⟨rfl, List.filter_sublist _, fun p => by simp [getAllDiscoveredFastTravelPoints],
    by simp [getAllDiscoveredFastTravelPointsFromCategory], ?_, ?_, ?_⟩
  · simp only [getAllDiscoveredFastTravelPointsFromCategory, hc, if_false]
    apply List.filter_congr
    intro x _
    exact Bool.and_comm _ _
  · simp only [getAllDiscoveredFastTravelPointsFromCategory, hc, if_false]
    exact List.filter_sublist _
  · intro p
    simp only [getAllDiscoveredFastTravelPointsFromCategory, hc, if_false, List.mem_filter,
      Bool.and_eq_true, decide_eq_true_eq]
    tauto

/-- Witness for C8: a registry with a discovered point of category `sea`, a
discovered point of category `land` and an undiscovered point of category `sea`. -/
theorem discovered_lists_spec_witness :
    "sea" ≠ "all" ∧
      getAllDiscoveredFastTravelPointsFromCategory
          [⟨"Town", true, "", "", 1, 2, 3, 2, "land", 0, 0, 0, false, "", ""⟩,
            ⟨"Port", true, "", "", 1, 2, 3, 2, "sea", 0, 0, 0, false, "", ""⟩,
            ⟨"Reef", false, "", "", 1, 2, 3, 2, "sea", 0, 0, 0, false, "", ""⟩] "sea" =
        ([⟨"Town", true, "", "", 1, 2, 3, 2, "land", 0, 0, 0, false, "", ""⟩,
            ⟨"Port", true, "", "", 1, 2, 3, 2, "sea", 0, 0, 0, false, "", ""⟩,
            ⟨"Reef", false, "", "", 1, 2, 3, 2, "sea", 0, 0, 0, false, "", ""⟩] :
          List CGMZ_FastTravelPoint).filter
          (fun p => p._discovered && decide (p._category = "sea")) :=
  ⟨by decide, (discovered_lists_spec _ "sea" (by decide)).2.2.2.2.1⟩


/-- C9: `getFastTravelPointCategories` holds no category twice, holds a
category exactly when some discovered point of the registry has it (a category
that only undiscovered points have is absent), and lists the categories in the
order in which their first discovered point occurs in the registry: of two
categories of the result, the earlier one is the one whose first occurrence
among the categories of the discovered points comes first. -/
theorem getFastTravelPointCategories_spec (l : List CGMZ_FastTravelPoint) :
    (getFastTravelPointCategories l).Nodup ∧
      (∀ c, c ∈ getFastTravelPointCategories l ↔
        ∃ p ∈ l, p._discovered = true ∧ p._category = c) ∧
      (getFastTravelPointCategories l).Pairwise (fun a b =>
        (discoveredCategories l).indexOf a < (discoveredCategories l).indexOf b) := by
  have h : getFastTravelPointCategories l = firstOccurrences (discoveredCategories l) := by
    unfold getFastTravelPointCategories
    rw [foldl_categoryStep]
    simp
  rw [h]
  refine ⟨nodup_firstOccurrences _, fun c => ?_, pairwise_indexOf_firstOccurrences _⟩
  rw [mem_firstOccurrences]
  simp [discoveredCategories, and_assoc]

end CGMZ

/-! ## Fast travel registry: commands -/

namespace CGMZ

open CGMZ_Core

/-- C10: on a registry that holds a point named `n`, `discoverFastTravelPoint`
rewrites the first point `p` of that name to `p` with `_discovered` set to the
flag given and leaves every other slot and every other field untouched;
afterwards `getFastTravelPoint n` returns that rewritten point, and the point
is in the list of discovered points and in the list for the category `all`
exactly when the flag given is `true` (so it is in both after discovering and
in neither after undiscovering). -/
theorem discoverFastTravelPoint_spec (o : ToastOptions) (l : List CGMZ_FastTravelPoint)
    (n : String) (d : Bool) (h : ∃ q ∈ l, q._name = n) :
    ∃ l1 p l2, l = l1 ++ p :: l2 ∧ p._name = n ∧ (∀ q ∈ l1, q._name ≠ n) ∧
      (discoverFastTravelPoint o l n d).1 = l1 ++ { p with _discovered := d } :: l2 ∧
      getFastTravelPoint (discoverFastTravelPoint o l n d).1 n =
        some { p with _discovered := d } ∧
      (({ p with _discovered := d } : CGMZ_FastTravelPoint) ∈
          getAllDiscoveredFastTravelPoints (discoverFastTravelPoint o l n d).1 ↔ d = true) ∧
      (({ p with _discovered := d } : CGMZ_FastTravelPoint) ∈
          getAllDiscoveredFastTravelPointsFromCategory
            (discoverFastTravelPoint o l n d).1 "all" ↔ d = true) := by
  obtain ⟨p, hp⟩ := (getFastTravelPoint_isSome_iff l n).mpr h
  obtain ⟨l1, l2, hl, hpn, hl1⟩ := (getFastTravelPoint_eq_some_iff l n p).mp hp
  have hres : (discoverFastTravelPoint o l n d).1 = l1 ++ { p with _discovered := d } :: l2 := by
    simp only [discoverFastTravelPoint, hp, CGMZ_FastTravelPoint.discover]
    rw [hl]
    exact storePoint_append n _ p l1 l2 hpn hl1
  have hfind : getFastTravelPoint (l1 ++ { p with _discovered := d } :: l2) n =
      some { p with _discovered := d } :=
    (getFastTravelPoint_eq_some_iff _ n _).mpr ⟨l1, l2, rfl, hpn, hl1⟩
  refine ⟨l1, p, l2, hl, hpn, hl1, hres, by rw [hres]; exact hfind, ?_, ?_⟩
  · rw [hres]
    simp [getAllDiscoveredFastTravelPoints]
  · rw [hres]
    simp [getAllDiscoveredFastTravelPointsFromCategory, getAllDiscoveredFastTravelPoints]

/-- Witness for C10: discovering `Cave` in a registry of two points. -/
theorem discoverFastTravelPoint_spec_witness :
    (∃ q ∈ ([⟨"Town", true, "", "", 1, 2, 3, 2, "land", 0, 0, 0, false, "", ""⟩,
        ⟨"Cave", false, "", "", 4, 5, 6, 8, "land", 10, 0, 0, true, "", ""⟩] :
        List CGMZ_FastTravelPoint), q._name = "Cave") ∧
      ∃ l1 p l2,
        ([⟨"Town", true, "", "", 1, 2, 3, 2, "land", 0, 0, 0, false, "", ""⟩,
          ⟨"Cave", false, "", "", 4, 5, 6, 8, "land", 10, 0, 0, true, "", ""⟩] :
          List CGMZ_FastTravelPoint) = l1 ++ p :: l2 ∧ p._name = "Cave" ∧
        (discoverFastTravelPoint ⟨true, true⟩
          [⟨"Town", true, "", "", 1, 2, 3, 2, "land", 0, 0, 0, false, "", ""⟩,
            ⟨"Cave", false, "", "", 4, 5, 6, 8, "land", 10, 0, 0, true, "", ""⟩]
          "Cave" true).1 = l1 ++ { p with _discovered := true } :: l2 := by
  have hex : ∃ q ∈ ([⟨"Town", true, "", "", 1, 2, 3, 2, "land", 0, 0, 0, false, "", ""⟩,
      ⟨"Cave", false, "", "", 4, 5, 6, 8, "land", 10, 0, 0, true, "", ""⟩] :
      List CGMZ_FastTravelPoint), q._name = "Cave" :=
    ⟨⟨"Cave", false, "", "", 4, 5, 6, 8, "land", 10, 0, 0, true, "", ""⟩, by decide, rfl⟩
  obtain ⟨l1, p, l2, h1, h2, _, h4, _⟩ :=
    discoverFastTravelPoint_spec ⟨true, true⟩ _ "Cave" true hex
  exact ⟨hex, l1, p, l2, h1, h2, h4⟩


/-- C11, as stated, fails: with the toast manager installed and the option
enabled, discovering the point `Town` of a registry in which it is already
discovered creates a toast, although the point makes no transition from
undiscovered to discovered. -/
theorem discover_toast_already_discovered_counterexample :
    getFastTravelPoint
        [⟨"Town", true, "", "", 1, 2, 3, 2, "land", 0, 0, 0, false, "", "Chime"⟩] "Town" =
      some ⟨"Town", true, "", "", 1, 2, 3, 2, "land", 0, 0, 0, false, "", "Chime"⟩ ∧
      (discoverFastTravelPoint ⟨true, true⟩
        [⟨"Town", true, "", "", 1, 2, 3, 2, "land", 0, 0, 0, false, "", "Chime"⟩]
        "Town" true).2 =
        [⟨true, "Town", some ⟨"Chime", 0, 100, 100⟩⟩] := by
  decide

/-- C11 (amended): `discoverFastTravelPoint` on a registry whose first point
named `n` is `p` creates exactly one toast, carrying the name of `p` and, when
`_toastSe` is not the empty string, the sound effect of that name, exactly
when the flag given is `true`, the toast manager is installed and the option
`ShowDiscoverToast` is set, whether or not `p` was discovered before the call;
in every other case it creates no toast. -/
theorem discoverFastTravelPoint_toasts (o : ToastOptions) (l : List CGMZ_FastTravelPoint)
    (n : String) (flag : Bool) (p : CGMZ_FastTravelPoint)
    (hp : getFastTravelPoint l n = some p) :
    (discoverFastTravelPoint o l n flag).2 =
        (if flag = true ∧ o.CGMZ_ToastManager = true ∧ o.ShowDiscoverToast = true then
          [⟨true, p._name, if p._toastSe ≠ "" then some ⟨p._toastSe, 0, 100, 100⟩ else none⟩]
        else []) ∧
      p._name = n ∧
      (flag = false → (discoverFastTravelPoint o l n flag).2 = []) ∧
      ((o.CGMZ_ToastManager = false ∨ o.ShowDiscoverToast = false) →
        (discoverFastTravelPoint o l n flag).2 = []) := by
  have h1 : (discoverFastTravelPoint o l n flag).2 =
      (if flag = true ∧ o.CGMZ_ToastManager = true ∧ o.ShowDiscoverToast = true then
        [⟨true, p._name, if p._toastSe ≠ "" then some ⟨p._toastSe, 0, 100, 100⟩ else none⟩]
      else []) := by
    simp only [discoverFastTravelPoint, hp, CGMZ_FastTravelPoint.discover,
      CGMZ_FastTravelPoint.setupDiscoverToast]
  refine ⟨h1, getFastTravelPoint_name hp, ?_, ?_⟩
  · intro hf
    rw [h1]
    simp [hf]
  · intro ho
    rw [h1]
    rcases ho with ho | ho <;> simp [ho]

/-- Witness for C11: discovering the undiscovered `Cave`, whose toast sound is
`Chime`, with toasts enabled. -/
theorem discoverFastTravelPoint_toasts_witness :
    getFastTravelPoint [cavePoint] "Cave" = some cavePoint ∧
      (discoverFastTravelPoint ⟨true, true⟩ [cavePoint] "Cave" true).2 =
        [⟨true, "Cave", some ⟨"Chime", 0, 100, 100⟩⟩] :=
  ⟨by decide,
    (discoverFastTravelPoint_toasts ⟨true, true⟩ [cavePoint] "Cave" true cavePoint
      (by decide)).1.trans (by decide)⟩


/-- C12: on a registry that holds a point named `n`, `changeFastTravelPointMap`
rewrites the first point `p` of that name to `p` with `_mapId`, `_x`, `_y` and
`_dir` set to the values given, whatever these values are, and leaves every
other field of `p`, every other slot, the order and the number of points
untouched; afterwards `getFastTravelPoint n` returns the rewritten point. -/
theorem changeFastTravelPointMap_spec (l : List CGMZ_FastTravelPoint) (n : String)
    (mapId x y dir : Int) (h : ∃ q ∈ l, q._name = n) :
    ∃ l1 p l2, l = l1 ++ p :: l2 ∧ p._name = n ∧ (∀ q ∈ l1, q._name ≠ n) ∧
      changeFastTravelPointMap l n mapId x y dir =
        l1 ++ { p with _mapId := mapId, _x := x, _y := y, _dir := dir } :: l2 ∧
      getFastTravelPoint (changeFastTravelPointMap l n mapId x y dir) n =
        some { p with _mapId := mapId, _x := x, _y := y, _dir := dir } ∧
      (changeFastTravelPointMap l n mapId x y dir).length = l.length := by
  obtain ⟨p, hp⟩ := (getFastTravelPoint_isSome_iff l n).mpr h
  obtain ⟨l1, l2, hl, hpn, hl1⟩ := (getFastTravelPoint_eq_some_iff l n p).mp hp
  have hres : changeFastTravelPointMap l n mapId x y dir =
      l1 ++ { p with _mapId := mapId, _x := x, _y := y, _dir := dir } :: l2 := by
    simp only [changeFastTravelPointMap, hp]
    rw [hl]
    exact storePoint_append n _ p l1 l2 hpn hl1
  refine ⟨l1, p, l2, hl, hpn, hl1, hres, ?_, ?_⟩
  · rw [hres]
    exact (getFastTravelPoint_eq_some_iff _ n _).mpr ⟨l1, l2, rfl, hpn, hl1⟩
  · rw [hres, hl]
    simp

/-- Witness for C12: moving `Cave` to map 9, cell (-1, 300), facing 0. -/
theorem changeFastTravelPointMap_spec_witness :
    (∃ q ∈ [cavePoint], q._name = "Cave") ∧
      ∃ l1 p l2, [cavePoint] = l1 ++ p :: l2 ∧ p._name = "Cave" ∧
        changeFastTravelPointMap [cavePoint] "Cave" 9 (-1) 300 0 =
          l1 ++ { p with _mapId := 9, _x := -1, _y := 300, _dir := 0 } :: l2 ∧
        getFastTravelPoint (changeFastTravelPointMap [cavePoint] "Cave" 9 (-1) 300 0) "Cave" =
          some { p with _mapId := 9, _x := -1, _y := 300, _dir := 0 } := by
  have hex : ∃ q ∈ [cavePoint], q._name = "Cave" := ⟨cavePoint, by simp, by decide⟩
  obtain ⟨l1, p, l2, h1, h2, _, h4, h5, _⟩ :=
    changeFastTravelPointMap_spec [cavePoint] "Cave" 9 (-1) 300 0 hex
  exact ⟨hex, l1, p, l2, h1, h2, h4, h5⟩


/-- C13: on a registry that holds a point named `n`,
`changeFastTravelPointCategory` rewrites the first point `p` of that name to
`p` with `_category` set to `c` and leaves every other field of `p`, every
other slot and the order untouched; afterwards `getFastTravelPoint n` returns
the rewritten point, which, when it is discovered, is in the list for the
category `c` and in the list of no category other than `c` and `all`. -/
theorem changeFastTravelPointCategory_spec (l : List CGMZ_FastTravelPoint) (n c : String)
    (h : ∃ q ∈ l, q._name = n) :
    ∃ l1 p l2, l = l1 ++ p :: l2 ∧ p._name = n ∧ (∀ q ∈ l1, q._name ≠ n) ∧
      changeFastTravelPointCategory l n c = l1 ++ { p with _category := c } :: l2 ∧
      getFastTravelPoint (changeFastTravelPointCategory l n c) n =
        some { p with _category := c } ∧
      (p._discovered = true →
        ({ p with _category := c } : CGMZ_FastTravelPoint) ∈
          getAllDiscoveredFastTravelPointsFromCategory
            (changeFastTravelPointCategory l n c) c) ∧
      (∀ c', c' ≠ c → c' ≠ "all" →
        ({ p with _category := c } : CGMZ_FastTravelPoint) ∉
          getAllDiscoveredFastTravelPointsFromCategory
            (changeFastTravelPointCategory l n c) c') := by
  obtain ⟨p, hp⟩ := (getFastTravelPoint_isSome_iff l n).mpr h
  obtain ⟨l1, l2, hl, hpn, hl1⟩ := (getFastTravelPoint_eq_some_iff l n p).mp hp
  have hres : changeFastTravelPointCategory l n c = l1 ++ { p with _category := c } :: l2 := by
    simp only [changeFastTravelPointCategory, hp]
    rw [hl]
    exact storePoint_append n _ p l1 l2 hpn hl1
  refine ⟨l1, p, l2, hl, hpn, hl1, hres, ?_, ?_, ?_⟩
  · rw [hres]
    exact (getFastTravelPoint_eq_some_iff _ n _).mpr ⟨l1, l2, rfl, hpn, hl1⟩
  · intro hd
    rw [hres]
    by_cases hc : c = "all"
    · simp [getAllDiscoveredFastTravelPointsFromCategory, getAllDiscoveredFastTravelPoints,
        hc, hd]
    · simp [getAllDiscoveredFastTravelPointsFromCategory, hc, hd]
  · intro c' hc' hall
    rw [hres]
    simp only [getAllDiscoveredFastTravelPointsFromCategory, hall, if_false, List.mem_filter,
      Bool.and_eq_true, decide_eq_true_eq, not_and]
    intro _ hcat
    exact absurd hcat.symm hc'

/-- Witness for C13: moving the discovered `Cave` to the category `sea`. -/
theorem changeFastTravelPointCategory_spec_witness :
    (∃ q ∈ [{ cavePoint with _discovered := true }], q._name = "Cave") ∧
      ∃ l1 p l2, [{ cavePoint with _discovered := true }] = l1 ++ p :: l2 ∧
        p._name = "Cave" ∧
        changeFastTravelPointCategory [{ cavePoint with _discovered := true }] "Cave" "sea" =
          l1 ++ { p with _category := "sea" } :: l2 ∧
        getFastTravelPoint
            (changeFastTravelPointCategory [{ cavePoint with _discovered := true }]
              "Cave" "sea") "Cave" =
          some { p with _category := "sea" } := by
  have hex : ∃ q ∈ [{ cavePoint with _discovered := true }], q._name = "Cave" :=
    ⟨{ cavePoint with _discovered := true }, by simp, by decide⟩
  obtain ⟨l1, p, l2, h1, h2, _, h4, h5, _⟩ :=
    changeFastTravelPointCategory_spec [{ cavePoint with _discovered := true }] "Cave" "sea" hex
  exact ⟨hex, l1, p, l2, h1, h2, h4, h5⟩


/-- C14: for a name that no point of the registry has, the three commands are
total and change nothing: `discoverFastTravelPoint` returns the registry as it
was and creates no toast, `changeFastTravelPointMap` and
`changeFastTravelPointCategory` return the registry as it was. -/
theorem commands_unknown_name (o : ToastOptions) (l : List CGMZ_FastTravelPoint)
    (n : String) (flag : Bool) (mapId x y dir : Int) (c : String)
    (h : ∀ q ∈ l, q._name ≠ n) :
    discoverFastTravelPoint o l n flag = (l, []) ∧
      changeFastTravelPointMap l n mapId x y dir = l ∧
      changeFastTravelPointCategory l n c = l := by
  have hnone : getFastTravelPoint l n = none := by
    unfold getFastTravelPoint
    simpa using h
  simp [discoverFastTravelPoint, changeFastTravelPointMap, changeFastTravelPointCategory,
    hnone]

/-- Witness for C14: the three commands for the name `Port` on a registry that
holds only `Cave`. -/
theorem commands_unknown_name_witness :
    (∀ q ∈ [cavePoint], q._name ≠ "Port") ∧
      discoverFastTravelPoint ⟨true, true⟩ [cavePoint] "Port" true = ([cavePoint], []) ∧
      changeFastTravelPointMap [cavePoint] "Port" 1 2 3 4 = [cavePoint] ∧
      changeFastTravelPointCategory [cavePoint] "Port" "sea" = [cavePoint] :=
  ⟨by decide,
    commands_unknown_name ⟨true, true⟩ [cavePoint] "Port" true 1 2 3 4 "sea" (by decide)⟩

end CGMZ

/-! ## Costs and travel -/

namespace CGMZ

open CGMZ_Core CGMZ_Window_FastTravelList CGMZ_Scene_FastTravel

/-- C15: for a point whose `_hasCosts` is the value computed by `setupCosts`
and whose item cost amount is not negative, `meetsCosts` is the affordability
predicate of the specification, for every currency balance and every item
balance function; `isEnabled` of a selected point is that predicate, and
`isEnabled` without a point is false. -/
theorem meetsCosts_eq_affordable (p : CGMZ_FastTravelPoint) (gold : Int)
    (numItems : Int → Int) (hsetup : CostsSetUp p) (hitem : 0 ≤ p._itemCostAmount) :
    meetsCosts gold numItems p = affordable p gold numItems ∧
      isEnabled gold numItems (some p) = affordable p gold numItems ∧
      isEnabled gold numItems none = false ∧
      ∀ q : Option CGMZ_FastTravelPoint, q = some p ∨ q = none →
        (isEnabled gold numItems q = true ↔
          ∃ p', q = some p' ∧ affordable p' gold numItems = true) := by
  have hmain : meetsCosts gold numItems p = affordable p gold numItems := by
    unfold CostsSetUp at hsetup
    simp only [meetsCosts, affordable, CGMZ_FastTravelPoint.hasCosts, hsetup]
    by_cases hc : p._goldCost > 0 ∨ p._itemCostAmount > 0
    · by_cases hg : p._goldCost > gold
      · have hg2 : ¬ gold ≥ p._goldCost := by omega
        simp [hc, hg, hg2]
      · have hg2 : gold ≥ p._goldCost := by omega
        by_cases hi : p._itemCostAmount > 0
        · have hi0 : ¬ p._itemCostAmount = 0 := by omega
          simp [hc, hg, hg2, hi, hi0]
        · have hi0 : p._itemCostAmount = 0 := by omega
          simp [hc, hg, hg2, hi, hi0]
    · simp [hc]
  refine ⟨hmain, hmain, rfl, ?_⟩
  rintro q (rfl | rfl)
  · simp [isEnabled, hmain]
  · simp [isEnabled]

/-- Witness for C15: the point `Cave` (10 currency, 2 of item 7) with a balance
of 15 and 3 of every item. -/
theorem meetsCosts_eq_affordable_witness :
    CostsSetUp cavePoint ∧ 0 ≤ cavePoint._itemCostAmount ∧
      meetsCosts 15 (fun _ => 3) cavePoint = affordable cavePoint 15 (fun _ => 3) :=
  ⟨rfl, by decide,
    (meetsCosts_eq_affordable cavePoint 15 (fun _ => 3) rfl (by decide)).1⟩

/-- C16: `meetsCosts` is monotonic in the ledger: if a point meets its costs
with currency balance `g` and item balances `f`, it meets them with every
balance `g'` at least `g` and all item balances `f'` pointwise at least `f`. -/
theorem meetsCosts_mono (p : CGMZ_FastTravelPoint) (g g' : Int) (f f' : Int → Int)
    (hg : g ≤ g') (hf : ∀ id, f id ≤ f' id) (h : meetsCosts g f p = true) :
    meetsCosts g' f' p = true := by
  unfold meetsCosts at h ⊢
  by_cases hc : p.hasCosts = true
  · simp only [hc, if_true] at h ⊢
    by_cases h1 : p._goldCost > g
    · simp [h1] at h
    · have h1' : ¬ p._goldCost > g' := by omega
      simp only [h1, h1', if_false] at h ⊢
      by_cases h2 : p._itemCostAmount > 0
      · simp only [h2, if_true, decide_eq_true_eq] at h ⊢
        have := hf p._itemCostId
        omega
      · simp [h2]
  · simp [hc]

/-- Witness for C16: `Cave` is affordable with 10 currency and 2 of item 7, so
it is with 15 currency and 3 of every item. -/
theorem meetsCosts_mono_witness :
    (10 : Int) ≤ 15 ∧ (∀ id : Int, (fun j : Int => if j = 7 then (2 : Int) else 0) id ≤
        (fun _ : Int => (3 : Int)) id) ∧
      meetsCosts 10 (fun j => if j = 7 then 2 else 0) cavePoint = true ∧
      meetsCosts 15 (fun _ => 3) cavePoint = true := by
  have hf : ∀ id : Int, (fun j : Int => if j = 7 then (2 : Int) else 0) id ≤
      (fun _ : Int => (3 : Int)) id := by
    intro id
    by_cases h : id = 7 <;> simp [h]
  exact ⟨by decide, hf, by decide,
    meetsCosts_mono cavePoint 10 15 _ _ (by decide) hf (by decide)⟩


/-- C17: for a point with costs that are not negative and a valid ledger in
which the point meets its costs, `takeCosts` asks the host to lose the currency
first and the item second, and on the ledger neither deduction is clamped: the
currency balance becomes the balance minus the currency cost, the quantity of
the cost item becomes the quantity minus the item amount, both not negative,
and the quantity of every other item is unchanged. -/
theorem takeCosts_exact (p : CGMZ_FastTravelPoint) (L : Ledger) (hsetup : CostsSetUp p)
    (hgold : 0 ≤ p._goldCost) (hitem : 0 ≤ p._itemCostAmount) (hvalid : L.Valid)
    (haff : meetsCosts L.gold L.items p = true) :
    p.takeCosts =
        [HostCall.loseGold p._goldCost,
          HostCall.loseItem p._itemCostId p._itemCostAmount false] ∧
      L.run p.takeCosts = (L.loseGold p._goldCost).loseItem p._itemCostId p._itemCostAmount ∧
      (L.run p.takeCosts).gold = L.gold - p._goldCost ∧
      0 ≤ L.gold - p._goldCost ∧
      (L.run p.takeCosts).items p._itemCostId =
        L.items p._itemCostId - p._itemCostAmount ∧
      0 ≤ L.items p._itemCostId - p._itemCostAmount ∧
      ∀ j, j ≠ p._itemCostId → (L.run p.takeCosts).items j = L.items j := by
  obtain ⟨hg0, hgmax, hitems⟩ := hvalid
  obtain ⟨hi0, himax⟩ := hitems p._itemCostId
  have hcosts : p._goldCost ≤ L.gold ∧ p._itemCostAmount ≤ L.items p._itemCostId := by
    unfold CostsSetUp at hsetup
    simp only [meetsCosts, CGMZ_FastTravelPoint.hasCosts, hsetup] at haff
    by_cases hc : p._goldCost > 0 ∨ p._itemCostAmount > 0
    · simp only [hc, decide_True, if_true] at haff
      by_cases h1 : p._goldCost > L.gold
      · simp [h1] at haff
      · simp only [h1, if_false] at haff
        by_cases h2 : p._itemCostAmount > 0
        · simp only [h2, if_true, decide_eq_true_eq] at haff
          exact ⟨by omega, by omega⟩
        · exact ⟨by omega, by omega⟩
    · push_neg at hc
      exact ⟨by omega, by omega⟩
  have hrun : L.run p.takeCosts =
      (L.loseGold p._goldCost).loseItem p._itemCostId p._itemCostAmount := rfl
  have hclampG : clampBalance (L.gold - p._goldCost) L.maxGold = L.gold - p._goldCost := by
    unfold clampBalance
    rw [min_eq_left (by omega), max_eq_right (by omega)]
  have hclampI : clampBalance (L.items p._itemCostId - p._itemCostAmount) L.maxItems =
      L.items p._itemCostId - p._itemCostAmount := by
    unfold clampBalance
    rw [min_eq_left (by omega), max_eq_right (by omega)]
  refine ⟨rfl, hrun, ?_, by omega, ?_, by omega, ?_⟩
  · rw [hrun]
    simp only [Ledger.loseItem, Ledger.loseGold]
    exact hclampG
  · rw [hrun]
    simp only [Ledger.loseItem, Ledger.loseGold, if_true]
    exact hclampI
  · intro j hj
    rw [hrun]
    simp only [Ledger.loseItem, Ledger.loseGold, hj, if_false]

/-- Witness for C17: `Cave` (10 currency, 2 of item 7) paid from the ledger
`purse` (15 currency, 3 of every item). -/
theorem takeCosts_exact_witness :
    CostsSetUp cavePoint ∧ 0 ≤ cavePoint._goldCost ∧ 0 ≤ cavePoint._itemCostAmount ∧
      purse.Valid ∧ meetsCosts purse.gold purse.items cavePoint = true ∧
      (purse.run cavePoint.takeCosts).gold = 15 - 10 ∧
      (purse.run cavePoint.takeCosts).items 7 = 3 - 2 := by
  have hv : purse.Valid :=
    ⟨by decide, by decide, fun _ => ⟨by simp [purse], by simp [purse]⟩⟩
  have h := takeCosts_exact cavePoint purse rfl (by decide) (by decide) hv (by decide)
  exact ⟨rfl, by decide, by decide, hv, by decide, h.2.2.1, h.2.2.2.2.1⟩


/-- C18: `onListOk` takes no ledger and makes no affordability test: for every
selected point it plays the travel sound exactly when `_travelSe` is not
empty, then takes the costs (currency, then item), then reserves the transfer
to the stored `_mapId`, `_x`, `_y`, `_dir` and goes to the map scene; on every
ledger, whether `meetsCosts` holds or not, its effect is the one of
`takeCosts`; and the point found under the name `n` after
`changeFastTravelPointMap l n m x y d` is transferred to `(m, x, y, d)`. -/
theorem onListOk_spec (fastTravel : CGMZ_FastTravelPoint) (L : Ledger)
    (l : List CGMZ_FastTravelPoint) (n : String) (m x y d : Int)
    (h : ∃ q ∈ l, q._name = n) :
    onListOk fastTravel =
        (if fastTravel._travelSe ≠ "" then
            [HostCall.playSe ⟨fastTravel._travelSe, 0, 100, 100⟩]
          else []) ++
          [HostCall.loseGold fastTravel._goldCost,
            HostCall.loseItem fastTravel._itemCostId fastTravel._itemCostAmount false,
            HostCall.reserveTransfer fastTravel._mapId fastTravel._x fastTravel._y
              fastTravel._dir 0,
            HostCall.gotoSceneMap] ∧
      (∀ se, HostCall.playSe se ∈ onListOk fastTravel ↔
        fastTravel._travelSe ≠ "" ∧ se = ⟨fastTravel._travelSe, 0, 100, 100⟩) ∧
      (∀ a b c e f, HostCall.reserveTransfer a b c e f ∈ onListOk fastTravel ↔
        a = fastTravel._mapId ∧ b = fastTravel._x ∧ c = fastTravel._y ∧
          e = fastTravel._dir ∧ f = 0) ∧
      L.run (onListOk fastTravel) = L.run fastTravel.takeCosts ∧
      L.run (onListOk fastTravel) =
        (L.loseGold fastTravel._goldCost).loseItem fastTravel._itemCostId
          fastTravel._itemCostAmount ∧
      ∃ p', getFastTravelPoint (changeFastTravelPointMap l n m x y d) n = some p' ∧
        ∀ a b c e f, HostCall.reserveTransfer a b c e f ∈ onListOk p' ↔
          a = m ∧ b = x ∧ c = y ∧ e = d ∧ f = 0 := by
  have hcalls : ∀ q : CGMZ_FastTravelPoint, ∀ a b c e f,
      HostCall.reserveTransfer a b c e f ∈ onListOk q ↔
        a = q._mapId ∧ b = q._x ∧ c = q._y ∧ e = q._dir ∧ f = 0 := by
    intro q a b c e f
    unfold onListOk CGMZ_FastTravelPoint.takeCosts
    by_cases hs : q._travelSe = "" <;> simp [hs]
  have hrun : L.run (onListOk fastTravel) = L.run fastTravel.takeCosts := by
    unfold onListOk CGMZ_FastTravelPoint.takeCosts
    by_cases hs : fastTravel._travelSe = "" <;>
      simp [hs, Ledger.run, Ledger.call]
  refine ⟨?_, ?_, hcalls fastTravel, hrun, ?_, ?_⟩
  · unfold onListOk CGMZ_FastTravelPoint.takeCosts
    simp
  · intro se
    unfold onListOk CGMZ_FastTravelPoint.takeCosts
    by_cases hs : fastTravel._travelSe = ""
    · simp [hs]
    · simp [hs]
  · rw [hrun]
    rfl
  · obtain ⟨p, _, hp'⟩ := getFastTravelPoint_changeFastTravelPointMap l n m x y d h
    exact ⟨_, hp', hcalls _⟩

/-- Witness for C18: `Cave`, moved to map 9, cell (1, 2), facing 4, is
travelled to from the ledger `purse`. -/
theorem onListOk_spec_witness :
    (∃ q ∈ [cavePoint], q._name = "Cave") ∧
      onListOk cavePoint =
        [HostCall.playSe ⟨"Warp", 0, 100, 100⟩, HostCall.loseGold 10,
          HostCall.loseItem 7 2 false, HostCall.reserveTransfer 4 5 6 8 0,
          HostCall.gotoSceneMap] ∧
      ∃ p', getFastTravelPoint (changeFastTravelPointMap [cavePoint] "Cave" 9 1 2 4) "Cave" =
          some p' ∧
        ∀ a b c e f, HostCall.reserveTransfer a b c e f ∈ onListOk p' ↔
          a = 9 ∧ b = 1 ∧ c = 2 ∧ e = 4 ∧ f = 0 := by
  have hex : ∃ q ∈ [cavePoint], q._name = "Cave" := ⟨cavePoint, by simp, by decide⟩
  have h := onListOk_spec cavePoint purse [cavePoint] "Cave" 9 1 2 4 hex
  exact ⟨hex, h.1.trans (by decide), h.2.2.2.2.2⟩

end CGMZ

/-! ## Distance -/

namespace Kron

open AI_base Game_Interpreter

/-- C19 fails on the code at a Pythagorean pair: the cells `(0, 0)` and
`(20, 99)` are exactly 101 map squares apart (`20 ^ 2 + 99 ^ 2 = 101 ^ 2`), so
the floored Euclidean distance of the specification is 101, but `getDistance`
returns 100: `Math.hypot(-20, -99)` is the binary64 value
`100.99999999999999`, the last one below 101, and `Math.floor` cuts it to 100.
`eventDistance` of two events on these cells is 100 as well, and
`eventInRange` with range 100 returns true. The two examples of the claim
hold on the code: the distance from `(0, 0)` to `(3, 4)` is 5, the one to
`(1, 1)` is 1. -/
theorem getDistance_pythagorean_pair :
    getDistance 0 0 20 99 = 100 ∧
      floorEuclidean (0 - 20) (0 - 99) = 101 ∧
      ((0 - 20 : Int) ^ 2 + (0 - 99) ^ 2 = 101 ^ 2) ∧
      mathHypot (-20) (-99) = 7107243161944063 / 2 ^ 46 ∧
      mathHypot (-20) (-99) < 101 ∧
      eventDistance (pairHost ⟨0, 0, 2⟩ ⟨20, 99, 2⟩ (fun _ _ => 0)) 1 1 2 = 100 ∧
      eventInRange (pairHost ⟨0, 0, 2⟩ ⟨20, 99, 2⟩ (fun _ _ => 0)) 1 1 2 100 = true ∧
      getDistance 0 0 3 4 = 5 ∧ getDistance 0 0 1 1 = 1 := by
  have hh : mathHypot (-20) (-99) = 7107243161944063 / 2 ^ 46 := by decide!
  refine ⟨by decide!, by decide!, by norm_num, hh, ?_, by decide!, by decide!, by decide!,
    by decide!⟩
  rw [hh]
  norm_num

/-- C20: the distance is symmetric, and it is 0 exactly when the two cells are
the same cell; the same holds for `eventDistance` of two actors. -/
theorem getDistance_symm_zero (h : Host) (eventId event1_id event2_id : Int)
    (ax ay bx cy : Int) :
    getDistance ax ay bx cy = getDistance bx cy ax ay ∧
      (getDistance ax ay bx cy = 0 ↔ ax = bx ∧ ay = cy) ∧
      eventDistance h eventId event1_id event2_id =
        eventDistance h eventId event2_id event1_id ∧
      (eventDistance h eventId event1_id event2_id = 0 ↔
        (getXY h event1_id eventId).X = (getXY h event2_id eventId).X ∧
          (getXY h event1_id eventId).Y = (getXY h event2_id eventId).Y) := by
  have hsymm : ∀ a b c e : Int, getDistance a b c e = getDistance c e a b :=
    fun a b c e => getDistance_comm a b c e
  have hzero : ∀ a b c e : Int, getDistance a b c e = 0 ↔ a = c ∧ b = e :=
    fun a b c e => getDistance_eq_zero_iff a b c e
  refine ⟨hsymm _ _ _ _, hzero _ _ _ _, ?_, ?_⟩
  · unfold eventDistance
    exact hsymm _ _ _ _
  · unfold eventDistance
    exact hzero _ _ _ _

end Kron

/-! ## Range and cone -/

namespace Kron

open AI_base Game_Interpreter

/-- C21: for every integer range, `eventInRange` is true exactly when
`eventDistance` is at most the range; so it is false for the distance minus 1,
true for the distance and for the distance plus 1, and for the range 0 it is
true exactly when the two actors stand on the same cell. -/
theorem eventInRange_iff (h : Host) (eventId event1_id event2_id range : Int) :
    (eventInRange h eventId event1_id event2_id range = true ↔
        eventDistance h eventId event1_id event2_id ≤ range) ∧
      eventInRange h eventId event1_id event2_id
        ((eventDistance h eventId event1_id event2_id - 1 : Int) : ℚ) = false ∧
      eventInRange h eventId event1_id event2_id
        ((eventDistance h eventId event1_id event2_id : Int) : ℚ) = true ∧
      eventInRange h eventId event1_id event2_id
        ((eventDistance h eventId event1_id event2_id + 1 : Int) : ℚ) = true ∧
      (eventInRange h eventId event1_id event2_id ((0 : Int) : ℚ) = true ↔
        (getXY h event1_id eventId).X = (getXY h event2_id eventId).X ∧
          (getXY h event1_id eventId).Y = (getXY h event2_id eventId).Y) := by
  have key : ∀ r : Int, eventInRange h eventId event1_id event2_id (r : ℚ) = true ↔
      eventDistance h eventId event1_id event2_id ≤ r := by
    intro r
    rw [eventInRange_eq_true_iff]
    exact Int.cast_le
  have hnonneg : 0 ≤ eventDistance h eventId event1_id event2_id := by
    unfold eventDistance
    exact getDistance_nonneg _ _ _ _
  refine ⟨key range, ?_, (key _).mpr le_rfl, (key _).mpr (by omega), ?_⟩
  · cases hb : eventInRange h eventId event1_id event2_id
      ((eventDistance h eventId event1_id event2_id - 1 : Int) : ℚ)
    · rfl
    · have := (key _).mp hb
      omega
  · rw [key 0]
    constructor
    · intro h0
      have hz : eventDistance h eventId event1_id event2_id = 0 := by omega
      unfold eventDistance at hz
      exact (getDistance_eq_zero_iff _ _ _ _).mp hz
    · rintro ⟨hx, hy⟩
      have hz : eventDistance h eventId event1_id event2_id = 0 := by
        unfold eventDistance
        exact (getDistance_eq_zero_iff _ _ _ _).mpr ⟨hx, hy⟩
      omega

end Kron
namespace Kron

open AI_base Game_Interpreter

/-- C22, as stated, fails: the observer on `(0, 0)` faces down, the target
stands on `(3, 10)`, the slope is the binary64 value of `0.3` and all cells
have one region id. The perpendicular offset 3 exceeds the slope times the
forward offset, `0.3 * 10 = 2.9999999999999998...`, so the target is outside
the view cone as the claim words it; but the plugin compares with the
binary64 product, which is rounded to 3, and `3 > 3` is false: `eventInSight`
returns true with range 100. -/
theorem eventInSight_rounded_product_counterexample :
    getDirection (pairHost ⟨0, 0, 2⟩ ⟨3, 10, 2⟩ (fun _ _ => 0)) 1 1 = 2 ∧
      roundBinary64 (3 / 10) = slope03 ∧
      slope03 * 10 < 3 ∧
      fmul slope03 10 = 3 ∧
      outsideViewCone (getDirection (pairHost ⟨0, 0, 2⟩ ⟨3, 10, 2⟩ (fun _ _ => 0)) 1 1)
        (getXY (pairHost ⟨0, 0, 2⟩ ⟨3, 10, 2⟩ (fun _ _ => 0)) 1 1)
        (getXY (pairHost ⟨0, 0, 2⟩ ⟨3, 10, 2⟩ (fun _ _ => 0)) 2 1)
        (slopeOrDefault (some slope03)) ∧
      eventInSight (pairHost ⟨0, 0, 2⟩ ⟨3, 10, 2⟩ (fun _ _ => 0)) 1 1 2 100 (some slope03) =
        true := by
  refine ⟨by decide, by decide!, by decide!, by decide!, ?_, by decide!⟩
  exact Or.inl ⟨by decide, Or.inr (by decide!)⟩

/-- C22 (amended): for an observer that faces 2, 4, 6 or 8, if the target is
not strictly inside the half-plane the observer faces, or its perpendicular
offset is greater than the binary64 product of the slope and its forward
offset, `eventInSight` returns false for every range and every region map; the
slope is the one in force, that is the slope given or 1 when it is omitted or
0. With the slope 1 in force and cells within `2 ^ 20` of the origin the
binary64 product is exact, and a target outside the view cone as the
specification words it is not seen. -/
theorem eventInSight_outside_cone (h : Host) (eventId event1_id event2_id : Int)
    (range : ℚ) (slope : Option ℚ)
    (hout : failsConeTest (getDirection h event1_id eventId) (getXY h event1_id eventId)
        (getXY h event2_id eventId) (slopeOrDefault slope) ∨
      (slopeOrDefault slope = 1 ∧ CellInRange (getXY h event1_id eventId) ∧
        CellInRange (getXY h event2_id eventId) ∧
        outsideViewCone (getDirection h event1_id eventId) (getXY h event1_id eventId)
          (getXY h event2_id eventId) 1)) :
    eventInSight h eventId event1_id event2_id range slope = false := by
  have hfail : failsConeTest (getDirection h event1_id eventId) (getXY h event1_id eventId)
      (getXY h event2_id eventId) (slopeOrDefault slope) := by
    rcases hout with hf | ⟨hs, ha, hb, ho⟩
    · exact hf
    · rw [hs]
      exact (failsConeTest_one_iff ha hb).mpr ho
  apply eventInSight_eq_false_of_not_true
  intro hs
  have hcone := ((eventInSight_eq_true_iff h eventId event1_id event2_id range slope).mp hs).2.1
    (recognized_of_failsConeTest hfail)
  exact not_inViewCone_of_failsConeTest hfail hcone

/-- Witness for C22: the observer on `(5, 5)` faces down and the target stands
on `(8, 5)`; the range is 100 and all cells have one region id: the target
fails the cone test of the plugin with slope 1 given, and it is outside the
view cone of the specification with the slope omitted. -/
theorem eventInSight_outside_cone_witness :
    failsConeTest (getDirection (pairHost ⟨5, 5, 2⟩ ⟨8, 5, 2⟩ (fun _ _ => 0)) 1 1)
        (getXY (pairHost ⟨5, 5, 2⟩ ⟨8, 5, 2⟩ (fun _ _ => 0)) 1 1)
        (getXY (pairHost ⟨5, 5, 2⟩ ⟨8, 5, 2⟩ (fun _ _ => 0)) 2 1) (slopeOrDefault (some 1)) ∧
      eventInSight (pairHost ⟨5, 5, 2⟩ ⟨8, 5, 2⟩ (fun _ _ => 0)) 1 1 2 100 (some 1) = false ∧
      outsideViewCone (getDirection (pairHost ⟨5, 5, 2⟩ ⟨8, 5, 2⟩ (fun _ _ => 0)) 1 1)
        (getXY (pairHost ⟨5, 5, 2⟩ ⟨8, 5, 2⟩ (fun _ _ => 0)) 1 1)
        (getXY (pairHost ⟨5, 5, 2⟩ ⟨8, 5, 2⟩ (fun _ _ => 0)) 2 1) 1 ∧
      eventInSight (pairHost ⟨5, 5, 2⟩ ⟨8, 5, 2⟩ (fun _ _ => 0)) 1 1 2 100 none = false := by
  have hfail : failsConeTest (getDirection (pairHost ⟨5, 5, 2⟩ ⟨8, 5, 2⟩ (fun _ _ => 0)) 1 1)
      (getXY (pairHost ⟨5, 5, 2⟩ ⟨8, 5, 2⟩ (fun _ _ => 0)) 1 1)
      (getXY (pairHost ⟨5, 5, 2⟩ ⟨8, 5, 2⟩ (fun _ _ => 0)) 2 1) (slopeOrDefault (some 1)) :=
    Or.inl ⟨by decide, Or.inl (by decide)⟩
  have hout : outsideViewCone (getDirection (pairHost ⟨5, 5, 2⟩ ⟨8, 5, 2⟩ (fun _ _ => 0)) 1 1)
      (getXY (pairHost ⟨5, 5, 2⟩ ⟨8, 5, 2⟩ (fun _ _ => 0)) 1 1)
      (getXY (pairHost ⟨5, 5, 2⟩ ⟨8, 5, 2⟩ (fun _ _ => 0)) 2 1) 1 :=
    Or.inl ⟨by decide, Or.inl (by decide)⟩
  have ha : CellInRange (getXY (pairHost ⟨5, 5, 2⟩ ⟨8, 5, 2⟩ (fun _ _ => 0)) 1 1) :=
    ⟨by decide!, by decide!⟩
  have hb : CellInRange (getXY (pairHost ⟨5, 5, 2⟩ ⟨8, 5, 2⟩ (fun _ _ => 0)) 2 1) :=
    ⟨by decide!, by decide!⟩
  exact ⟨hfail, eventInSight_outside_cone _ 1 1 2 100 (some 1) (Or.inl hfail), hout,
    eventInSight_outside_cone _ 1 1 2 100 none (Or.inr ⟨rfl, ha, hb, hout⟩)⟩

end Kron

/-! ## Line of sight -/

namespace Kron

open AI_base Game_Interpreter

/-- C23, as stated, fails: with the observer on `(5, 5)` facing down, the
target on `(6, 15)`, range 10 and slope 1, sample `i = 5` of the specified
line is the cell `(round(5 + 5*1/10), round(5 + 5*10/10)) = (6, 10)`, whose
region id differs from the one of the observer, and yet `eventInSight` returns
true: five binary64 additions of `0.1` to `5` give `5.499999999999998`, so the
loop tests the cell `(5, 10)`. -/
theorem eventInSight_blocked_sample_counterexample :
    lineCell ⟨5, 5⟩ ⟨6, 15⟩ 5 = (6, 10) ∧
      lookCell ⟨5, 5⟩ ⟨6, 15⟩ 5 = (5, 10) ∧
      (pairHost ⟨5, 5, 2⟩ ⟨6, 15, 2⟩ (fun x y => if x = 6 ∧ y = 10 then 1 else 0)).regionId 6 10 ≠
        (pairHost ⟨5, 5, 2⟩ ⟨6, 15, 2⟩
          (fun x y => if x = 6 ∧ y = 10 then 1 else 0)).regionId 5 5 ∧
      eventInSight
        (pairHost ⟨5, 5, 2⟩ ⟨6, 15, 2⟩ (fun x y => if x = 6 ∧ y = 10 then 1 else 0))
        1 1 2 10 (some 1) = true := by
  refine ⟨by decide!, by decide!, by decide, by decide!⟩

/-- C23 (amended): if some cell that the loop tests, `lookCell e1 e2 i` with
`i` from 0 to the number of steps (the rounding of the coordinates reached
after `i` binary64 additions of `diff / steps`), has a region id different
from the one of the cell of the observer, then `eventInSight` returns false,
whatever the range, the slope and the facing. -/
theorem eventInSight_blocked (h : Host) (eventId event1_id event2_id : Int) (range : ℚ)
    (slope : Option ℚ) (i : Nat)
    (hi : (i : Int) ≤ sightSteps (getXY h event1_id eventId) (getXY h event2_id eventId))
    (hblocked :
      h.regionId (lookCell (getXY h event1_id eventId) (getXY h event2_id eventId) i).1
          (lookCell (getXY h event1_id eventId) (getXY h event2_id eventId) i).2 ≠
        h.regionId (getXY h event1_id eventId).X (getXY h event1_id eventId).Y) :
    eventInSight h eventId event1_id event2_id range slope = false := by
  apply eventInSight_eq_false_of_not_true
  intro hs
  exact hblocked
    (((eventInSight_eq_true_iff h eventId event1_id event2_id range slope).mp hs).2.2 i hi)

/-- Witness for C23: the observer on `(5, 5)` facing down, the target on
`(5, 8)`, and the cell `(5, 7)`, tested at step 2, with another region id. -/
theorem eventInSight_blocked_witness :
    ((2 : Nat) : Int) ≤ sightSteps
        (getXY (pairHost ⟨5, 5, 2⟩ ⟨5, 8, 2⟩ (fun x y => if x = 5 ∧ y = 7 then 1 else 0)) 1 1)
        (getXY (pairHost ⟨5, 5, 2⟩ ⟨5, 8, 2⟩ (fun x y => if x = 5 ∧ y = 7 then 1 else 0)) 2 1) ∧
      lookCell ⟨5, 5⟩ ⟨5, 8⟩ 2 = (5, 7) ∧
      eventInSight (pairHost ⟨5, 5, 2⟩ ⟨5, 8, 2⟩ (fun x y => if x = 5 ∧ y = 7 then 1 else 0))
        1 1 2 5 (some 1) = false :=
  ⟨by decide!, by decide!,
    eventInSight_blocked _ 1 1 2 5 (some 1) 2 (by decide!) (by decide!)⟩


/-- C24, as stated, fails: on the walk from `(-3, 0)` to `(-2, 2)` the
coordinate `look_x` is `-2.5` at step 1, and the loop tests column `-2`, the
neighbouring integer of smaller absolute value; rounding half away from zero
would give `-3`. -/
theorem mathRound_negative_tie_counterexample :
    lookAt ((-3 : Int) : ℚ) (fdiv ((1 : Int) : ℚ) ((2 : Int) : ℚ)) 1 = -5 / 2 ∧
      lookCell ⟨-3, 0⟩ ⟨-2, 2⟩ 1 = (-2, 1) ∧
      mathRound (-5 / 2) = -2 ∧
      roundHalfAwayFromZero (-5 / 2) = -3 := by
  refine ⟨by decide!, by decide!, by decide!, by decide!⟩

/-- C24 (amended): every sample coordinate of the walk is rounded by
`Math.round`, to the nearest integer with a tie going to the larger integer:
`mathRound x` is the integer `n` with `n - 1/2 ≤ x < n + 1/2`, so `k + 1/2` is
mapped to `k + 1` for every integer `k` (2.5 to 3 and -2.5 to -2); this is
rounding half away from zero except on the negative ties. -/
theorem mathRound_spec (x : ℚ) (k : Int) (e1 e2 : XY) (i : Nat) :
    lookCell e1 e2 i =
        (mathRound (lookAt e1.X (fdiv (e2.X - e1.X : Int) (sightSteps e1 e2)) i),
          mathRound (lookAt e1.Y (fdiv (e2.Y - e1.Y : Int) (sightSteps e1 e2)) i)) ∧
      (mathRound x : ℚ) - 1 / 2 ≤ x ∧ x < (mathRound x : ℚ) + 1 / 2 ∧
      mathRound ((k : ℚ) + 1 / 2) = k + 1 ∧
      mathRound (5 / 2) = 3 ∧ mathRound (-5 / 2) = -2 ∧
      (mathRound x = roundHalfAwayFromZero x ↔ ¬ (x < 0 ∧ ∃ j : Int, x = (j : ℚ) + 1 / 2)) := by
  have hfl := Int.floor_le (x + 1 / 2)
  have hlt := Int.lt_floor_add_one (x + 1 / 2)
  refine ⟨rfl, ?_, ?_, ?_, by decide!, by decide!, ?_⟩
  · unfold mathRound
    linarith
  · unfold mathRound
    linarith
  · unfold mathRound
    rw [Int.floor_eq_iff]
    constructor
    · push_cast
      linarith
    · push_cast
      linarith
  · unfold mathRound roundHalfAwayFromZero
    by_cases hx : 0 ≤ x
    · simp only [hx, if_true, true_iff, not_and]
      intro hneg
      exact absurd hx (not_le.mpr hneg)
    · simp only [hx, if_false]
      have hx' : x < 0 := not_le.mp hx
      constructor
      · rintro heq ⟨_, j, hj⟩
        have h1 : ⌊x + 1 / 2⌋ = j + 1 := by
          rw [Int.floor_eq_iff, hj]
          constructor <;> push_cast <;> linarith
        have h2 : ⌊-x + 1 / 2⌋ = -j := by
          rw [Int.floor_eq_iff, hj]
          constructor <;> push_cast <;> linarith
        rw [h1, h2] at heq
        omega
      · intro hno
        have hne : (⌊x + 1 / 2⌋ : ℚ) ≠ x + 1 / 2 := by
          intro heq
          apply hno
          refine ⟨hx', ⌊x + 1 / 2⌋ - 1, ?_⟩
          push_cast
          linarith
        have hlt2 : (⌊x + 1 / 2⌋ : ℚ) < x + 1 / 2 := lt_of_le_of_ne hfl hne
        have h2 : ⌊-x + 1 / 2⌋ = -⌊x + 1 / 2⌋ := by
          rw [Int.floor_eq_iff]
          constructor <;> push_cast <;> linarith
        rw [h2]
        omega


/-- C25: whenever `eventInSight` returns true, the cell of the target has the
region id of the cell of the observer, for actors on cells within `2 ^ 20` of
the origin: the last cell that the loop tests is the cell of the target, as is
the last sample of the line under exact arithmetic, so a target on a cell with
another region id is never seen. -/
theorem eventInSight_target_region (h : Host) (eventId event1_id event2_id : Int)
    (range : ℚ) (slope : Option ℚ)
    (ha : CellInRange (getXY h event1_id eventId))
    (hb : CellInRange (getXY h event2_id eventId))
    (hs : eventInSight h eventId event1_id event2_id range slope = true) :
    h.regionId (getXY h event2_id eventId).X (getXY h event2_id eventId).Y =
        h.regionId (getXY h event1_id eventId).X (getXY h event1_id eventId).Y ∧
      lookCell (getXY h event1_id eventId) (getXY h event2_id eventId)
          (sightSteps (getXY h event1_id eventId) (getXY h event2_id eventId)).toNat =
        ((getXY h event2_id eventId).X, (getXY h event2_id eventId).Y) ∧
      lineCell (getXY h event1_id eventId) (getXY h event2_id eventId)
          (sightSteps (getXY h event1_id eventId) (getXY h event2_id eventId)).toNat =
        ((getXY h event2_id eventId).X, (getXY h event2_id eventId).Y) := by
  have hlast := lookCell_last _ _ ha hb
  refine ⟨?_, hlast, lineCell_last _ _⟩
  have hall := ((eventInSight_eq_true_iff h eventId event1_id event2_id range slope).mp hs).2.2
  have h0 := sightSteps_nonneg (getXY h event1_id eventId) (getXY h event2_id eventId)
  have := hall (sightSteps (getXY h event1_id eventId) (getXY h event2_id eventId)).toNat
    (le_of_eq (Int.toNat_of_nonneg h0))
  rw [hlast] at this
  exact this

/-- Witness for C25: the observer on `(5, 5)` facing down sees the target on
`(5, 8)` with range 5 and slope 1, all cells having one region id. -/
theorem eventInSight_target_region_witness :
    CellInRange (getXY (uniformHost 2) 1 1) ∧ CellInRange (getXY (uniformHost 2) 2 1) ∧
      eventInSight (uniformHost 2) 1 1 2 5 (some 1) = true ∧
      (uniformHost 2).regionId (getXY (uniformHost 2) 2 1).X (getXY (uniformHost 2) 2 1).Y =
        (uniformHost 2).regionId (getXY (uniformHost 2) 1 1).X (getXY (uniformHost 2) 1 1).Y ∧
      lookCell (getXY (uniformHost 2) 1 1) (getXY (uniformHost 2) 2 1)
          (sightSteps (getXY (uniformHost 2) 1 1) (getXY (uniformHost 2) 2 1)).toNat =
        ((getXY (uniformHost 2) 2 1).X, (getXY (uniformHost 2) 2 1).Y) := by
  have h1 : CellInRange (getXY (uniformHost 2) 1 1) := ⟨by decide!, by decide!⟩
  have h2 : CellInRange (getXY (uniformHost 2) 2 1) := ⟨by decide!, by decide!⟩
  have h3 : eventInSight (uniformHost 2) 1 1 2 5 (some 1) = true := by decide!
  have h := eventInSight_target_region (uniformHost 2) 1 1 2 5 (some 1) h1 h2 h3
  exact ⟨h1, h2, h3, h.1, h.2.1⟩


/-- C26: for an observer that faces 2, 4, 6 or 8 and a target on the cell of
the observer, `eventInSight` returns false for every range, every slope and
every region map: the number of steps is 0 and the walk tests only the cell of
the observer, but the strict comparison of the cone test fails at offset 0. -/
theorem eventInSight_same_cell (h : Host) (eventId event1_id event2_id : Int) (range : ℚ)
    (slope : Option ℚ)
    (hdir : getDirection h event1_id eventId = 2 ∨ getDirection h event1_id eventId = 4 ∨
      getDirection h event1_id eventId = 6 ∨ getDirection h event1_id eventId = 8)
    (hsame : getXY h event1_id eventId = getXY h event2_id eventId) :
    eventInSight h eventId event1_id event2_id range slope = false ∧
      sightSteps (getXY h event1_id eventId) (getXY h event2_id eventId) = 0 ∧
      walkCells (getXY h event1_id eventId) (getXY h event2_id eventId) =
        [((getXY h event1_id eventId).X, (getXY h event1_id eventId).Y)] ∧
      ¬ inViewCone (getDirection h event1_id eventId) (getXY h event1_id eventId)
        (getXY h event2_id eventId) (slopeOrDefault slope) := by
  have hcone : ¬ inViewCone (getDirection h event1_id eventId) (getXY h event1_id eventId)
      (getXY h event2_id eventId) (slopeOrDefault slope) := by
    rw [← hsame]
    unfold inViewCone
    rintro (⟨_, hlt, _⟩ | ⟨_, hlt, _⟩ | ⟨_, hlt, _⟩ | ⟨_, hlt, _⟩) <;>
      exact lt_irrefl _ hlt
  have hsteps : sightSteps (getXY h event1_id eventId) (getXY h event2_id eventId) = 0 := by
    rw [← hsame]
    simp [sightSteps]
  refine ⟨?_, hsteps, ?_, hcone⟩
  · apply eventInSight_eq_false_of_not_true
    intro hs
    exact hcone
      (((eventInSight_eq_true_iff h eventId event1_id event2_id range slope).mp hs).2.1 hdir)
  · rw [walkCells, hsteps, show List.range ((0 : Int).toNat + 1) = [0] from rfl]
    simp [lookCell, lookAt, mathRound_intCast]

/-- Witness for C26: observer and target both on `(5, 5)`, the observer facing
down, range 5, slope omitted, one region id everywhere. -/
theorem eventInSight_same_cell_witness :
    getDirection (pairHost ⟨5, 5, 2⟩ ⟨5, 5, 4⟩ (fun _ _ => 0)) 1 1 = 2 ∧
      getXY (pairHost ⟨5, 5, 2⟩ ⟨5, 5, 4⟩ (fun _ _ => 0)) 1 1 =
        getXY (pairHost ⟨5, 5, 2⟩ ⟨5, 5, 4⟩ (fun _ _ => 0)) 2 1 ∧
      eventInSight (pairHost ⟨5, 5, 2⟩ ⟨5, 5, 4⟩ (fun _ _ => 0)) 1 1 2 5 none = false :=
  ⟨by decide, rfl,
    (eventInSight_same_cell (pairHost ⟨5, 5, 2⟩ ⟨5, 5, 4⟩ (fun _ _ => 0)) 1 1 2 5 none
      (Or.inl (by decide)) rfl).1⟩

/-- C27: a slope of 0 is replaced by 1: for every host, every pair of actors
and every range, `eventInSight` with slope 0 returns what it returns with
slope 1 and with the slope omitted; so with slope 0 a target that is not
straight ahead, on `(6, 8)` for an observer on `(5, 5)` facing down, is seen. -/
theorem eventInSight_slope_zero (h : Host) (eventId event1_id event2_id : Int) (range : ℚ) :
    eventInSight h eventId event1_id event2_id range (some 0) =
        eventInSight h eventId event1_id event2_id range (some 1) ∧
      eventInSight h eventId event1_id event2_id range (some 0) =
        eventInSight h eventId event1_id event2_id range none ∧
      slopeOrDefault (some 0) = 1 ∧
      eventInSight (pairHost ⟨5, 5, 2⟩ ⟨6, 8, 2⟩ (fun _ _ => 0)) 1 1 2 5 (some 0) = true := by
  refine ⟨?_, ?_, by simp [slopeOrDefault], by decide!⟩
  · simp [eventInSight, slopeOrDefault]
  · simp [eventInSight, slopeOrDefault]


/-- C28: for two distinct cells the walk of `eventInSight` has
`steps + 1 = max(|dx|, |dy|) + 1` cells to test, the first one the cell of the
observer, and the loop returns true exactly when each of them has the region id
it compares with (it stops at the first one that has not). Under exact
arithmetic two consecutive samples of the line differ by exactly 1 along the
axis of the larger offset and by at most 1 along the other axis; the cells that
the loop computes in binary64 do so as well for cells within `2 ^ 20` of the
origin. -/
theorem walkCells_connected (e1 e2 : XY) (hne : e1.X ≠ e2.X ∨ e1.Y ≠ e2.Y) :
    (walkCells e1 e2).length = (sightSteps e1 e2).toNat + 1 ∧
      sightSteps e1 e2 = max |e2.X - e1.X| |e2.Y - e1.Y| ∧
      1 ≤ sightSteps e1 e2 ∧
      (walkCells e1 e2).head? = some (e1.X, e1.Y) ∧
      (∀ (h : Host) (r0 : Int),
        lookLoop h r0 (fdiv (e2.X - e1.X : Int) (sightSteps e1 e2))
            (fdiv (e2.Y - e1.Y : Int) (sightSteps e1 e2)) (sightSteps e1 e2).toNat e1.X e1.Y =
          true ↔ ∀ c ∈ walkCells e1 e2, h.regionId c.1 c.2 = r0) ∧
      (∀ i : Nat, (i : Int) + 1 ≤ sightSteps e1 e2 →
        (|e2.Y - e1.Y| ≤ |e2.X - e1.X| →
          |(lineCell e1 e2 (i + 1)).1 - (lineCell e1 e2 i).1| = 1) ∧
        (|e2.X - e1.X| ≤ |e2.Y - e1.Y| →
          |(lineCell e1 e2 (i + 1)).2 - (lineCell e1 e2 i).2| = 1) ∧
        |(lineCell e1 e2 (i + 1)).1 - (lineCell e1 e2 i).1| ≤ 1 ∧
        |(lineCell e1 e2 (i + 1)).2 - (lineCell e1 e2 i).2| ≤ 1) ∧
      (CellInRange e1 → CellInRange e2 →
        ∀ i : Nat, (i : Int) + 1 ≤ sightSteps e1 e2 →
          (|e2.Y - e1.Y| ≤ |e2.X - e1.X| →
            |(lookCell e1 e2 (i + 1)).1 - (lookCell e1 e2 i).1| = 1) ∧
          (|e2.X - e1.X| ≤ |e2.Y - e1.Y| →
            |(lookCell e1 e2 (i + 1)).2 - (lookCell e1 e2 i).2| = 1) ∧
          |(lookCell e1 e2 (i + 1)).1 - (lookCell e1 e2 i).1| ≤ 1 ∧
          |(lookCell e1 e2 (i + 1)).2 - (lookCell e1 e2 i).2| ≤ 1) := by
  obtain ⟨hbx, hby, _, hmax⟩ := sightSteps_bounds e1 e2
  have h0 := sightSteps_nonneg e1 e2
  have hs1 : 1 ≤ sightSteps e1 e2 := by
    rcases hne with hx | hy
    · have : 0 < |e2.X - e1.X| := abs_pos.mpr (by omega)
      omega
    · have : 0 < |e2.Y - e1.Y| := abs_pos.mpr (by omega)
      omega
  have hdomx : |e2.Y - e1.Y| ≤ |e2.X - e1.X| → |e2.X - e1.X| = sightSteps e1 e2 := by
    intro hle
    rw [hmax, max_eq_left hle]
  have hdomy : |e2.X - e1.X| ≤ |e2.Y - e1.Y| → |e2.Y - e1.Y| = sightSteps e1 e2 := by
    intro hle
    rw [hmax, max_eq_right hle]
  refine ⟨by simp [walkCells], hmax, hs1, ?_, ?_, ?_, ?_⟩
  · rw [walkCells, List.range_succ_eq_map]
    simp [lookCell_zero]
  · intro h r0
    rw [lookLoop_eq_true_iff]
    constructor
    · intro hall c hc
      simp only [walkCells, List.mem_map, List.mem_range] at hc
      obtain ⟨i, hi, rfl⟩ := hc
      exact hall i (by omega)
    · intro hall i hi
      exact hall (lookCell e1 e2 i) (by
        simp only [walkCells, List.mem_map, List.mem_range]
        exact ⟨i, by omega, rfl⟩)
  · intro i hi
    have hx := lineAxis_step e1.X (e2.X - e1.X) (sightSteps e1 e2) hs1 hbx i
    have hy := lineAxis_step e1.Y (e2.Y - e1.Y) (sightSteps e1 e2) hs1 hby i
    exact ⟨fun hle => hx.2 (hdomx hle), fun hle => hy.2 (hdomy hle), hx.1, hy.1⟩
  · intro h1 h2 i hi
    have hs2 := sightSteps_le_of_inRange e1 e2 h1 h2
    have hx := lookAt_round_step e1.X (e2.X - e1.X) (sightSteps e1 e2) hs1 hbx h1.1 hs2 i hi
    have hy := lookAt_round_step e1.Y (e2.Y - e1.Y) (sightSteps e1 e2) hs1 hby h1.2 hs2 i hi
    exact ⟨fun hle => hx.2 (hdomx hle), fun hle => hy.2 (hdomy hle), hx.1, hy.1⟩

/-- Witness for C28: the walk from `(2, 0)` to `(3, 6)` has 7 cells to test and
starts on `(2, 0)`. -/
theorem walkCells_connected_witness :
    (((⟨2, 0⟩ : XY).X ≠ (⟨3, 6⟩ : XY).X ∨ (⟨2, 0⟩ : XY).Y ≠ (⟨3, 6⟩ : XY).Y) ∧
      (walkCells ⟨2, 0⟩ ⟨3, 6⟩).length = 7 ∧
      sightSteps ⟨2, 0⟩ ⟨3, 6⟩ = 6) ∧
      (walkCells ⟨2, 0⟩ ⟨3, 6⟩).head? = some (2, 0) := by
  have hne : (⟨2, 0⟩ : XY).X ≠ (⟨3, 6⟩ : XY).X ∨ (⟨2, 0⟩ : XY).Y ≠ (⟨3, 6⟩ : XY).Y :=
    Or.inl (by decide)
  have h := walkCells_connected ⟨2, 0⟩ ⟨3, 6⟩ hne
  have hsteps : sightSteps ⟨2, 0⟩ ⟨3, 6⟩ = 6 := by
    rw [h.2.1]
    decide
  refine ⟨⟨hne, ?_, hsteps⟩, h.2.2.2.1⟩
  rw [h.1, hsteps]
  rfl

end Kron
